import Mathlib

/-! Lee: the route trie and the router.

A shallow embedding of `router.go` and `trie.go` of the Lee web framework, and
theorems about pattern parsing, trie insertion and search, and the parameter
map that `getRoute` derives from a match.

Modelling conventions.

* A Go `string` is a byte sequence.  The router only splits on `'/'`, tests the
  first byte against `':'` and `'*'`, drops the first byte and joins with `'/'`;
  a string is modelled as a list of characters (`Str`).
* A Go `map[string]T` is modelled as an association list with unique keys
  (`lookup`, `assign`); a `nil` map reads like the empty map and is `[]`.
* A `*node` held in `childrenMap` aliases an element of `children`; it is
  modelled as the position of that element in `children`.
* `insert` and `search` walk `parts` from index `height`; the embedding passes
  the remaining segments `parts[height:]` instead of the pair `(parts, height)`.
* An index-out-of-range panic in `getRoute` is the outer `none` of its result.
* What a call writes is stated on a second embedding of the same statements
  over an explicit memory (section "The router in memory"), in which a `*node`
  is an address and every assignment of the source is a write to the memory.
-/

namespace Lee

/-- A Go string, as its sequence of characters. -/
abbrev Str := List Char

/-! ## Go library functions used by the router -/

/-- The call `strings.Split(s, sep)` for a one-character separator: the pieces
of `s` between consecutive separators (`n` separators give `n + 1` pieces). -/
def split (sep : Char) : Str → List Str
  | [] => [[]]
  | c :: cs =>
    if c = sep then [] :: split sep cs
    else
      match split sep cs with
      | [] => [[c]]
      | p :: ps => (c :: p) :: ps

/-- The call `strings.Join(elems, "/")`. -/
def join (elems : List Str) : Str := List.intercalate ['/'] elems

/-- Reading `m[k]` from a Go map; `none` when the key is absent. -/
def lookup {ν : Type} : List (Str × ν) → Str → Option ν
  | [], _ => none
  | (k', v) :: m, k => if k' = k then some v else lookup m k

/-- The assignment `m[k] = v` on a Go map. -/
def assign {ν : Type} : List (Str × ν) → Str → ν → List (Str × ν)
  | [], k, v => [(k, v)]
  | (k', v') :: m, k, v => if k' = k then (k, v) :: m else (k', v') :: assign m k v

/-! ## router.go: parsePattern -/

/-- The loop of `parsePattern` over the pieces `vs`, with the slice `parts`
built so far: a non-empty piece is appended, and the loop breaks after
appending a piece whose first byte is `'*'`. -/
def parseLoop : List Str → List Str → List Str
  | [], parts => parts
  | item :: vs, parts =>
    if item ≠ [] then
      if item.head? = some '*' then parts ++ [item]
      else parseLoop vs (parts ++ [item])
    else parseLoop vs parts

/-- The function `parsePattern(pattern)`. -/
def parsePattern (pattern : Str) : List Str :=
  parseLoop (split '/' pattern) []

/-! ## trie.go -/

/-- The struct `node`.  `childrenMap` maps a static segment text to the
position in `children` of the child it points to. -/
structure node where
  pattern : Str
  part : Str
  children : List node
  isWild : Bool
  childrenMap : List (Str × Nat)

/-- The zero value `&node{}`. -/
def emptyNode : node := ⟨[], [], [], false, []⟩

/-- Position of the first child with `isWild` set (the loop of `matchChild`). -/
def firstWild : List node → Option Nat
  | [] => none
  | c :: cs => if c.isWild then some 0 else (firstWild cs).map (· + 1)

/-- The method `n.matchChild(part)`: the static child registered for `part`
when there is one, else the first wild child; the result is the child's
position in `n.children`. -/
def node.matchChild (n : node) (part : Str) : Option Nat :=
  match lookup n.childrenMap part with
  | some j => some j
  | none => firstWild n.children

/-- The method `n.matchChildren(part)`: the static child registered for `part`
(if any) followed by every wild child, in child order. -/
def node.matchChildren (n : node) (part : Str) : List node :=
  (match lookup n.childrenMap part with
   | some j => (n.children[j]?).toList
   | none => []) ++ n.children.filter (fun c => c.isWild)

/-- The method `n.insert(pattern, parts, height)`; the list argument is
`parts[height:]`.  A matched child is updated in place (through its pointer);
a new child is appended and, when it is not wild, entered in `childrenMap`.
The test `part[0] == ':' || part[0] == '*'` reads the first character of a
segment; `addRoute` only passes segments of `parsePattern`, which are
non-empty. -/
def node.insert (pattern : Str) : List Str → node → node
  | [], n => { n with pattern := pattern }
  | part :: rest, n =>
    match n.matchChild part with
    | some j => { n with children := n.children.modify (node.insert pattern rest) j }
    | none =>
      let isWild : Bool := part.head? = some ':' || part.head? = some '*'
      let child : node := ⟨[], part, [], isWild, []⟩
      { n with
        children := n.children ++ [node.insert pattern rest child]
        childrenMap :=
          if !isWild then assign n.childrenMap part n.children.length
          else n.childrenMap }

/-- The method `n.search(parts, height)`; the list argument is
`parts[height:]`.  `none` is the `nil` result. -/
def node.search : List Str → node → Option node
  | [], n => if n.pattern = [] then none else some n
  | part :: rest, n =>
    if n.part.head? = some '*' then
      if n.pattern = [] then none else some n
    else (n.matchChildren part).findSome? (node.search rest)

/-! ## router.go: the router -/

/-- The struct `router`, over the type `H` of handler references.  The
parameter pool is not used by `addRoute` and `getRoute`. -/
structure router (H : Type) where
  roots : List (Str × node)
  handlers : List (Str × H)

/-- The constructor `newRouter()`. -/
def newRouter {H : Type} : router H := ⟨[], []⟩

/-- The method `r.addRoute(method, pattern, handler)`. -/
def router.addRoute {H : Type} (r : router H) (method pattern : Str) (handler : H) :
    router H :=
  let parts := parsePattern pattern
  let key := method ++ ['-'] ++ pattern
  let root := (lookup r.roots method).getD emptyNode
  { roots := assign r.roots method (root.insert pattern parts)
    handlers := assign r.handlers key handler }

/-- The parameter loop of `getRoute` over the segments of the matched pattern,
from position `index`, with the map `params` built so far: a segment `:name`
binds `name` to `searchParts[index]`; a segment `*name` longer than one
character binds `name` to the join of `searchParts[index:]` and ends the loop.
`none` is an index-out-of-range panic. -/
def bindParams (searchParts : List Str) :
    List Str → Nat → List (Str × Str) → Option (List (Str × Str))
  | [], _, params => some params
  | part :: rest, index, params =>
    let bound : Option (List (Str × Str)) :=
      if part.head? = some ':' then
        (searchParts[index]?).map (fun v => assign params part.tail v)
      else some params
    match bound with
    | none => none
    | some params1 =>
      if part.head? = some '*' ∧ part.length > 1 then
        if index ≤ searchParts.length then
          some (assign params1 part.tail (join (searchParts.drop index)))
        else none
      else bindParams searchParts rest (index + 1) params1

/-- The method `r.getRoute(method, path)`: the matched node (`none` for `nil`)
and the parameter map. -/
def router.getRoute {H : Type} (r : router H) (method path : Str) :
    Option (Option node × List (Str × Str)) :=
  let searchParts := parsePattern path
  match lookup r.roots method with
  | none => some (none, [])
  | some root =>
    match root.search searchParts with
    | some n =>
      (bindParams searchParts (parsePattern n.pattern) 0 []).map (fun ps => (some n, ps))
    | none => some (none, [])

/-- The router obtained from the empty router by the `addRoute` calls listed in
`rs` (method, pattern, handler), in order. -/
def addRoutes {H : Type} (rs : List (Str × Str × H)) : router H :=
  rs.foldl (fun r x => r.addRoute x.1 x.2.1 x.2.2) newRouter

/-- The router of `newTestRouter()` in `lee_test.go`; the handlers are `nil`. -/
def newTestRouter : router Unit :=
  addRoutes
    [("GET".toList, "/".toList, ()),
     ("GET".toList, "/hello/:name".toList, ()),
     ("GET".toList, "/hello/b/c".toList, ()),
     ("GET".toList, "/hi/:name".toList, ()),
     ("GET".toList, "/assets/*filepath".toList, ())]

/-- What a caller observes of a `getRoute` result: the stored pattern of the
matched node and the parameter map, as Lean strings. -/
def observe (res : Option (Option node × List (Str × Str))) :
    Option (Option String × List (String × String)) :=
  res.map (fun x =>
    (x.1.map (fun n => String.mk n.pattern),
     x.2.map (fun kv => (String.mk kv.1, String.mk kv.2))))

/-! ## router.go: handle -/

/-- An entry of a context's handler list, as far as `handle` makes one:
`route h` is the value `r.handlers[key]` read from the registry (`none` when
the key is absent, the nil function), `notFound` is the closure that writes
the 404 response for the requested path. -/
inductive HandlerRef (H : Type) where
  | route (h : Option H)
  | notFound

/-- Modelled from the spec: the request context `Context`, whose declaration is
not among the sources; the fields that `handle` uses are the read-only strings
`Method` and `Path`, the mutable parameter map `Params` and the mutable ordered
handler list `handlers`. -/
structure Context (H : Type) where
  Method : Str
  Path : Str
  Params : List (Str × Str)
  handlers : List (HandlerRef H)

/-- The method `r.handle(c)`.  The advance operation `c.Next()` of the context
is not among the sources and is the parameter `Next`, applied to the context as
`handle` leaves it; `none` is a panic of `getRoute`. -/
def router.handle {H σ : Type} (r : router H) (Next : Context H → σ) (c : Context H) :
    Option σ :=
  match r.getRoute c.Method c.Path with
  | none => none
  | some (some n, params) =>
    let key := c.Method ++ ['-'] ++ n.pattern
    some (Next { c with
      Params := params
      handlers := c.handlers ++ [HandlerRef.route (lookup r.handlers key)] })
  | some (none, _) =>
    some (Next { c with handlers := c.handlers ++ [HandlerRef.notFound] })

/-! ## The router in memory

The definitions above identify a node with the subtree below it, which is what
the matching claims need.  To state what a call writes, the same statements are
embedded here over an explicit memory: a `*node` is an address, a method reads
node objects from the memory and passes the memory on, and every assignment of
the source to a field of a node, to an entry of `r.roots` or `r.handlers`, or
to an entry of a string map is a write to the memory.  The slices that a call
makes for itself and hands to nobody but its caller (`parts` in `parsePattern`,
`nodes` in `matchChildren`) are values.  As in `node.insert` above, the test
`part[0] == ':' || part[0] == '*'` reads the first character of a segment. -/

/-- A `node` object in memory.  The pointers in `children` and `childrenMap`
are addresses of node objects. -/
structure cell where
  pattern : Str
  part : Str
  children : List Nat
  isWild : Bool
  childrenMap : List (Str × Nat)
deriving DecidableEq

/-- The memory of a router: the node objects by address, the maps `r.roots`
(method to the address of the root node) and `r.handlers`, and the objects made
by `make(map[string]string)`, by address.  An address outside `nodes` is the
nil pointer (or a dangling one): reading through it panics.  The parameter pool
of the router is not used by `addRoute` and `getRoute`. -/
structure memory (H : Type) where
  nodes : List cell
  roots : List (Str × Nat)
  handlers : List (Str × H)
  maps : List (List (Str × Str))

/-- A statement sequence that starts in a memory and ends in a memory, with a
result; the result `none` is a panic. -/
abbrev Run (H : Type) (α : Type) := memory H → Option α × memory H

/-- The memory of `newRouter()`. -/
def Mem.newRouter {H : Type} : memory H := ⟨[], [], [], []⟩

/-- Reading the node object behind the pointer `a`. -/
def Mem.load {H : Type} (a : Nat) : Run H cell := fun μ => (μ.nodes[a]?, μ)

/-- Writing the node object behind the pointer `a`. -/
def Mem.store {H : Type} (a : Nat) (c : cell) : Run H Unit := fun μ =>
  if a < μ.nodes.length then (some (), { μ with nodes := μ.nodes.set a c })
  else (none, μ)

/-- The allocation `&node{...}`: the new object gets the next address. -/
def Mem.alloc {H : Type} (c : cell) : Run H Nat := fun μ =>
  (some μ.nodes.length, { μ with nodes := μ.nodes ++ [c] })

/-- The allocation `make(map[string]string)`. -/
def Mem.makeMap {H : Type} : Run H Nat := fun μ =>
  (some μ.maps.length, { μ with maps := μ.maps ++ [[]] })

/-- The assignment `params[k] = v` through the map pointer `a`. -/
def Mem.storeMap {H : Type} (a : Nat) (k v : Str) : Run H Unit := fun μ =>
  match μ.maps[a]? with
  | some mp => (some (), { μ with maps := μ.maps.set a (assign mp k v) })
  | none => (none, μ)

/-- The loop `for _, child := range n.children` of `matchChild`: the first
child with `isWild` set, `none` for `nil`. -/
def Mem.firstWild {H : Type} : List Nat → Run H (Option Nat)
  | [] => fun μ => (some none, μ)
  | child :: rest => fun μ =>
    match Mem.load child μ with
    | (some c, μ1) => if c.isWild then (some (some child), μ1) else Mem.firstWild rest μ1
    | (none, μ1) => (none, μ1)

/-- The method `n.matchChild(part)`.  The test `child != nil` on the entry of
`childrenMap` is the test that the address is that of a node object. -/
def Mem.matchChild {H : Type} (n : Nat) (part : Str) : Run H (Option Nat) := fun μ =>
  match Mem.load n μ with
  | (some c, μ1) =>
    match lookup c.childrenMap part with
    | some child =>
      if child < μ1.nodes.length then (some (some child), μ1)
      else Mem.firstWild c.children μ1
    | none => Mem.firstWild c.children μ1
  | (none, μ1) => (none, μ1)

/-- The loop `for _, child := range n.children` of `matchChildren`, with the
slice `nodes` built so far. -/
def Mem.wildLoop {H : Type} : List Nat → List Nat → Run H (List Nat)
  | [], nodes => fun μ => (some nodes, μ)
  | child :: rest, nodes => fun μ =>
    match Mem.load child μ with
    | (some c, μ1) => Mem.wildLoop rest (if c.isWild then nodes ++ [child] else nodes) μ1
    | (none, μ1) => (none, μ1)

/-- The method `n.matchChildren(part)`; the slice `nodes` is a value, and the
test `child != nil` is the test that the address is that of a node object. -/
def Mem.matchChildren {H : Type} (n : Nat) (part : Str) : Run H (List Nat) := fun μ =>
  match Mem.load n μ with
  | (some c, μ1) =>
    Mem.wildLoop c.children
      (match lookup c.childrenMap part with
       | some child => if child < μ1.nodes.length then [child] else []
       | none => []) μ1
  | (none, μ1) => (none, μ1)

/-- The loop `for _, child := range children` of `search`, over the recursive
call `f`. -/
def Mem.searchLoop {H : Type} (f : Nat → Run H (Option Nat)) : List Nat → Run H (Option Nat)
  | [] => fun μ => (some none, μ)
  | child :: rest => fun μ =>
    match f child μ with
    | (some (some result), μ1) => (some (some result), μ1)
    | (some none, μ1) => Mem.searchLoop f rest μ1
    | (none, μ1) => (none, μ1)

/-- The method `n.search(parts, height)`; the list argument is
`parts[height:]`. -/
def Mem.search {H : Type} : List Str → Nat → Run H (Option Nat)
  | [], n => fun μ =>
    match Mem.load n μ with
    | (some c, μ1) => (some (if c.pattern = [] then none else some n), μ1)
    | (none, μ1) => (none, μ1)
  | part :: rest, n => fun μ =>
    match Mem.load n μ with
    | (some c, μ1) =>
      if c.part.head? = some '*' then (some (if c.pattern = [] then none else some n), μ1)
      else
        match Mem.matchChildren n part μ1 with
        | (some children, μ2) => Mem.searchLoop (Mem.search rest) children μ2
        | (none, μ2) => (none, μ2)
    | (none, μ1) => (none, μ1)

/-- The method `n.insert(pattern, parts, height)`; the list argument is
`parts[height:]`. -/
def Mem.insert {H : Type} (pattern : Str) : List Str → Nat → Run H Unit
  | [], n => fun μ =>
    match Mem.load n μ with
    | (some c, μ1) => Mem.store n { c with pattern := pattern } μ1
    | (none, μ1) => (none, μ1)
  | part :: rest, n => fun μ =>
    match Mem.matchChild n part μ with
    | (some (some child), μ1) => Mem.insert pattern rest child μ1
    | (some none, μ1) =>
      let isWild : Bool := part.head? = some ':' || part.head? = some '*'
      match Mem.alloc ⟨[], part, [], isWild, []⟩ μ1 with
      | (some child, μ2) =>
        match Mem.load n μ2 with
        | (some c, μ3) =>
          match Mem.store n
              { c with
                children := c.children ++ [child]
                childrenMap :=
                  if !isWild then assign c.childrenMap part child else c.childrenMap } μ3 with
          | (some _, μ4) => Mem.insert pattern rest child μ4
          | (none, μ4) => (none, μ4)
        | (none, μ3) => (none, μ3)
      | (none, μ2) => (none, μ2)
    | (none, μ1) => (none, μ1)

/-- The method `r.addRoute(method, pattern, handler)`. -/
def Mem.addRoute {H : Type} (method pattern : Str) (handler : H) : Run H Unit := fun μ =>
  let parts := parsePattern pattern
  let key := method ++ ['-'] ++ pattern
  let μ1 : memory H :=
    match lookup μ.roots method with
    | some _ => μ
    | none =>
      { μ with
        nodes := μ.nodes ++ [⟨[], [], [], false, []⟩]
        roots := assign μ.roots method μ.nodes.length }
  match lookup μ1.roots method with
  | some root =>
    match Mem.insert pattern parts root μ1 with
    | (some _, μ2) => (some (), { μ2 with handlers := assign μ2.handlers key handler })
    | (none, μ2) => (none, μ2)
  | none => (none, μ1)

/-- The parameter loop of `getRoute` over the segments of the matched pattern,
from position `index`, writing through the map pointer `params`. -/
def Mem.bindParams {H : Type} (searchParts : List Str) (params : Nat) :
    List Str → Nat → Run H Unit
  | [], _ => fun μ => (some (), μ)
  | part :: rest, index => fun μ =>
    let bound : Option Unit × memory H :=
      if part.head? = some ':' then
        match searchParts[index]? with
        | some v => Mem.storeMap params part.tail v μ
        | none => (none, μ)
      else (some (), μ)
    match bound with
    | (some _, μ1) =>
      if part.head? = some '*' ∧ part.length > 1 then
        if index ≤ searchParts.length then
          Mem.storeMap params part.tail (join (searchParts.drop index)) μ1
        else (none, μ1)
      else Mem.bindParams searchParts params rest (index + 1) μ1
    | (none, μ1) => (none, μ1)

/-- The method `r.getRoute(method, path)`: the pointer to the matched node and
the pointer to the parameter map, each `none` for `nil`. -/
def Mem.getRoute {H : Type} (method path : Str) : Run H (Option Nat × Option Nat) := fun μ =>
  let searchParts := parsePattern path
  match Mem.makeMap μ with
  | (some params, μ1) =>
    match lookup μ1.roots method with
    | none => (some (none, none), μ1)
    | some root =>
      match Mem.search searchParts root μ1 with
      | (some (some n), μ2) =>
        match Mem.load n μ2 with
        | (some c, μ3) =>
          match Mem.bindParams searchParts params (parsePattern c.pattern) 0 μ3 with
          | (some _, μ4) => (some (some n, some params), μ4)
          | (none, μ4) => (none, μ4)
        | (none, μ3) => (none, μ3)
      | (some none, μ2) => (some (none, none), μ2)
      | (none, μ2) => (none, μ2)
  | (none, μ1) => (none, μ1)

/-- The memory after the `addRoute` calls listed in `rs`, in order, from the
memory of `newRouter()`. -/
def Mem.addRoutes {H : Type} (rs : List (Str × Str × H)) : memory H :=
  rs.foldl (fun μ x => (Mem.addRoute x.1 x.2.1 x.2.2 μ).2) Mem.newRouter

/-- What a caller can read of a `getRoute` result in the memory after the call:
the pointer to the matched node with the node object behind it, and the content
of the returned map; `none` for a panic. -/
def Mem.outcome {H : Type} (x : Option (Option Nat × Option Nat) × memory H) :
    Option (Option (Nat × cell) × Option (List (Str × Str))) :=
  x.1.map (fun r =>
    (r.1.bind (fun n => (x.2.nodes[n]?).map (fun c => (n, c))),
     r.2.bind (fun a => x.2.maps[a]?)))

/-! ## Test fixtures -/

/-- The node of `/hello/:name` in the trie of `newTestRouter`: `/hello/b/c` was
registered after it and sits below it. -/
def helloNameNode : node :=
  { pattern := "/hello/:name".toList
    part := ":name".toList
    children := [⟨"/hello/b/c".toList, "c".toList, [], false, []⟩]
    isWild := true
    childrenMap := [("c".toList, 0)] }

/-- The node of `/assets/*filepath` in the trie of `newTestRouter`. -/
def assetsNode : node :=
  ⟨"/assets/*filepath".toList, "*filepath".toList, [], true, []⟩

/-- The static child `b` of the node `a` in the trie built from `/a/b/c` and
`/a/:x/c`; below it sits the node of `/a/b/c`. -/
def staticBranch : node :=
  { pattern := []
    part := "b".toList
    children := [⟨"/a/b/c".toList, "c".toList, [], false, []⟩]
    isWild := false
    childrenMap := [("c".toList, 0)] }

/-- The wild child `:x` of the node `a` in the same trie; below it sits the node
of `/a/:x/c`. -/
def wildBranch : node :=
  { pattern := []
    part := ":x".toList
    children := [⟨"/a/:x/c".toList, "c".toList, [], false, []⟩]
    isWild := true
    childrenMap := [("c".toList, 0)] }

/-- The node `a` of the trie built from `/a/b/c` and `/a/:x/c`: a static child
followed by a wild sibling. -/
def forkNode : node :=
  { pattern := []
    part := "a".toList
    children := [staticBranch, wildBranch]
    isWild := false
    childrenMap := [("b".toList, 0)] }

/-! ## Specification-side definitions -/

/-- The pieces of a list up to and including the first one whose first
character is `'*'` (all of them when there is none). -/
def takeThroughStar : List Str → List Str
  | [] => []
  | p :: ps => if p.head? = some '*' then [p] else p :: takeThroughStar ps

/-- The parser as the specification words it: split on `'/'`, remove the empty
pieces, keep the pieces up to and including the first that begins with `'*'`. -/
def parsePatternSpec (s : Str) : List Str :=
  takeThroughStar ((split '/' s).filter (fun p => p ≠ []))

/-- A segment that is neither `:name` nor `*name`. -/
def Literal (q : Str) : Prop := q.head? ≠ some ':' ∧ q.head? ≠ some '*'

instance : DecidablePred Literal := fun q => by
  unfold Literal
  infer_instance

/-- A list of segments in which a star-initial segment can only be the last. -/
def StarLast (parts : List Str) : Prop :=
  ∀ (t : Nat) (q : Str), parts[t]? = some q → q.head? = some '*' → t + 1 = parts.length

/-! ## Invariants of the tries built by `insert` -/

/-- Depth invariant of a trie node at depth `d`: a stored pattern parses into
exactly `d` segments, and the children satisfy the invariant at depth `d + 1`. -/
inductive DepthOK : Nat → node → Prop
  | mk (d : Nat) (n : node)
      (hpat : n.pattern ≠ [] → (parsePattern n.pattern).length = d)
      (hch : ∀ c ∈ n.children, DepthOK (d + 1) c) : DepthOK d n

/-- Structural invariant of a trie: every entry of `childrenMap` points at an
existing child, every child whose part begins with `'*'` stores a pattern, and
the children satisfy the invariant. -/
inductive TrieOK : node → Prop
  | mk (n : node)
      (hmap : ∀ (k : Str) (j : Nat), lookup n.childrenMap k = some j →
        j < n.children.length)
      (hstar : ∀ c ∈ n.children, c.part.head? = some '*' → c.pattern ≠ [])
      (hch : ∀ c ∈ n.children, TrieOK c) : TrieOK n

/-- Every node of the trie stores a pattern satisfying `P`. -/
inductive AllPatterns (P : Str → Prop) : node → Prop
  | mk (n : node) (hpat : P n.pattern)
      (hch : ∀ c ∈ n.children, AllPatterns P c) : AllPatterns P n

/-- The walk that `insert` makes for the segments `parts` from node `n` ends at
a node that `search` reports: it stops at a node whose part begins with `'*'`
and that stores a pattern, or follows `matchChild` through every segment to a
node that stores a pattern. -/
def Reaches : List Str → node → Prop
  | [], n => n.pattern ≠ []
  | part :: rest, n =>
    if n.part.head? = some '*' then n.pattern ≠ []
    else ∃ (j : Nat) (c : node),
      n.matchChild part = some j ∧ n.children[j]? = some c ∧ Reaches rest c

/-! ## Definitions for the parameter map -/

/-- The segment `q` binds the parameter name `k`: it is `:k`, or `*k` with a
non-empty `k` (a bare `*` binds nothing). -/
def Binds (k q : Str) : Prop := q = ':' :: k ∨ (q = '*' :: k ∧ k ≠ [])

instance (k q : Str) : Decidable (Binds k q) := by
  unfold Binds
  infer_instance

/-- The node of `/:a/:a` in the trie that holds only this route. -/
def dupNameNode : node := ⟨"/:a/:a".toList, ":a".toList, [], true, []⟩

/-! ## Definitions for the static index and the candidate order -/

/-- The trie built from the empty root by the `insert` calls that `addRoute`
makes for the listed patterns, in order. -/
def buildTrie (patterns : List Str) : node :=
  patterns.foldl (fun n p => n.insert p (parsePattern p)) emptyNode

/-- The relation `InTrie root n`: the node `n` is `root` or lies below it. -/
inductive InTrie : node → node → Prop
  | here (n : node) : InTrie n n
  | step (root c n : node) (hc : c ∈ root.children) (h : InTrie c n) : InTrie root n

/-- Static-index invariant of a trie: `childrenMap` sends `k` to position `j`
exactly when the child at position `j` is non-wild with part `k`; the `isWild`
flag of a child says that its part begins with `':'` or `'*'`; and the children
satisfy the invariant. -/
inductive IndexOK : node → Prop
  | mk (n : node)
      (hmap : ∀ (k : Str) (j : Nat), lookup n.childrenMap k = some j ↔
        ∃ c, n.children[j]? = some c ∧ c.isWild = false ∧ c.part = k)
      (hwild : ∀ c ∈ n.children,
        c.isWild = true ↔ (c.part.head? = some ':' ∨ c.part.head? = some '*'))
      (hch : ∀ c ∈ n.children, IndexOK c) : IndexOK n

/-- The candidates for the segment `s` as the specification words them: the
static children whose part is `s`, then every wild child, in child order. -/
def candidatesSpec (n : node) (s : Str) : List node :=
  n.children.filter (fun c => !c.isWild && decide (c.part = s)) ++
    n.children.filter (fun c => c.isWild)

/-- A chain of children from `n` for the request segments `parts`: every step
goes to a wild child or to a static child whose part is the request segment,
and the chain ends at a node that stores a pattern and either lies at the end
of the segments or has a part beginning with `'*'`. -/
def Chain : List Str → node → Prop
  | [], n => n.pattern ≠ []
  | s :: rest, n =>
    (n.part.head? = some '*' ∧ n.pattern ≠ []) ∨
    ∃ c ∈ n.children, (c.isWild = true ∨ (c.isWild = false ∧ c.part = s)) ∧ Chain rest c

/-! ## Definitions for matching a registered route -/

/-- The request segments agree with the segments of a pattern: equal text at a
literal segment, any one segment at a `:name` segment, and one or more
remaining segments at a `*name` segment. -/
def agrees : List Str → List Str → Bool
  | [], [] => true
  | [], _ :: _ => false
  | _ :: _, [] => false
  | q :: qs, s :: ss =>
    if q.head? = some '*' then true
    else if q.head? = some ':' then agrees qs ss
    else decide (q = s) && agrees qs ss

/-! ## Definitions for depth and position in a trie -/

/-- The relation `AtDepth root d n`: the node `n` lies `d` levels below `root`. -/
inductive AtDepth : node → Nat → node → Prop
  | here (n : node) : AtDepth n 0 n
  | step (root c n : node) (d : Nat) (hc : c ∈ root.children) (h : AtDepth c d n) :
      AtDepth root (d + 1) n

/-- The node at a position of a trie, given by the child indices to follow from
`n`. -/
def nodeAt : List Nat → node → Option node
  | [], n => some n
  | i :: path, n => (n.children[i]?).bind (nodeAt path)

/-- Every node of the trie has at most one wild child. -/
inductive OneWild : node → Prop
  | mk (n : node)
      (hone : (n.children.filter (fun c => c.isWild)).length ≤ 1)
      (hch : ∀ c ∈ n.children, OneWild c) : OneWild n

/-! ## Definitions for literal routes -/

/-- A segment that is `:name` or `*name`. -/
def isWildSegment (q : Str) : Bool := q.head? = some ':' || q.head? = some '*'

/-- The segments `qs` have a wildcard segment at a position of `ps` up to which
`qs` and `ps` have the same segments. -/
def wildAfterShared : List Str → List Str → Bool
  | [], _ => false
  | _ :: _, [] => false
  | s :: ps, t :: qs => isWildSegment t || (decide (t = s) && wildAfterShared ps qs)

/-- The nodes on the walk from `n` through the static index `childrenMap` along
the segments `parts` have no wild child (the node that the walk ends at
apart). -/
def NoWildAlong : List Str → node → Prop
  | [], _ => True
  | s :: rest, n =>
    (∀ c ∈ n.children, c.isWild = false) ∧
    ∀ (j : Nat) (c : node), lookup n.childrenMap s = some j → n.children[j]? = some c →
      NoWildAlong rest c

/-- The walk from `n` through the static index `childrenMap` along the segments
`parts` ends at a node that stores a non-empty pattern whose parse is
`target`. -/
def StaticReach (target : List Str) : List Str → node → Prop
  | [], n => n.pattern ≠ [] ∧ parsePattern n.pattern = target
  | s :: rest, n =>
    ∃ (j : Nat) (c : node),
      lookup n.childrenMap s = some j ∧ n.children[j]? = some c ∧ StaticReach target rest c

/-- The last pattern without any segment (as `/` or the empty pattern)
registered under method `m` in the list of `addRoute` calls `rs`; empty when
there is none.  It is the pattern that the root of the trie of `m` stores. -/
def rootPattern {H : Type} (rs : List (Str × Str × H)) (m : Str) : Str :=
  rs.foldl (fun acc x => if x.1 = m ∧ parsePattern x.2.1 = [] then x.2.1 else acc) []

/-! ## Definitions for the router in memory -/

/-- The part of a memory that `search` reads: the node objects. -/
def Mem.core {H : Type} (μ : memory H) : memory H := ⟨μ.nodes, [], [], []⟩

/-! ## Pattern parsing -/

theorem parseLoop_eq (vs parts : List Str) :
    parseLoop vs parts = parts ++ takeThroughStar (vs.filter (fun p => p ≠ [])) := by
  induction vs generalizing parts with
  | nil => simp [parseLoop, takeThroughStar]
  | cons item vs ih =>
    unfold parseLoop
    by_cases h : item = []
    · simp [h, ih]
    · by_cases hs : item.head? = some '*'
      · simp [h, hs, takeThroughStar]
      · simp [h, hs, takeThroughStar, ih]

theorem parsePattern_eq_spec (s : Str) : parsePattern s = parsePatternSpec s := by
  simp [parsePattern, parsePatternSpec, parseLoop_eq]

theorem split_ne_nil (sep : Char) (s : Str) : split sep s ≠ [] := by
  cases s with
  | nil => simp [split]
  | cons c cs =>
    unfold split
    split
    · simp
    · split <;> simp

theorem sep_not_mem_of_mem_split (sep : Char) (s : Str) :
    ∀ p ∈ split sep s, sep ∉ p := by
  induction s with
  | nil => simp [split]
  | cons c cs ih =>
    intro p hp
    unfold split at hp
    by_cases hc : c = sep
    · simp only [hc, if_true, List.mem_cons] at hp
      rcases hp with rfl | hp
      · simp
      · exact ih p hp
    · simp only [hc, if_false] at hp
      cases hsp : split sep cs with
      | nil => exact absurd hsp (split_ne_nil sep cs)
      | cons q qs =>
        rw [hsp] at hp ih
        simp only [List.mem_cons] at hp
        rcases hp with rfl | hp
        · intro hmem
          rcases List.mem_cons.1 hmem with h | h
          · exact hc h.symm
          · exact ih q (List.mem_cons_self _ _) h
        · exact ih p (List.mem_cons_of_mem _ hp)

theorem takeThroughStar_subset (l : List Str) : ∀ p ∈ takeThroughStar l, p ∈ l := by
  induction l with
  | nil => simp [takeThroughStar]
  | cons q qs ih =>
    intro p hp
    unfold takeThroughStar at hp
    split at hp
    · simp at hp; simp [hp]
    · rcases List.mem_cons.1 hp with rfl | hp
      · simp
      · exact List.mem_cons_of_mem _ (ih p hp)

/-- A star-initial segment of a parsed pattern can only be the last one. -/
theorem takeThroughStar_star_last (l : List Str) (i : Nat) (p : Str)
    (hp : (takeThroughStar l)[i]? = some p) (hs : p.head? = some '*') :
    i + 1 = (takeThroughStar l).length := by
  induction l generalizing i with
  | nil => simp [takeThroughStar] at hp
  | cons q qs ih =>
    unfold takeThroughStar at hp ⊢
    by_cases hq : q.head? = some '*'
    · simp only [hq, if_true] at hp ⊢
      cases i with
      | zero => simp
      | succ i => simp at hp
    · simp only [hq, if_false] at hp ⊢
      cases i with
      | zero =>
        simp at hp
        subst hp
        exact absurd hs hq
      | succ i =>
        simp only [List.getElem?_cons_succ] at hp
        simp [ih i hp]

theorem mem_parsePattern (s p : Str) (hp : p ∈ parsePattern s) : p ≠ [] ∧ '/' ∉ p := by
  rw [parsePattern_eq_spec, parsePatternSpec] at hp
  have h := takeThroughStar_subset _ p hp
  rw [List.mem_filter] at h
  exact ⟨by simpa using h.2, sep_not_mem_of_mem_split '/' s p h.1⟩

theorem parsePattern_star_last (s : Str) (i : Nat) (p : Str)
    (hp : (parsePattern s)[i]? = some p) (hs : p.head? = some '*') :
    i + 1 = (parsePattern s).length := by
  rw [parsePattern_eq_spec, parsePatternSpec] at hp ⊢
  exact takeThroughStar_star_last _ i p hp hs

/-! ## Go maps -/

theorem lookup_assign {ν : Type} (m : List (Str × ν)) (k k' : Str) (v : ν) :
    lookup (assign m k v) k' = if k = k' then some v else lookup m k' := by
  induction m with
  | nil => simp [assign, lookup]
  | cons e m ih =>
    obtain ⟨k0, v0⟩ := e
    unfold assign
    by_cases h0 : k0 = k
    · subst h0
      by_cases h1 : k0 = k' <;> simp [lookup, h1]
    · by_cases h1 : k0 = k'
      · subst h1
        have h2 : ¬ k = k0 := fun h => h0 h.symm
        simp [lookup, h0, h2]
      · simp [lookup, h0, h1, ih]

theorem lookup_assign_self {ν : Type} (m : List (Str × ν)) (k : Str) (v : ν) :
    lookup (assign m k v) k = some v := by
  simp [lookup_assign]

theorem lookup_assign_ne {ν : Type} (m : List (Str × ν)) (k k' : Str) (v : ν)
    (h : k ≠ k') : lookup (assign m k v) k' = lookup m k' := by
  simp [lookup_assign, h]

/-! ## The depth invariant -/

theorem DepthOK.pattern_length {d : Nat} {n : node} (h : DepthOK d n)
    (hp : n.pattern ≠ []) : (parsePattern n.pattern).length = d := by
  cases h with
  | mk _ _ hpat _ => exact hpat hp

theorem DepthOK.child {d : Nat} {n : node} (h : DepthOK d n) :
    ∀ c ∈ n.children, DepthOK (d + 1) c := by
  cases h with
  | mk _ _ _ hch => exact hch

theorem depthOK_emptyNode : DepthOK 0 emptyNode :=
  DepthOK.mk 0 emptyNode (fun h => absurd rfl h) (fun c hc => by simp [emptyNode] at hc)

theorem mem_modify {α : Type} (f : α → α) (l : List α) (j : Nat) (c : α)
    (hc : c ∈ l.modify f j) : c ∈ l ∨ ∃ c0 ∈ l, c = f c0 := by
  induction l generalizing j with
  | nil => simp at hc
  | cons a l ih =>
    cases j with
    | zero =>
      simp only [List.modify_zero_cons, List.mem_cons] at hc
      rcases hc with rfl | hc
      · exact Or.inr ⟨a, List.mem_cons_self _ _, rfl⟩
      · exact Or.inl (List.mem_cons_of_mem _ hc)
    | succ j =>
      simp only [List.modify_succ_cons, List.mem_cons] at hc
      rcases hc with rfl | hc
      · exact Or.inl (List.mem_cons_self _ _)
      · rcases ih j hc with h | ⟨c0, h0, h1⟩
        · exact Or.inl (List.mem_cons_of_mem _ h)
        · exact Or.inr ⟨c0, List.mem_cons_of_mem _ h0, h1⟩

theorem insert_nil (pattern : Str) (n : node) :
    n.insert pattern [] = { n with pattern := pattern } := rfl

theorem insert_cons_some (pattern part : Str) (rest : List Str) (n : node) (j : Nat)
    (h : n.matchChild part = some j) :
    n.insert pattern (part :: rest) =
      { n with children := n.children.modify (node.insert pattern rest) j } := by
  simp [node.insert, h]

theorem insert_cons_none (pattern part : Str) (rest : List Str) (n : node)
    (h : n.matchChild part = none) :
    n.insert pattern (part :: rest) =
      { n with
        children := n.children ++
          [node.insert pattern rest
            ⟨[], part, [], (part.head? = some ':' || part.head? = some '*'), []⟩]
        childrenMap :=
          if !(decide (part.head? = some ':') || decide (part.head? = some '*')) then
            assign n.childrenMap part n.children.length
          else n.childrenMap } := by
  simp [node.insert, h]

/-- Inserting a pattern whose parse has `d + rest.length` segments below a node
of depth `d` keeps the depth invariant. -/
theorem insert_depthOK (pattern : Str) (rest : List Str) :
    ∀ (n : node) (d : Nat), DepthOK d n →
      (pattern ≠ [] → (parsePattern pattern).length = d + rest.length) →
      DepthOK d (n.insert pattern rest) := by
  induction rest with
  | nil =>
    intro n d hn hlen
    rw [insert_nil]
    exact DepthOK.mk _ _ (fun hp => by simpa using hlen hp) hn.child
  | cons part rest ih =>
    intro n d hn hlen
    have hlen1 : pattern ≠ [] → (parsePattern pattern).length = d + 1 + rest.length := by
      intro hp
      rw [hlen hp, List.length_cons]
      omega
    cases hm : n.matchChild part with
    | some j =>
      rw [insert_cons_some _ _ _ _ _ hm]
      refine DepthOK.mk _ _ (fun hp => hn.pattern_length hp) ?_
      intro c hc
      rcases mem_modify _ _ _ _ hc with h | ⟨c0, h0, rfl⟩
      · exact hn.child c h
      · exact ih c0 (d + 1) (hn.child c0 h0) hlen1
    | none =>
      rw [insert_cons_none _ _ _ _ hm]
      refine DepthOK.mk _ _ (fun hp => hn.pattern_length hp) ?_
      intro c hc
      rcases List.mem_append.1 hc with h | h
      · exact hn.child c h
      · rw [List.mem_singleton] at h
        subst h
        refine ih _ (d + 1) (DepthOK.mk _ _ (fun hp => absurd rfl hp) ?_) hlen1
        intro c hc
        simp at hc

theorem mem_matchChildren (n : node) (part : Str) (c : node)
    (hc : c ∈ n.matchChildren part) : c ∈ n.children := by
  unfold node.matchChildren at hc
  rcases List.mem_append.1 hc with h | h
  · cases hl : lookup n.childrenMap part with
    | none => simp [hl] at h
    | some j =>
      rw [hl] at h
      have h1 : n.children[j]? = some c := by simpa using h
      exact List.getElem?_mem h1
  · exact (List.mem_filter.1 h).1

/-- A node returned by `search` has a non-empty stored pattern, and that pattern
parses into at most as many segments as the request has. -/
theorem search_depth (rest : List Str) :
    ∀ (n M : node) (d : Nat), DepthOK d n → n.search rest = some M →
      M.pattern ≠ [] ∧ d ≤ (parsePattern M.pattern).length ∧
        (parsePattern M.pattern).length ≤ d + rest.length := by
  induction rest with
  | nil =>
    intro n M d hn hs
    unfold node.search at hs
    by_cases hp : n.pattern = []
    · simp [hp] at hs
    · simp only [hp, if_false, Option.some.injEq] at hs
      subst hs
      have := hn.pattern_length hp
      exact ⟨hp, by omega, by simp [this]⟩
  | cons part rest ih =>
    intro n M d hn hs
    unfold node.search at hs
    by_cases hstar : n.part.head? = some '*'
    · simp only [hstar, if_true] at hs
      by_cases hp : n.pattern = []
      · simp [hp] at hs
      · simp only [hp, if_false, Option.some.injEq] at hs
        subst hs
        have := hn.pattern_length hp
        exact ⟨hp, by omega, by simp [this]⟩
    · simp only [hstar, if_false] at hs
      obtain ⟨c, hc, hcs⟩ := List.exists_of_findSome?_eq_some hs
      have hcd := hn.child c (mem_matchChildren n part c hc)
      obtain ⟨h1, h2, h3⟩ := ih c M (d + 1) hcd hcs
      refine ⟨h1, by omega, ?_⟩
      rw [List.length_cons]
      omega

/-! ## The parameter loop of `getRoute` -/

theorem eq_cons_tail_of_head? {c : Char} {q : Str} (h : q.head? = some c) :
    q = c :: q.tail := by
  cases q with
  | nil => simp at h
  | cons a q => simp at h; simp [h]

theorem bindParams_colon (sp : List Str) (q : Str) (rest : List Str) (index : Nat)
    (params : List (Str × Str)) (h : q.head? = some ':') :
    bindParams sp (q :: rest) index params =
      match sp[index]? with
      | none => none
      | some v => bindParams sp rest (index + 1) (assign params q.tail v) := by
  have hs : ¬ q.head? = some '*' := by rw [h]; decide
  cases hv : sp[index]? <;> simp [bindParams, h, hv]

theorem bindParams_star (sp : List Str) (q : Str) (rest : List Str) (index : Nat)
    (params : List (Str × Str)) (h : q.head? = some '*') (hl : q.length > 1) :
    bindParams sp (q :: rest) index params =
      if index ≤ sp.length then
        some (assign params q.tail (join (sp.drop index)))
      else none := by
  have hs : ¬ q.head? = some ':' := by rw [h]; decide
  simp [bindParams, h, hl]

theorem bindParams_skip (sp : List Str) (q : Str) (rest : List Str) (index : Nat)
    (params : List (Str × Str)) (h : ¬ q.head? = some ':')
    (hs : ¬ (q.head? = some '*' ∧ q.length > 1)) :
    bindParams sp (q :: rest) index params = bindParams sp rest (index + 1) params := by
  simp only [bindParams, h, if_false]
  rw [if_neg hs]

/-- Segments that do not carry the name `k` leave the binding of `k` alone. -/
theorem bindParams_keep (sp : List Str) (k : Str) (rest : List Str) :
    ∀ (index : Nat) (params ps : List (Str × Str)),
      bindParams sp rest index params = some ps →
      (∀ q ∈ rest, q ≠ ':' :: k ∧ q ≠ '*' :: k) →
      lookup ps k = lookup params k := by
  induction rest with
  | nil =>
    intro index params ps h _
    simp [bindParams] at h
    rw [h]
  | cons q rest ih =>
    intro index params ps h hk
    have hq := hk q (List.mem_cons_self _ _)
    have hrest : ∀ q ∈ rest, q ≠ ':' :: k ∧ q ≠ '*' :: k :=
      fun q' hq' => hk q' (List.mem_cons_of_mem _ hq')
    by_cases hc : q.head? = some ':'
    · rw [bindParams_colon sp q rest index params hc] at h
      cases hv : sp[index]? with
      | none => simp [hv] at h
      | some v =>
        simp only [hv] at h
        rw [ih _ _ _ h hrest]
        have hne : q.tail ≠ k := by
          intro he
          apply hq.1
          rw [← he]
          exact eq_cons_tail_of_head? hc
        exact lookup_assign_ne _ _ _ _ hne
    · by_cases hs : q.head? = some '*' ∧ q.length > 1
      · rw [bindParams_star sp q rest index params hs.1 hs.2] at h
        by_cases hi : index ≤ sp.length
        · simp only [hi, if_true, Option.some.injEq] at h
          rw [← h]
          have hne : q.tail ≠ k := by
            intro he
            apply hq.2
            rw [← he]
            exact eq_cons_tail_of_head? hs.1
          exact lookup_assign_ne _ _ _ _ hne
        · simp [hi] at h
      · rw [bindParams_skip sp q rest index params hc hs] at h
        exact ih _ _ _ h hrest

theorem StarLast.tail {q : Str} {rest : List Str} (h : StarLast (q :: rest)) :
    StarLast rest := by
  intro t q' hq' hs
  have := h (t + 1) q' (by simpa using hq') hs
  simpa using this

theorem starLast_parsePattern (s : Str) : StarLast (parsePattern s) :=
  fun t q hq hs => parsePattern_star_last s t q hq hs

/-- The binding made for a segment `:k` that no later segment overrides. -/
theorem bindParams_colon_at (sp : List Str) (k : Str) (rest : List Str) :
    ∀ (index t : Nat) (params ps : List (Str × Str)),
      bindParams sp rest index params = some ps →
      StarLast rest →
      rest[t]? = some (':' :: k) →
      (∀ (u : Nat) (q : Str), t < u → rest[u]? = some q →
          q ≠ ':' :: k ∧ q ≠ '*' :: k) →
      ∃ v, sp[index + t]? = some v ∧ lookup ps k = some v := by
  induction rest with
  | nil =>
    intro index t params ps _ _ ht _
    simp at ht
  | cons q rest ih =>
    intro index t params ps h hsl ht hk
    cases t with
    | zero =>
      simp only [List.getElem?_cons_zero, Option.some.injEq] at ht
      subst ht
      rw [bindParams_colon sp _ rest index params (by simp)] at h
      cases hv : sp[index]? with
      | none => simp [hv] at h
      | some v =>
        simp only [hv] at h
        refine ⟨v, by simpa using hv, ?_⟩
        have hrest : ∀ q ∈ rest, q ≠ ':' :: k ∧ q ≠ '*' :: k := by
          intro q hq
          obtain ⟨u, hu⟩ := List.getElem?_of_mem hq
          exact hk (u + 1) q (Nat.succ_pos u) (by simpa using hu)
        rw [bindParams_keep sp k rest _ _ _ h hrest]
        simpa using lookup_assign_self params k v
    | succ t =>
      have ht1 : rest[t]? = some (':' :: k) := by simpa using ht
      have hk1 : ∀ (u : Nat) (q : Str), t < u → rest[u]? = some q →
          q ≠ ':' :: k ∧ q ≠ '*' :: k :=
        fun u q' hu hq' => hk (u + 1) q' (by omega) (by simpa using hq')
      have hnostar : ¬ q.head? = some '*' := by
        intro hs
        have h1 := hsl 0 q (by simp) hs
        have h2 : t < rest.length := by
          rcases List.getElem?_eq_some_iff.1 ht1 with ⟨hlt, _⟩
          exact hlt
        rw [List.length_cons] at h1
        omega
      have hidx : index + (t + 1) = index + 1 + t := by omega
      rw [hidx]
      by_cases hc : q.head? = some ':'
      · rw [bindParams_colon sp q rest index params hc] at h
        cases hv : sp[index]? with
        | none => simp [hv] at h
        | some v =>
          simp only [hv] at h
          exact ih _ _ _ _ h hsl.tail ht1 hk1
      · rw [bindParams_skip sp q rest index params hc (fun hs => hnostar hs.1)] at h
        exact ih _ _ _ _ h hsl.tail ht1 hk1

/-- The binding made for a catch-all segment `*k` with a non-empty name. -/
theorem bindParams_star_at (sp : List Str) (k : Str) (hk : k ≠ []) (rest : List Str) :
    ∀ (index t : Nat) (params ps : List (Str × Str)),
      bindParams sp rest index params = some ps →
      StarLast rest →
      rest[t]? = some ('*' :: k) →
      lookup ps k = some (join (sp.drop (index + t))) := by
  induction rest with
  | nil =>
    intro index t params ps _ _ ht
    simp at ht
  | cons q rest ih =>
    intro index t params ps h hsl ht
    cases t with
    | zero =>
      simp only [List.getElem?_cons_zero, Option.some.injEq] at ht
      subst ht
      have hlen : ('*' :: k).length > 1 := by
        cases k with
        | nil => exact absurd rfl hk
        | cons a k => simp
      rw [bindParams_star sp _ rest index params (by simp) hlen] at h
      by_cases hi : index ≤ sp.length
      · simp only [hi, if_true, Option.some.injEq] at h
        rw [← h]
        simpa using lookup_assign_self params k (join (sp.drop index))
      · simp [hi] at h
    | succ t =>
      have ht1 : rest[t]? = some ('*' :: k) := by simpa using ht
      have hnostar : ¬ q.head? = some '*' := by
        intro hs
        have h1 := hsl 0 q (by simp) hs
        have h2 : t < rest.length := by
          rcases List.getElem?_eq_some_iff.1 ht1 with ⟨hlt, _⟩
          exact hlt
        rw [List.length_cons] at h1
        omega
      have hidx : index + (t + 1) = index + 1 + t := by omega
      rw [hidx]
      by_cases hc : q.head? = some ':'
      · rw [bindParams_colon sp q rest index params hc] at h
        cases hv : sp[index]? with
        | none => simp [hv] at h
        | some v =>
          simp only [hv] at h
          exact ih _ _ _ _ h hsl.tail ht1
      · rw [bindParams_skip sp q rest index params hc (fun hs => hnostar hs.1)] at h
        exact ih _ _ _ _ h hsl.tail ht1

/-! ## The router -/

theorem addRoutes_append {H : Type} (rs : List (Str × Str × H)) (x : Str × Str × H) :
    addRoutes (rs ++ [x]) = (addRoutes rs).addRoute x.1 x.2.1 x.2.2 := by
  simp [addRoutes, List.foldl_append]

theorem roots_addRoute {H : Type} (r : router H) (m p : Str) (h : H) :
    (r.addRoute m p h).roots =
      assign r.roots m (((lookup r.roots m).getD emptyNode).insert p (parsePattern p)) :=
  rfl

/-- Every trie of a router built by `addRoute` satisfies the depth invariant. -/
theorem roots_depthOK {H : Type} (rs : List (Str × Str × H)) :
    ∀ (m : Str) (root : node), lookup (addRoutes rs).roots m = some root →
      DepthOK 0 root := by
  induction rs using List.reverseRecOn with
  | nil =>
    intro m root h
    simp [addRoutes, newRouter, lookup] at h
  | append_singleton rs x ih =>
    intro m root h
    rw [addRoutes_append, roots_addRoute, lookup_assign] at h
    by_cases hm : x.1 = m
    · simp only [hm, if_true, Option.some.injEq] at h
      subst h
      apply insert_depthOK
      · cases hl : lookup (addRoutes rs).roots m with
        | none => simpa using depthOK_emptyNode
        | some root0 => simpa using ih m root0 hl
      · intro _
        simp
    · simp only [hm, if_false] at h
      exact ih m root h

/-- No trie exists for a method under which nothing was registered. -/
theorem roots_none_of_unregistered {H : Type} (rs : List (Str × Str × H)) (m : Str)
    (hm : ∀ x ∈ rs, x.1 ≠ m) : lookup (addRoutes rs).roots m = none := by
  induction rs using List.reverseRecOn with
  | nil => simp [addRoutes, newRouter, lookup]
  | append_singleton rs x ih =>
    rw [addRoutes_append, roots_addRoute, lookup_assign]
    have hx : x.1 ≠ m := hm x (by simp)
    simp only [hx, if_false]
    exact ih (fun y hy => hm y (by simp [hy]))

/-- What a match returned by `getRoute` was computed from. -/
theorem getRoute_match {H : Type} (r : router H) (m path : Str) (n : node)
    (ps : List (Str × Str)) (h : r.getRoute m path = some (some n, ps)) :
    ∃ root, lookup r.roots m = some root ∧
      root.search (parsePattern path) = some n ∧
      bindParams (parsePattern path) (parsePattern n.pattern) 0 [] = some ps := by
  unfold router.getRoute at h
  cases hl : lookup r.roots m with
  | none => simp [hl] at h
  | some root =>
    simp only [hl] at h
    cases hs : root.search (parsePattern path) with
    | none => simp [hs] at h
    | some n0 =>
      simp only [hs] at h
      cases hb : bindParams (parsePattern path) (parsePattern n0.pattern) 0 [] with
      | none => simp [hb] at h
      | some ps0 =>
        simp only [hb, Option.map_some', Option.some.injEq, Prod.mk.injEq] at h
        obtain ⟨h1, h2⟩ := h
        subst h1 h2
        exact ⟨root, rfl, hs, hb⟩

theorem getRoute_nomatch {H : Type} (r : router H) (m path : Str)
    (ps : List (Str × Str)) (h : r.getRoute m path = some (none, ps)) : ps = [] := by
  unfold router.getRoute at h
  cases hl : lookup r.roots m with
  | none =>
    simp only [hl, Option.some.injEq, Prod.mk.injEq] at h
    exact h.2.symm
  | some root =>
    simp only [hl] at h
    cases hs : root.search (parsePattern path) with
    | none =>
      simp only [hs, Option.some.injEq, Prod.mk.injEq] at h
      exact h.2.symm
    | some n0 =>
      simp only [hs] at h
      cases hb : bindParams (parsePattern path) (parsePattern n0.pattern) 0 [] with
      | none => simp [hb] at h
      | some ps0 => simp [hb] at h

theorem join_ne_nil (l : List Str) (hl : l ≠ []) (hne : ∀ x ∈ l, x ≠ []) :
    join l ≠ [] := by
  cases l with
  | nil => exact absurd rfl hl
  | cons x xs =>
    have hx : x ≠ [] := hne x (List.mem_cons_self _ _)
    cases xs with
    | nil => simpa [join, List.intercalate, List.intersperse] using hx
    | cons y ys => simp [join, List.intercalate, List.intersperse, hx]

theorem takeThroughStar_id (l : List Str) (h : ∀ p ∈ l, p.head? ≠ some '*') :
    takeThroughStar l = l := by
  induction l with
  | nil => rfl
  | cons q qs ih =>
    have hq := h q (List.mem_cons_self _ _)
    simp only [takeThroughStar, hq, if_false]
    rw [ih (fun p hp => h p (List.mem_cons_of_mem _ hp))]

/-! ## What `insert` keeps of a node -/

theorem insert_part (pattern : Str) (rest : List Str) (n : node) :
    (n.insert pattern rest).part = n.part := by
  cases rest with
  | nil => rfl
  | cons part rest =>
    cases hm : n.matchChild part with
    | some j => rw [insert_cons_some _ _ _ _ _ hm]
    | none => rw [insert_cons_none _ _ _ _ hm]

theorem insert_isWild (pattern : Str) (rest : List Str) (n : node) :
    (n.insert pattern rest).isWild = n.isWild := by
  cases rest with
  | nil => rfl
  | cons part rest =>
    cases hm : n.matchChild part with
    | some j => rw [insert_cons_some _ _ _ _ _ hm]
    | none => rw [insert_cons_none _ _ _ _ hm]

theorem insert_pattern_cons (pattern part : Str) (rest : List Str) (n : node) :
    (n.insert pattern (part :: rest)).pattern = n.pattern := by
  cases hm : n.matchChild part with
  | some j => rw [insert_cons_some _ _ _ _ _ hm]
  | none => rw [insert_cons_none _ _ _ _ hm]

theorem insert_pattern_ne_nil (pattern : Str) (rest : List Str) (n : node)
    (hp : pattern ≠ []) (hn : n.pattern ≠ []) : (n.insert pattern rest).pattern ≠ [] := by
  cases rest with
  | nil => exact hp
  | cons part rest => rw [insert_pattern_cons]; exact hn

/-! ## The first wild child -/

theorem firstWild_some (l : List node) (j : Nat) (h : firstWild l = some j) :
    ∃ c, l[j]? = some c ∧ c.isWild = true := by
  induction l generalizing j with
  | nil => simp [firstWild] at h
  | cons a l ih =>
    unfold firstWild at h
    by_cases ha : a.isWild = true
    · simp only [ha, if_true, Option.some.injEq] at h
      subst h
      exact ⟨a, by simp, ha⟩
    · simp only [ha, Bool.false_eq_true, if_false, Option.map_eq_some'] at h
      obtain ⟨j0, hj0, rfl⟩ := h
      obtain ⟨c, hc, hw⟩ := ih j0 hj0
      exact ⟨c, by simpa using hc, hw⟩

theorem firstWild_lt (l : List node) (j : Nat) (h : firstWild l = some j) :
    j < l.length := by
  obtain ⟨c, hc, _⟩ := firstWild_some l j h
  exact (List.getElem?_eq_some_iff.1 hc).1

theorem firstWild_modify (f : node → node) (hf : ∀ c, (f c).isWild = c.isWild)
    (l : List node) (j : Nat) : firstWild (l.modify f j) = firstWild l := by
  induction l generalizing j with
  | nil => simp
  | cons a l ih =>
    cases j with
    | zero => simp [firstWild, hf]
    | succ j =>
      rw [List.modify_succ_cons]
      simp only [firstWild, ih]

theorem firstWild_append_none (l : List node) (c : node) (h : firstWild l = none) :
    firstWild (l ++ [c]) = if c.isWild then some l.length else none := by
  induction l with
  | nil => simp [firstWild]
  | cons a l ih =>
    unfold firstWild at h
    by_cases ha : a.isWild = true
    · simp [ha] at h
    · simp only [ha, Bool.false_eq_true, if_false, Option.map_eq_none'] at h
      have ih1 := ih h
      by_cases hc : c.isWild = true
      · simp only [hc, if_true] at ih1 ⊢
        simp [firstWild, ha, ih1]
      · simp only [hc, Bool.false_eq_true, if_false] at ih1 ⊢
        simp [firstWild, ha, ih1]

theorem filter_of_firstWild (l : List node) (j : Nat) (c : node)
    (h : firstWild l = some j) (hc : l[j]? = some c) :
    ∃ tl, l.filter (fun c => c.isWild) = c :: tl := by
  induction l generalizing j with
  | nil => simp [firstWild] at h
  | cons a l ih =>
    unfold firstWild at h
    by_cases ha : a.isWild = true
    · simp only [ha, if_true, Option.some.injEq] at h
      subst h
      simp only [List.getElem?_cons_zero, Option.some.injEq] at hc
      subst hc
      exact ⟨l.filter (fun c => c.isWild), by simp [List.filter, ha]⟩
    · simp only [ha, Bool.false_eq_true, if_false, Option.map_eq_some'] at h
      obtain ⟨j0, hj0, rfl⟩ := h
      obtain ⟨tl, htl⟩ := ih j0 hj0 (by simpa using hc)
      exact ⟨tl, by simp [List.filter, ha, htl]⟩

/-! ## `search` follows the walk of `insert` -/

theorem search_of_reaches (parts : List Str) :
    ∀ n : node, Reaches parts n → ∃ M, n.search parts = some M := by
  induction parts with
  | nil =>
    intro n h
    simp only [Reaches] at h
    exact ⟨n, by simp [node.search, h]⟩
  | cons part rest ih =>
    intro n h
    simp only [Reaches] at h
    by_cases hstar : n.part.head? = some '*'
    · simp only [hstar, if_true] at h
      exact ⟨n, by simp [node.search, hstar, h]⟩
    · simp only [hstar, if_false] at h
      obtain ⟨j, c, hm, hc, hr⟩ := h
      obtain ⟨M, hM⟩ := ih c hr
      refine ⟨M, ?_⟩
      simp only [node.search, hstar, if_false]
      unfold node.matchChild at hm
      unfold node.matchChildren
      cases hl : lookup n.childrenMap part with
      | some j0 =>
        simp only [hl, Option.some.injEq] at hm
        subst hm
        simp [hc, hM]
      | none =>
        simp only [hl] at hm
        obtain ⟨tl, htl⟩ := filter_of_firstWild _ _ _ hm hc
        simp [htl, hM]

/-! ## The structural invariant is kept by `insert` -/

theorem TrieOK.map_lt {n : node} (h : TrieOK n) :
    ∀ (k : Str) (j : Nat), lookup n.childrenMap k = some j → j < n.children.length := by
  cases h with
  | mk _ hmap _ _ => exact hmap

theorem TrieOK.star_pattern {n : node} (h : TrieOK n) :
    ∀ c ∈ n.children, c.part.head? = some '*' → c.pattern ≠ [] := by
  cases h with
  | mk _ _ hstar _ => exact hstar

theorem TrieOK.of_child {n : node} (h : TrieOK n) : ∀ c ∈ n.children, TrieOK c := by
  cases h with
  | mk _ _ _ hch => exact hch

theorem trieOK_leaf (pattern part : Str) (w : Bool) : TrieOK ⟨pattern, part, [], w, []⟩ :=
  TrieOK.mk _ (fun k j h => by simp [lookup] at h) (fun c hc => by simp at hc)
    (fun c hc => by simp at hc)

theorem trieOK_emptyNode : TrieOK emptyNode := trieOK_leaf [] [] false

theorem matchChild_lt {n : node} (hn : TrieOK n) (part : Str) (j : Nat)
    (h : n.matchChild part = some j) : j < n.children.length := by
  unfold node.matchChild at h
  cases hl : lookup n.childrenMap part with
  | some j0 =>
    simp only [hl, Option.some.injEq] at h
    subst h
    exact hn.map_lt part j0 hl
  | none =>
    simp only [hl] at h
    exact firstWild_lt _ _ h

theorem matchChild_none {n : node} {part : Str} (h : n.matchChild part = none) :
    lookup n.childrenMap part = none ∧ firstWild n.children = none := by
  unfold node.matchChild at h
  cases hl : lookup n.childrenMap part with
  | some j0 => simp [hl] at h
  | none => simpa [hl] using h

/-- Inserting a non-empty pattern along segments with a final catch-all keeps
the structural invariant. -/
theorem insert_trieOK (pattern : Str) (hp : pattern ≠ []) (parts : List Str) :
    ∀ n : node, TrieOK n → StarLast parts → TrieOK (n.insert pattern parts) := by
  induction parts with
  | nil =>
    intro n hn _
    rw [insert_nil]
    exact TrieOK.mk _ hn.map_lt hn.star_pattern hn.of_child
  | cons part rest ih =>
    intro n hn hsl
    cases hm : n.matchChild part with
    | some j =>
      rw [insert_cons_some _ _ _ _ _ hm]
      refine TrieOK.mk _ ?_ ?_ ?_
      · intro k j0 hk
        simpa using hn.map_lt k j0 hk
      · intro c hc hstar
        rcases mem_modify _ _ _ _ hc with h | ⟨c0, h0, rfl⟩
        · exact hn.star_pattern c h hstar
        · rw [insert_part] at hstar
          exact insert_pattern_ne_nil _ _ _ hp (hn.star_pattern c0 h0 hstar)
      · intro c hc
        rcases mem_modify _ _ _ _ hc with h | ⟨c0, h0, rfl⟩
        · exact hn.of_child c h
        · exact ih c0 (hn.of_child c0 h0) hsl.tail
    | none =>
      rw [insert_cons_none _ _ _ _ hm]
      refine TrieOK.mk _ ?_ ?_ ?_
      · intro k j0 hk
        simp only [List.length_append, List.length_singleton]
        by_cases hw : (!(decide (part.head? = some ':') || decide (part.head? = some '*'))) = true
        · simp only [hw, if_true, lookup_assign] at hk
          by_cases hpk : part = k
          · simp only [hpk, if_true, Option.some.injEq] at hk
            omega
          · simp only [hpk, if_false] at hk
            have := hn.map_lt k j0 hk
            omega
        · simp only [hw, if_false] at hk
          have := hn.map_lt k j0 hk
          omega
      · intro c hc hstar
        rcases List.mem_append.1 hc with h | h
        · exact hn.star_pattern c h hstar
        · rw [List.mem_singleton] at h
          subst h
          have h1 := hsl 0 part (by simp) (by simpa [insert_part] using hstar)
          have h2 : rest = [] := by
            rw [List.length_cons] at h1
            exact List.length_eq_zero.1 (by omega)
          subst h2
          exact hp
      · intro c hc
        rcases List.mem_append.1 hc with h | h
        · exact hn.of_child c h
        · rw [List.mem_singleton] at h
          subst h
          exact ih _ (trieOK_leaf _ _ _) hsl.tail

/-! ## Registered routes stay reachable -/

theorem reaches_cons_star {part : Str} {rest : List Str} {n : node}
    (h : n.part.head? = some '*') : Reaches (part :: rest) n ↔ n.pattern ≠ [] := by
  simp [Reaches, h]

theorem reaches_cons {part : Str} {rest : List Str} {n : node}
    (h : ¬ n.part.head? = some '*') :
    Reaches (part :: rest) n ↔
      ∃ (j : Nat) (c : node),
        n.matchChild part = some j ∧ n.children[j]? = some c ∧ Reaches rest c := by
  simp [Reaches, h]

/-- The route just inserted is reachable along its own segments. -/
theorem reaches_insert_self (pattern : Str) (hp : pattern ≠ []) (parts : List Str) :
    ∀ n : node, TrieOK n → StarLast parts →
      (n.part.head? = some '*' → parts ≠ [] → n.pattern ≠ []) →
      Reaches parts (n.insert pattern parts) := by
  induction parts with
  | nil =>
    intro n _ _ _
    exact hp
  | cons part rest ih =>
    intro n hn hsl hstar
    by_cases hs : n.part.head? = some '*'
    · rw [reaches_cons_star (by rw [insert_part]; exact hs), insert_pattern_cons]
      exact hstar hs (by simp)
    · rw [reaches_cons (by rw [insert_part]; exact hs)]
      cases hm : n.matchChild part with
      | some j =>
        have hj := matchChild_lt hn part j hm
        have hc : n.children[j]? = some (n.children[j]) := List.getElem?_eq_getElem hj
        have hmem : n.children[j] ∈ n.children := List.getElem_mem hj
        refine ⟨j, node.insert pattern rest (n.children[j]), ?_, ?_, ?_⟩
        · rw [insert_cons_some _ _ _ _ _ hm]
          unfold node.matchChild at hm ⊢
          simp only [firstWild_modify _ (insert_isWild pattern rest)]
          exact hm
        · rw [insert_cons_some _ _ _ _ _ hm]
          simp [hc]
        · refine ih _ (hn.of_child _ hmem) hsl.tail ?_
          intro h1 _
          exact hn.star_pattern _ hmem h1
      | none =>
        obtain ⟨hl, hf⟩ := matchChild_none hm
        refine ⟨n.children.length,
          node.insert pattern rest
            ⟨[], part, [], (part.head? = some ':' || part.head? = some '*'), []⟩, ?_, ?_, ?_⟩
        · rw [insert_cons_none _ _ _ _ hm]
          unfold node.matchChild
          by_cases hw : (decide (part.head? = some ':') || decide (part.head? = some '*')) = true
          · simp [hw, hl, firstWild_append_none _ _ hf, insert_isWild]
          · simp [hw, lookup_assign_self]
        · rw [insert_cons_none _ _ _ _ hm]
          simp
        · refine ih _ (trieOK_leaf _ _ _) hsl.tail ?_
          intro h1 h2
          have h3 := hsl 0 part (by simp) h1
          rw [List.length_cons] at h3
          exact absurd (List.length_eq_zero.1 (by omega)) h2

/-- A later registration of a non-empty pattern keeps an earlier route
reachable. -/
theorem reaches_insert_other (pattern : Str) (hp : pattern ≠ []) (parts : List Str) :
    ∀ (n : node) (parts1 : List Str), Reaches parts n →
      Reaches parts (n.insert pattern parts1) := by
  induction parts with
  | nil =>
    intro n parts1 h
    exact insert_pattern_ne_nil _ _ _ hp h
  | cons part rest ih =>
    intro n parts1 h
    by_cases hs : n.part.head? = some '*'
    · rw [reaches_cons_star hs] at h
      rw [reaches_cons_star (by rw [insert_part]; exact hs)]
      exact insert_pattern_ne_nil _ _ _ hp h
    · rw [reaches_cons hs] at h
      rw [reaches_cons (by rw [insert_part]; exact hs)]
      obtain ⟨j, c, hm, hc, hr⟩ := h
      cases parts1 with
      | nil => exact ⟨j, c, hm, hc, hr⟩
      | cons part1 rest1 =>
        cases hm1 : n.matchChild part1 with
        | some j1 =>
          rw [insert_cons_some _ _ _ _ _ hm1]
          have hmc : node.matchChild
              { n with children := n.children.modify (node.insert pattern rest1) j1 } part =
              some j := by
            unfold node.matchChild at hm ⊢
            simp only [firstWild_modify _ (insert_isWild pattern rest1)]
            exact hm
          by_cases hj : j1 = j
          · subst hj
            exact ⟨j1, node.insert pattern rest1 c, hmc, by simp [hc], ih c rest1 hr⟩
          · exact ⟨j, c, hmc, by simp [List.getElem?_modify_ne _ _ hj, hc], hr⟩
        | none =>
          obtain ⟨hl1, hf1⟩ := matchChild_none hm1
          rw [insert_cons_none _ _ _ _ hm1]
          have hlk : lookup n.childrenMap part = some j := by
            unfold node.matchChild at hm
            cases hl : lookup n.childrenMap part with
            | some j0 => simpa [hl] using hm
            | none =>
              simp only [hl] at hm
              rw [hf1] at hm
              exact absurd hm (by simp)
          have hne : part1 ≠ part := by
            intro he
            rw [he, hlk] at hl1
            exact absurd hl1 (by simp)
          have hjlt : j < n.children.length := (List.getElem?_eq_some_iff.1 hc).1
          refine ⟨j, c, ?_, ?_, hr⟩
          · unfold node.matchChild
            by_cases hw : (decide (part1.head? = some ':') ||
                decide (part1.head? = some '*')) = true
            · simp [hw, hlk]
            · simp [hw, lookup_assign_ne _ _ _ _ hne, hlk]
          · simp [List.getElem?_append_left hjlt, hc]

/-! ## Patterns stored in a trie -/

theorem AllPatterns.here {P : Str → Prop} {n : node} (h : AllPatterns P n) :
    P n.pattern := by
  cases h with
  | mk _ hpat _ => exact hpat

theorem AllPatterns.at_child {P : Str → Prop} {n : node} (h : AllPatterns P n) :
    ∀ c ∈ n.children, AllPatterns P c := by
  cases h with
  | mk _ _ hch => exact hch

theorem insert_allPatterns (P : Str → Prop) (hnil : P []) (pattern : Str)
    (hp : P pattern) (parts : List Str) :
    ∀ n : node, AllPatterns P n → AllPatterns P (n.insert pattern parts) := by
  induction parts with
  | nil =>
    intro n hn
    rw [insert_nil]
    exact AllPatterns.mk _ hp hn.at_child
  | cons part rest ih =>
    intro n hn
    cases hm : n.matchChild part with
    | some j =>
      rw [insert_cons_some _ _ _ _ _ hm]
      refine AllPatterns.mk _ hn.here ?_
      intro c hc
      rcases mem_modify _ _ _ _ hc with h | ⟨c0, h0, rfl⟩
      · exact hn.at_child c h
      · exact ih c0 (hn.at_child c0 h0)
    | none =>
      rw [insert_cons_none _ _ _ _ hm]
      refine AllPatterns.mk _ hn.here ?_
      intro c hc
      rcases List.mem_append.1 hc with h | h
      · exact hn.at_child c h
      · rw [List.mem_singleton] at h
        subst h
        exact ih _ (AllPatterns.mk _ hnil (fun c hc => by simp at hc))

theorem search_allPatterns (P : Str → Prop) (parts : List Str) :
    ∀ (n M : node), AllPatterns P n → n.search parts = some M → P M.pattern := by
  induction parts with
  | nil =>
    intro n M hn hs
    unfold node.search at hs
    by_cases hp : n.pattern = []
    · simp [hp] at hs
    · simp only [hp, if_false, Option.some.injEq] at hs
      subst hs
      exact hn.here
  | cons part rest ih =>
    intro n M hn hs
    unfold node.search at hs
    by_cases hstar : n.part.head? = some '*'
    · simp only [hstar, if_true] at hs
      by_cases hp : n.pattern = []
      · simp [hp] at hs
      · simp only [hp, if_false, Option.some.injEq] at hs
        subst hs
        exact hn.here
    · simp only [hstar, if_false] at hs
      obtain ⟨c, hc, hcs⟩ := List.exists_of_findSome?_eq_some hs
      exact ih c M (hn.at_child c (mem_matchChildren n part c hc)) hcs

/-- Every pattern stored in the trie of method `m` is empty or was registered
under `m`. -/
theorem roots_allPatterns {H : Type} (P : Str → Prop) (hnil : P [])
    (rs : List (Str × Str × H)) (m : Str) (hP : ∀ x ∈ rs, x.1 = m → P x.2.1) :
    ∀ root : node, lookup (addRoutes rs).roots m = some root → AllPatterns P root := by
  induction rs using List.reverseRecOn with
  | nil =>
    intro root h
    simp [addRoutes, newRouter, lookup] at h
  | append_singleton rs x ih =>
    intro root h
    have ih1 := ih (fun y hy => hP y (by simp [hy]))
    rw [addRoutes_append, roots_addRoute, lookup_assign] at h
    by_cases hm : x.1 = m
    · simp only [hm, if_true, Option.some.injEq] at h
      subst h
      apply insert_allPatterns P hnil _ (hP x (by simp) hm)
      cases hl : lookup (addRoutes rs).roots m with
      | none =>
        simp only [Option.getD_none]
        exact AllPatterns.mk _ hnil (fun c hc => by simp [emptyNode] at hc)
      | some root0 => simpa using ih1 root0 hl
    · simp only [hm, if_false] at h
      exact ih1 root h

/-! ## Tries of a router built by `addRoute` -/

theorem parsePattern_nil : parsePattern [] = [] := by decide

theorem ne_nil_of_parsePattern_ne_nil {p : Str} (h : parsePattern p ≠ []) : p ≠ [] := by
  intro hp
  rw [hp] at h
  exact h parsePattern_nil

theorem insert_trieOK_parse (p : Str) (n : node) (hn : TrieOK n) :
    TrieOK (n.insert p (parsePattern p)) := by
  by_cases hp : p = []
  · rw [hp, parsePattern_nil, insert_nil]
    exact TrieOK.mk _ hn.map_lt hn.star_pattern hn.of_child
  · exact insert_trieOK p hp _ n hn (starLast_parsePattern p)

/-- The root of every trie of a built router satisfies the structural invariant
and has the empty part. -/
theorem roots_trieOK {H : Type} (rs : List (Str × Str × H)) :
    ∀ (m : Str) (root : node), lookup (addRoutes rs).roots m = some root →
      TrieOK root ∧ root.part = [] := by
  induction rs using List.reverseRecOn with
  | nil =>
    intro m root h
    simp [addRoutes, newRouter, lookup] at h
  | append_singleton rs x ih =>
    intro m root h
    rw [addRoutes_append, roots_addRoute, lookup_assign] at h
    by_cases hm : x.1 = m
    · simp only [hm, if_true, Option.some.injEq] at h
      subst h
      rw [insert_part]
      cases hl : lookup (addRoutes rs).roots m with
      | none =>
        simp only [Option.getD_none]
        exact ⟨insert_trieOK_parse _ _ trieOK_emptyNode, rfl⟩
      | some root0 =>
        simp only [Option.getD_some]
        exact ⟨insert_trieOK_parse _ _ (ih m root0 hl).1, (ih m root0 hl).2⟩
    · simp only [hm, if_false] at h
      exact ih m root h

theorem reaches_set_pattern (q part : Str) (rest : List Str) (n : node)
    (hs : ¬ n.part.head? = some '*') (h : Reaches (part :: rest) n) :
    Reaches (part :: rest) { n with pattern := q } := by
  rw [reaches_cons hs] at h
  rw [reaches_cons (by exact hs)]
  exact h

/-- A registered non-empty pattern is reachable along its own segments in the
trie of its method; for a pattern without segments this needs that the empty
pattern is not registered under that method. -/
theorem registered_reaches {H : Type} (rs : List (Str × Str × H)) (m p : Str) (h : H)
    (hreg : (m, p, h) ∈ rs) (hp : p ≠ [])
    (hroot : parsePattern p ≠ [] ∨ ∀ x ∈ rs, x.1 = m → x.2.1 ≠ []) :
    ∃ root, lookup (addRoutes rs).roots m = some root ∧ Reaches (parsePattern p) root := by
  induction rs using List.reverseRecOn with
  | nil => simp at hreg
  | append_singleton rs x ih =>
    have hroot1 : parsePattern p ≠ [] ∨ ∀ y ∈ rs, y.1 = m → y.2.1 ≠ [] := by
      rcases hroot with h1 | h1
      · exact Or.inl h1
      · exact Or.inr (fun y hy => h1 y (by simp [hy]))
    rw [addRoutes_append, roots_addRoute, lookup_assign]
    by_cases hx : x = (m, p, h)
    · subst hx
      simp only [if_true]
      refine ⟨_, rfl, ?_⟩
      apply reaches_insert_self p hp _ _ _ (starLast_parsePattern p)
      · cases hl : lookup (addRoutes rs).roots m with
        | none => simp [hl, emptyNode]
        | some root0 => simp [hl, (roots_trieOK rs m root0 hl).2]
      · cases hl : lookup (addRoutes rs).roots m with
        | none => simpa [hl] using trieOK_emptyNode
        | some root0 => simpa [hl] using (roots_trieOK rs m root0 hl).1
    · have hreg1 : (m, p, h) ∈ rs := by
        rcases List.mem_append.1 hreg with h1 | h1
        · exact h1
        · rw [List.mem_singleton] at h1
          exact absurd h1.symm hx
      obtain ⟨root0, hl, hr⟩ := ih hreg1 hroot1
      by_cases hm : x.1 = m
      · simp only [hm, if_true]
        refine ⟨_, rfl, ?_⟩
        simp only [hl, Option.getD_some]
        by_cases hxp : x.2.1 = []
        · rw [hxp, parsePattern_nil, insert_nil]
          rcases hroot with h1 | h1
          · obtain ⟨part, rest, hpr⟩ := List.exists_cons_of_ne_nil h1
            rw [hpr] at hr ⊢
            refine reaches_set_pattern [] part rest root0 ?_ hr
            rw [(roots_trieOK rs m root0 hl).2]
            simp
          · exact absurd hxp (h1 x (by simp) hm)
        · exact reaches_insert_other _ hxp _ _ _ hr
      · simp only [hm, if_false]
        exact ⟨root0, hl, hr⟩

/-! ## The parameter loop never leaves the request path -/

theorem bindParams_total (sp : List Str) (rest : List Str) :
    ∀ (index : Nat) (params : List (Str × Str)), index + rest.length ≤ sp.length →
      ∃ ps, bindParams sp rest index params = some ps := by
  induction rest with
  | nil =>
    intro index params _
    exact ⟨params, rfl⟩
  | cons q rest ih =>
    intro index params hlen
    rw [List.length_cons] at hlen
    by_cases hc : q.head? = some ':'
    · rw [bindParams_colon sp q rest index params hc]
      have hi : index < sp.length := by omega
      rw [List.getElem?_eq_getElem hi]
      exact ih _ _ (by omega)
    · by_cases hs : q.head? = some '*' ∧ q.length > 1
      · rw [bindParams_star sp q rest index params hs.1 hs.2]
        have hi : index ≤ sp.length := by omega
        exact ⟨_, if_pos hi⟩
      · rw [bindParams_skip sp q rest index params hc hs]
        exact ih _ _ (by omega)

theorem bindParams_literal (sp : List Str) (rest : List Str) :
    ∀ (index : Nat) (params : List (Str × Str)), (∀ q ∈ rest, Literal q) →
      bindParams sp rest index params = some params := by
  induction rest with
  | nil =>
    intro index params _
    rfl
  | cons q rest ih =>
    intro index params hl
    have hq := hl q (List.mem_cons_self _ _)
    rw [bindParams_skip sp q rest index params hq.1 (fun hs => hq.2 hs.1)]
    exact ih _ _ (fun q1 hq1 => hl q1 (List.mem_cons_of_mem _ hq1))

/-- On a built router, a successful `search` makes `getRoute` return the match:
the parameter loop does not panic. -/
theorem getRoute_of_search {H : Type} (rs : List (Str × Str × H)) (m path : Str)
    (root n : node) (hroot : lookup (addRoutes rs).roots m = some root)
    (hs : root.search (parsePattern path) = some n) :
    ∃ ps, (addRoutes rs).getRoute m path = some (some n, ps) ∧
      bindParams (parsePattern path) (parsePattern n.pattern) 0 [] = some ps := by
  have hd := search_depth (parsePattern path) root n 0 (roots_depthOK rs m root hroot) hs
  obtain ⟨ps, hps⟩ := bindParams_total (parsePattern path) (parsePattern n.pattern) 0 []
    (by omega)
  exact ⟨ps, by simp [router.getRoute, hroot, hs, hps], hps⟩

/-! ## Registering the same route twice -/

theorem modify_idem {α : Type} (f : α → α) (hf : ∀ a, f (f a) = f a) (l : List α)
    (j : Nat) : (l.modify f j).modify f j = l.modify f j := by
  induction l generalizing j with
  | nil => simp
  | cons a l ih =>
    cases j with
    | zero => simp [hf]
    | succ j => simp [ih]

theorem modify_append_length {α : Type} (f : α → α) (l : List α) (a : α) :
    (l ++ [a]).modify f l.length = l ++ [f a] := by
  induction l with
  | nil => simp
  | cons b l ih => simp [ih]

theorem assign_assign {ν : Type} (m : List (Str × ν)) (k : Str) (v w : ν) :
    assign (assign m k v) k w = assign m k w := by
  induction m with
  | nil => simp [assign]
  | cons e m ih =>
    obtain ⟨k0, v0⟩ := e
    by_cases h0 : k0 = k
    · simp [assign, h0]
    · simp [assign, h0, ih]

/-- A second `insert` of the same pattern along the same segments changes
nothing. -/
theorem insert_idem (pattern : Str) (parts : List Str) :
    ∀ n : node, (n.insert pattern parts).insert pattern parts = n.insert pattern parts := by
  induction parts with
  | nil =>
    intro n
    rfl
  | cons part rest ih =>
    intro n
    cases hm : n.matchChild part with
    | some j =>
      have hm1 : (n.insert pattern (part :: rest)).matchChild part = some j := by
        rw [insert_cons_some _ _ _ _ _ hm]
        unfold node.matchChild at hm ⊢
        simp only [firstWild_modify _ (insert_isWild pattern rest)]
        exact hm
      rw [insert_cons_some _ _ _ _ _ hm1, insert_cons_some _ _ _ _ _ hm]
      simp only [modify_idem _ ih]
    | none =>
      obtain ⟨hl, hf⟩ := matchChild_none hm
      have hm1 : (n.insert pattern (part :: rest)).matchChild part =
          some n.children.length := by
        rw [insert_cons_none _ _ _ _ hm]
        unfold node.matchChild
        by_cases hw : (decide (part.head? = some ':') || decide (part.head? = some '*')) = true
        · simp [hw, hl, firstWild_append_none _ _ hf, insert_isWild]
        · simp [hw, lookup_assign_self]
      rw [insert_cons_some _ _ _ _ _ hm1, insert_cons_none _ _ _ _ hm]
      simp only [modify_append_length, ih]

/-! ## What `search` reports -/

/-- A node returned by `search` stores a pattern, on every trie. -/
theorem search_pattern_ne_nil (parts : List Str) :
    ∀ (n M : node), n.search parts = some M → M.pattern ≠ [] := by
  induction parts with
  | nil =>
    intro n M hs
    unfold node.search at hs
    by_cases hp : n.pattern = []
    · simp [hp] at hs
    · simp only [hp, if_false, Option.some.injEq] at hs
      subst hs
      exact hp
  | cons part rest ih =>
    intro n M hs
    unfold node.search at hs
    by_cases hstar : n.part.head? = some '*'
    · simp only [hstar, if_true] at hs
      by_cases hp : n.pattern = []
      · simp [hp] at hs
      · simp only [hp, if_false, Option.some.injEq] at hs
        subst hs
        exact hp
    · simp only [hstar, if_false] at hs
      obtain ⟨c, _, hcs⟩ := List.exists_of_findSome?_eq_some hs
      exact ih c M hcs

/-! ## Duplicate parameter names -/

/-- Segments that do not bind `k` leave the binding of `k` alone. -/
theorem bindParams_keep_binds (sp : List Str) (k : Str) (rest : List Str) :
    ∀ (index : Nat) (params ps : List (Str × Str)),
      bindParams sp rest index params = some ps →
      (∀ q ∈ rest, ¬ Binds k q) →
      lookup ps k = lookup params k := by
  induction rest with
  | nil =>
    intro index params ps h _
    simp [bindParams] at h
    rw [h]
  | cons q rest ih =>
    intro index params ps h hk
    have hq := hk q (List.mem_cons_self _ _)
    have hrest : ∀ q ∈ rest, ¬ Binds k q :=
      fun q' hq' => hk q' (List.mem_cons_of_mem _ hq')
    by_cases hc : q.head? = some ':'
    · rw [bindParams_colon sp q rest index params hc] at h
      cases hv : sp[index]? with
      | none => simp [hv] at h
      | some v =>
        simp only [hv] at h
        rw [ih _ _ _ h hrest]
        have hne : q.tail ≠ k := by
          intro he
          apply hq
          left
          rw [← he]
          exact eq_cons_tail_of_head? hc
        exact lookup_assign_ne _ _ _ _ hne
    · by_cases hs : q.head? = some '*' ∧ q.length > 1
      · rw [bindParams_star sp q rest index params hs.1 hs.2] at h
        by_cases hi : index ≤ sp.length
        · simp only [hi, if_true, Option.some.injEq] at h
          rw [← h]
          have hne : q.tail ≠ k := by
            intro he
            apply hq
            right
            have hq1 := eq_cons_tail_of_head? hs.1
            rw [he] at hq1
            refine ⟨hq1, ?_⟩
            intro hk0
            rw [hq1, hk0] at hs
            simp at hs
          exact lookup_assign_ne _ _ _ _ hne
        · simp [hi] at h
      · rw [bindParams_skip sp q rest index params hc hs] at h
        exact ih _ _ _ h hrest

/-- The binding made for a segment `:k` after which no segment binds `k`. -/
theorem bindParams_colon_last (sp : List Str) (k : Str) (rest : List Str) :
    ∀ (index t : Nat) (params ps : List (Str × Str)),
      bindParams sp rest index params = some ps →
      StarLast rest →
      rest[t]? = some (':' :: k) →
      (∀ (u : Nat) (q : Str), t < u → rest[u]? = some q → ¬ Binds k q) →
      ∃ v, sp[index + t]? = some v ∧ lookup ps k = some v := by
  induction rest with
  | nil =>
    intro index t params ps _ _ ht _
    simp at ht
  | cons q rest ih =>
    intro index t params ps h hsl ht hk
    cases t with
    | zero =>
      simp only [List.getElem?_cons_zero, Option.some.injEq] at ht
      subst ht
      rw [bindParams_colon sp _ rest index params (by simp)] at h
      cases hv : sp[index]? with
      | none => simp [hv] at h
      | some v =>
        simp only [hv] at h
        refine ⟨v, by simpa using hv, ?_⟩
        have hrest : ∀ q ∈ rest, ¬ Binds k q := by
          intro q hq
          obtain ⟨u, hu⟩ := List.getElem?_of_mem hq
          exact hk (u + 1) q (Nat.succ_pos u) (by simpa using hu)
        rw [bindParams_keep_binds sp k rest _ _ _ h hrest]
        simpa using lookup_assign_self params k v
    | succ t =>
      have ht1 : rest[t]? = some (':' :: k) := by simpa using ht
      have hk1 : ∀ (u : Nat) (q : Str), t < u → rest[u]? = some q → ¬ Binds k q :=
        fun u q' hu hq' => hk (u + 1) q' (by omega) (by simpa using hq')
      have hnostar : ¬ q.head? = some '*' := by
        intro hs
        have h1 := hsl 0 q (by simp) hs
        have h2 : t < rest.length := (List.getElem?_eq_some_iff.1 ht1).1
        rw [List.length_cons] at h1
        omega
      have hidx : index + (t + 1) = index + 1 + t := by omega
      rw [hidx]
      by_cases hc : q.head? = some ':'
      · rw [bindParams_colon sp q rest index params hc] at h
        cases hv : sp[index]? with
        | none => simp [hv] at h
        | some v =>
          simp only [hv] at h
          exact ih _ _ _ _ h hsl.tail ht1 hk1
      · rw [bindParams_skip sp q rest index params hc (fun hs => hnostar hs.1)] at h
        exact ih _ _ _ _ h hsl.tail ht1 hk1

theorem keys_assign_mem {ν : Type} (m : List (Str × ν)) (k k1 : Str) (v : ν)
    (h : k1 ∈ (assign m k v).map Prod.fst) : k1 = k ∨ k1 ∈ m.map Prod.fst := by
  induction m with
  | nil =>
    simp only [assign, List.map_cons, List.map_nil, List.mem_singleton] at h
    exact Or.inl h
  | cons e m ih =>
    obtain ⟨k0, v0⟩ := e
    by_cases h0 : k0 = k
    · simp only [assign, h0, if_true, List.map_cons, List.mem_cons] at h ⊢
      rcases h with h | h
      · exact Or.inl h
      · exact Or.inr (Or.inr h)
    · simp only [assign, h0, if_false, List.map_cons, List.mem_cons] at h ⊢
      rcases h with h | h
      · exact Or.inr (Or.inl h)
      · rcases ih h with h2 | h2
        · exact Or.inl h2
        · exact Or.inr (Or.inr h2)

theorem nodup_keys_assign {ν : Type} (m : List (Str × ν)) (k : Str) (v : ν)
    (h : (m.map Prod.fst).Nodup) : ((assign m k v).map Prod.fst).Nodup := by
  induction m with
  | nil =>
    simp only [assign, List.map_cons, List.map_nil]
    exact List.nodup_singleton k
  | cons e m ih =>
    obtain ⟨k0, v0⟩ := e
    simp only [List.map_cons, List.nodup_cons] at h
    by_cases h0 : k0 = k
    · simp only [assign, h0, if_true, List.map_cons, List.nodup_cons]
      rw [h0] at h
      exact h
    · simp only [assign, h0, if_false, List.map_cons, List.nodup_cons]
      refine ⟨fun hmem => ?_, ih h.2⟩
      rcases keys_assign_mem m k k0 v hmem with h2 | h2
      · exact h0 h2
      · exact h.1 h2

/-- The parameter loop keeps the keys of the map distinct. -/
theorem bindParams_nodup (sp : List Str) (rest : List Str) :
    ∀ (index : Nat) (params ps : List (Str × Str)),
      bindParams sp rest index params = some ps →
      (params.map Prod.fst).Nodup → (ps.map Prod.fst).Nodup := by
  induction rest with
  | nil =>
    intro index params ps h hn
    simp [bindParams] at h
    rw [← h]
    exact hn
  | cons q rest ih =>
    intro index params ps h hn
    by_cases hc : q.head? = some ':'
    · rw [bindParams_colon sp q rest index params hc] at h
      cases hv : sp[index]? with
      | none => simp [hv] at h
      | some v =>
        simp only [hv] at h
        exact ih _ _ _ h (nodup_keys_assign _ _ _ hn)
    · by_cases hs : q.head? = some '*' ∧ q.length > 1
      · rw [bindParams_star sp q rest index params hs.1 hs.2] at h
        by_cases hi : index ≤ sp.length
        · simp only [hi, if_true, Option.some.injEq] at h
          rw [← h]
          exact nodup_keys_assign _ _ _ hn
        · simp [hi] at h
      · rw [bindParams_skip sp q rest index params hc hs] at h
        exact ih _ _ _ h hn

theorem lookup_none_of_not_mem {ν : Type} (m : List (Str × ν)) (k : Str)
    (h : k ∉ m.map Prod.fst) : m.filter (fun e => decide (e.1 = k)) = [] := by
  induction m with
  | nil => rfl
  | cons e m ih =>
    obtain ⟨k0, v0⟩ := e
    simp only [List.map_cons, List.mem_cons, not_or] at h
    have h0 : ¬ k0 = k := fun he => h.1 he.symm
    rw [List.filter_cons_of_neg (by simpa using h0)]
    exact ih h.2

/-- In a map with distinct keys, the entries for a bound key are exactly one. -/
theorem filter_of_lookup {ν : Type} (m : List (Str × ν)) (k : Str) (v : ν)
    (hn : (m.map Prod.fst).Nodup) (h : lookup m k = some v) :
    m.filter (fun e => decide (e.1 = k)) = [(k, v)] := by
  induction m with
  | nil => simp [lookup] at h
  | cons e m ih =>
    obtain ⟨k0, v0⟩ := e
    simp only [List.map_cons, List.nodup_cons] at hn
    by_cases h0 : k0 = k
    · subst h0
      simp only [lookup, if_true, Option.some.injEq] at h
      subst h
      rw [List.filter_cons_of_pos (by simp), lookup_none_of_not_mem m k0 hn.1]
    · simp only [lookup, h0, if_false] at h
      rw [List.filter_cons_of_neg (by simpa using h0)]
      exact ih hn.2 h

/-! ## The static index is kept by `insert` -/

theorem IndexOK.map_iff {n : node} (h : IndexOK n) :
    ∀ (k : Str) (j : Nat), lookup n.childrenMap k = some j ↔
      ∃ c, n.children[j]? = some c ∧ c.isWild = false ∧ c.part = k := by
  cases h with
  | mk _ hmap _ _ => exact hmap

theorem IndexOK.wild_iff {n : node} (h : IndexOK n) :
    ∀ c ∈ n.children,
      c.isWild = true ↔ (c.part.head? = some ':' ∨ c.part.head? = some '*') := by
  cases h with
  | mk _ _ hwild _ => exact hwild

theorem IndexOK.sub {n : node} (h : IndexOK n) : ∀ c ∈ n.children, IndexOK c := by
  cases h with
  | mk _ _ _ hch => exact hch

theorem indexOK_leaf (pattern part : Str) (w : Bool) : IndexOK ⟨pattern, part, [], w, []⟩ :=
  IndexOK.mk _
    (fun k j => by simp [lookup])
    (fun c hc => by simp at hc)
    (fun c hc => by simp at hc)

theorem indexOK_emptyNode : IndexOK emptyNode := indexOK_leaf [] [] false

theorem getElem?_modify_keep (f : node → node) (hw : ∀ c, (f c).isWild = c.isWild)
    (hp : ∀ c, (f c).part = c.part) (l : List node) (j i : Nat) (w : Bool) (k : Str) :
    (∃ c, (l.modify f j)[i]? = some c ∧ c.isWild = w ∧ c.part = k) ↔
      ∃ c, l[i]? = some c ∧ c.isWild = w ∧ c.part = k := by
  rw [List.getElem?_modify]
  cases hl : l[i]? with
  | none => simp
  | some a =>
    by_cases hji : j = i
    · simp [hji, hw, hp]
    · simp [hji]

theorem insert_indexOK (pattern : Str) (parts : List Str) :
    ∀ n : node, IndexOK n → IndexOK (n.insert pattern parts) := by
  induction parts with
  | nil =>
    intro n hn
    rw [insert_nil]
    exact IndexOK.mk _ hn.map_iff hn.wild_iff hn.sub
  | cons part rest ih =>
    intro n hn
    cases hm : n.matchChild part with
    | some j =>
      rw [insert_cons_some _ _ _ _ _ hm]
      refine IndexOK.mk _ ?_ ?_ ?_
      · intro k j0
        simp only
        rw [getElem?_modify_keep _ (insert_isWild pattern rest) (insert_part pattern rest)]
        exact hn.map_iff k j0
      · intro c hc
        rcases mem_modify _ _ _ _ hc with h | ⟨c0, h0, rfl⟩
        · exact hn.wild_iff c h
        · rw [insert_isWild, insert_part]
          exact hn.wild_iff c0 h0
      · intro c hc
        rcases mem_modify _ _ _ _ hc with h | ⟨c0, h0, rfl⟩
        · exact hn.sub c h
        · exact ih c0 (hn.sub c0 h0)
    | none =>
      obtain ⟨hl, _⟩ := matchChild_none hm
      rw [insert_cons_none _ _ _ _ hm]
      have hc1ok : IndexOK (node.insert pattern rest
          ⟨[], part, [], (part.head? = some ':' || part.head? = some '*'), []⟩) :=
        ih _ (indexOK_leaf _ _ _)
      have hc1w : (node.insert pattern rest
          ⟨[], part, [], (part.head? = some ':' || part.head? = some '*'), []⟩).isWild =
          (decide (part.head? = some ':') || decide (part.head? = some '*')) := by
        rw [insert_isWild]
      have hc1p : (node.insert pattern rest
          ⟨[], part, [], (part.head? = some ':' || part.head? = some '*'), []⟩).part =
          part := by
        rw [insert_part]
      generalize hc1 : node.insert pattern rest
          ⟨[], part, [], (part.head? = some ':' || part.head? = some '*'), []⟩ = c1
        at hc1ok hc1w hc1p ⊢
      have hlast : ∀ (j0 : Nat) (c : node), (n.children ++ [c1])[j0]? = some c →
          (j0 < n.children.length ∧ n.children[j0]? = some c) ∨
            (j0 = n.children.length ∧ c = c1) := by
        intro j0 c hc
        by_cases hlt : j0 < n.children.length
        · rw [List.getElem?_append_left hlt] at hc
          exact Or.inl ⟨hlt, hc⟩
        · have hge : n.children.length ≤ j0 := by omega
          rw [List.getElem?_append_right hge] at hc
          by_cases hz : j0 - n.children.length = 0
          · rw [hz] at hc
            simp only [List.getElem?_cons_zero, Option.some.injEq] at hc
            exact Or.inr ⟨by omega, hc.symm⟩
          · obtain ⟨t, ht⟩ := Nat.exists_eq_succ_of_ne_zero hz
            rw [ht] at hc
            simp at hc
      have hold : ∀ (j0 : Nat) (c : node), n.children[j0]? = some c →
          (n.children ++ [c1])[j0]? = some c := by
        intro j0 c hc
        have hlt : j0 < n.children.length := (List.getElem?_eq_some_iff.1 hc).1
        rw [List.getElem?_append_left hlt]
        exact hc
      refine IndexOK.mk _ ?_ ?_ ?_
      · intro k j0
        simp only
        by_cases hw : (decide (part.head? = some ':') || decide (part.head? = some '*')) = true
        · simp only [hw, Bool.not_true, Bool.false_eq_true, if_false]
          rw [hn.map_iff k j0]
          constructor
          · rintro ⟨c, hc, h1, h2⟩
            exact ⟨c, hold j0 c hc, h1, h2⟩
          · rintro ⟨c, hc, h1, h2⟩
            rcases hlast j0 c hc with ⟨_, h3⟩ | ⟨_, h3⟩
            · exact ⟨c, h3, h1, h2⟩
            · rw [h3, hc1w, hw] at h1
              exact absurd h1 (by simp)
        · have hwf : (decide (part.head? = some ':') || decide (part.head? = some '*')) =
              false := by simpa using hw
          simp only [hwf, Bool.not_false, if_true, lookup_assign]
          by_cases hpk : part = k
          · subst hpk
            simp only [if_true, Option.some.injEq]
            constructor
            · intro hj
              subst hj
              refine ⟨c1, by simp, ?_, hc1p⟩
              rw [hc1w, hwf]
            · rintro ⟨c, hc, h1, h2⟩
              rcases hlast j0 c hc with ⟨_, h3⟩ | ⟨h3, _⟩
              · have := (hn.map_iff part j0).2 ⟨c, h3, h1, h2⟩
                rw [hl] at this
                exact absurd this (by simp)
              · exact h3.symm
          · simp only [hpk, if_false]
            rw [hn.map_iff k j0]
            constructor
            · rintro ⟨c, hc, h1, h2⟩
              exact ⟨c, hold j0 c hc, h1, h2⟩
            · rintro ⟨c, hc, h1, h2⟩
              rcases hlast j0 c hc with ⟨_, h3⟩ | ⟨_, h3⟩
              · exact ⟨c, h3, h1, h2⟩
              · rw [h3, hc1p] at h2
                exact absurd h2 hpk
      · intro c hc
        rcases List.mem_append.1 hc with h | h
        · exact hn.wild_iff c h
        · rw [List.mem_singleton] at h
          subst h
          rw [hc1w, hc1p]
          simp
      · intro c hc
        rcases List.mem_append.1 hc with h | h
        · exact hn.sub c h
        · rw [List.mem_singleton] at h
          subst h
          exact hc1ok

/-! ## Tries built from the empty root -/

theorem buildTrie_append (patterns : List Str) (p : Str) :
    buildTrie (patterns ++ [p]) = (buildTrie patterns).insert p (parsePattern p) := by
  simp [buildTrie, List.foldl_append]

theorem buildTrie_indexOK (patterns : List Str) : IndexOK (buildTrie patterns) := by
  induction patterns using List.reverseRecOn with
  | nil => exact indexOK_emptyNode
  | append_singleton ps p ih =>
    rw [buildTrie_append]
    exact insert_indexOK _ _ _ ih

theorem buildTrie_trieOK (patterns : List Str) : TrieOK (buildTrie patterns) := by
  induction patterns using List.reverseRecOn with
  | nil => exact trieOK_emptyNode
  | append_singleton ps p ih =>
    rw [buildTrie_append]
    exact insert_trieOK_parse _ _ ih

theorem buildTrie_part (patterns : List Str) : (buildTrie patterns).part = [] := by
  induction patterns using List.reverseRecOn with
  | nil => rfl
  | append_singleton ps p ih =>
    rw [buildTrie_append, insert_part]
    exact ih

/-- The trie of a method in a built router is the trie built from the patterns
registered under that method, in registration order. -/
theorem root_getD_eq_buildTrie {H : Type} (rs : List (Str × Str × H)) (m : Str) :
    (lookup (addRoutes rs).roots m).getD emptyNode =
      buildTrie ((rs.filter (fun x => decide (x.1 = m))).map (fun x => x.2.1)) := by
  induction rs using List.reverseRecOn with
  | nil => rfl
  | append_singleton rs x ih =>
    rw [addRoutes_append, roots_addRoute, lookup_assign, List.filter_append]
    by_cases hm : x.1 = m
    · subst hm
      simp only [if_true, Option.getD_some, ih, List.filter_cons_of_pos, decide_True,
        List.filter_nil, List.map_append, List.map_cons, List.map_nil, buildTrie_append]
    · simp only [hm, if_false, ih, decide_False, Bool.false_eq_true, not_false_eq_true,
        List.filter_cons_of_neg, List.filter_nil, List.append_nil]

theorem root_eq_buildTrie {H : Type} (rs : List (Str × Str × H)) (m : Str) (root : node)
    (h : lookup (addRoutes rs).roots m = some root) :
    root = buildTrie ((rs.filter (fun x => decide (x.1 = m))).map (fun x => x.2.1)) := by
  have := root_getD_eq_buildTrie rs m
  rw [h] at this
  simpa using this

/-! ## Nodes of a trie -/

theorem indexOK_inTrie {root n : node} (h : InTrie root n) : IndexOK root → IndexOK n := by
  induction h with
  | here n => exact id
  | step root c n hc _ ih => exact fun hr => ih (hr.sub c hc)

theorem trieOK_inTrie {root n : node} (h : InTrie root n) :
    TrieOK root → (root.part.head? = some '*' → root.pattern ≠ []) →
      TrieOK n ∧ (n.part.head? = some '*' → n.pattern ≠ []) := by
  induction h with
  | here n => exact fun h1 h2 => ⟨h1, h2⟩
  | step root c n hc _ ih =>
    exact fun h1 _ => ih (h1.of_child c hc) (h1.star_pattern c hc)

/-- No two non-wild children of a node have the same part. -/
theorem static_unique {n : node} (hn : IndexOK n) (i j : Nat) (ci cj : node)
    (hi : n.children[i]? = some ci) (hj : n.children[j]? = some cj)
    (hwi : ci.isWild = false) (hwj : cj.isWild = false) (hp : ci.part = cj.part) :
    i = j := by
  have h1 := (hn.map_iff ci.part i).2 ⟨ci, hi, hwi, rfl⟩
  have h2 := (hn.map_iff ci.part j).2 ⟨cj, hj, hwj, hp.symm⟩
  rw [h1] at h2
  exact Option.some.inj h2

/-! ## The candidates of `search` -/

theorem filter_eq_singleton {α : Type} (p : α → Bool) (l : List α) :
    ∀ (j : Nat) (c : α), l[j]? = some c → p c = true →
      (∀ (i : Nat) (a : α), l[i]? = some a → p a = true → i = j) →
      l.filter p = [c] := by
  induction l with
  | nil =>
    intro j c h
    simp at h
  | cons a l ih =>
    intro j c hc hpc huniq
    cases j with
    | zero =>
      simp only [List.getElem?_cons_zero, Option.some.injEq] at hc
      subst hc
      rw [List.filter_cons_of_pos hpc]
      have : l.filter p = [] := by
        rw [List.filter_eq_nil_iff]
        intro b hb hpb
        obtain ⟨i, hi⟩ := List.getElem?_of_mem hb
        have := huniq (i + 1) b (by simpa using hi) hpb
        omega
      rw [this]
    | succ j =>
      have hpa : ¬ p a = true := by
        intro hpa
        have := huniq 0 a (by simp) hpa
        omega
      rw [List.filter_cons_of_neg hpa]
      refine ih j c (by simpa using hc) hpc ?_
      intro i b hi hpb
      have := huniq (i + 1) b (by simpa using hi) hpb
      omega

/-- On a node with a sound static index, `matchChildren` returns the static
child whose part is the segment (there is at most one), then the wild children
in child order. -/
theorem matchChildren_eq_spec {n : node} (hn : IndexOK n) (s : Str) :
    n.matchChildren s = candidatesSpec n s := by
  unfold node.matchChildren candidatesSpec
  congr 1
  cases hl : lookup n.childrenMap s with
  | none =>
    symm
    rw [List.filter_eq_nil_iff]
    intro c hc hpc
    simp only [Bool.and_eq_true, Bool.not_eq_true', decide_eq_true_eq] at hpc
    obtain ⟨i, hi⟩ := List.getElem?_of_mem hc
    have := (hn.map_iff s i).2 ⟨c, hi, hpc.1, hpc.2⟩
    rw [hl] at this
    exact absurd this (by simp)
  | some j =>
    obtain ⟨c, hc, hw, hp⟩ := (hn.map_iff s j).1 hl
    simp only [hc, Option.toList_some]
    symm
    apply filter_eq_singleton _ _ j c hc
    · simp [hw, hp]
    · intro i a hi hpa
      simp only [Bool.and_eq_true, Bool.not_eq_true', decide_eq_true_eq] at hpa
      exact static_unique hn i j a c hi hc hpa.1 hw (by rw [hpa.2, hp])

theorem static_candidates_le_one {n : node} (hn : IndexOK n) (s : Str) :
    (n.children.filter (fun c => !c.isWild && decide (c.part = s))).length ≤ 1 := by
  have h := matchChildren_eq_spec hn s
  unfold node.matchChildren candidatesSpec at h
  have h1 := List.append_cancel_right h
  rw [← h1]
  cases lookup n.childrenMap s with
  | none => simp
  | some j =>
    cases hj : n.children[j]? with
    | none => simp [hj]
    | some c => simp [hj]

theorem findSome?_of_mem {α β : Type} (f : α → Option β) (l : List α) (a : α) (b : β)
    (ha : a ∈ l) (hf : f a = some b) : ∃ b1, l.findSome? f = some b1 := by
  induction l with
  | nil => simp at ha
  | cons x l ih =>
    cases hx : f x with
    | some b0 => exact ⟨b0, by simp [List.findSome?, hx]⟩
    | none =>
      rcases List.mem_cons.1 ha with h | h
      · rw [← h, hf] at hx
        exact absurd hx (by simp)
      · obtain ⟨b1, hb1⟩ := ih h
        exact ⟨b1, by simp [List.findSome?, hx, hb1]⟩

/-- A candidate of `search` is a wild child, or a static child whose part is
the segment. -/
theorem mem_matchChildren_iff {n : node} (hn : IndexOK n) (s : Str) (c : node) :
    c ∈ n.matchChildren s ↔
      c ∈ n.children ∧ (c.isWild = true ∨ (c.isWild = false ∧ c.part = s)) := by
  rw [matchChildren_eq_spec hn, candidatesSpec, List.mem_append, List.mem_filter,
    List.mem_filter]
  simp only [Bool.and_eq_true, Bool.not_eq_true', decide_eq_true_eq]
  constructor
  · rintro (⟨h1, h2⟩ | ⟨h1, h2⟩)
    · exact ⟨h1, Or.inr h2⟩
    · exact ⟨h1, Or.inl h2⟩
  · rintro ⟨h1, h2 | h2⟩
    · exact Or.inr ⟨h1, h2⟩
    · exact Or.inl ⟨h1, h2⟩

theorem chain_of_search (parts : List Str) :
    ∀ (n M : node), IndexOK n → n.search parts = some M → Chain parts n := by
  induction parts with
  | nil =>
    intro n M _ hs
    have := search_pattern_ne_nil [] n M hs
    unfold node.search at hs
    by_cases hp : n.pattern = []
    · simp [hp] at hs
    · exact hp
  | cons s rest ih =>
    intro n M hn hs
    unfold node.search at hs
    by_cases hstar : n.part.head? = some '*'
    · simp only [hstar, if_true] at hs
      by_cases hp : n.pattern = []
      · simp [hp] at hs
      · exact Or.inl ⟨hstar, hp⟩
    · simp only [hstar, if_false] at hs
      obtain ⟨c, hc, hcs⟩ := List.exists_of_findSome?_eq_some hs
      obtain ⟨hmem, hkind⟩ := (mem_matchChildren_iff hn s c).1 hc
      exact Or.inr ⟨c, hmem, hkind, ih c M (hn.sub c hmem) hcs⟩

theorem search_of_chain (parts : List Str) :
    ∀ n : node, IndexOK n → TrieOK n → (n.part.head? = some '*' → n.pattern ≠ []) →
      Chain parts n → ∃ M, n.search parts = some M := by
  induction parts with
  | nil =>
    intro n _ _ _ hc
    exact ⟨n, by simp [node.search, show n.pattern ≠ [] from hc]⟩
  | cons s rest ih =>
    intro n hn ht hsp hc
    by_cases hstar : n.part.head? = some '*'
    · exact ⟨n, by simp [node.search, hstar, hsp hstar]⟩
    · rcases hc with ⟨h1, _⟩ | ⟨c, hmem, hkind, hrest⟩
      · exact absurd h1 hstar
      · obtain ⟨M, hM⟩ := ih c (hn.sub c hmem) (ht.of_child c hmem)
          (ht.star_pattern c hmem) hrest
        have hcand : c ∈ n.matchChildren s := (mem_matchChildren_iff hn s c).2 ⟨hmem, hkind⟩
        obtain ⟨M1, hM1⟩ := findSome?_of_mem (node.search rest) _ c M hcand hM
        exact ⟨M1, by simp [node.search, hstar, hM1]⟩

theorem roots_indexOK {H : Type} (rs : List (Str × Str × H)) (m : Str) (root : node)
    (h : lookup (addRoutes rs).roots m = some root) : IndexOK root := by
  rw [root_eq_buildTrie rs m root h]
  exact buildTrie_indexOK _

/-! ## The handler registry -/

theorem handlers_addRoute {H : Type} (r : router H) (m p : Str) (h : H) :
    (r.addRoute m p h).handlers = assign r.handlers (m ++ ['-'] ++ p) h :=
  rfl

/-- Every registered route has an entry in the handler registry. -/
theorem handlers_registered {H : Type} (rs : List (Str × Str × H)) :
    ∀ x ∈ rs, ∃ h, lookup (addRoutes rs).handlers (x.1 ++ ['-'] ++ x.2.1) = some h := by
  induction rs using List.reverseRecOn with
  | nil =>
    intro x hx
    simp at hx
  | append_singleton rs y ih =>
    intro x hx
    rw [addRoutes_append, handlers_addRoute, lookup_assign]
    by_cases hk : y.1 ++ ['-'] ++ y.2.1 = x.1 ++ ['-'] ++ x.2.1
    · exact ⟨y.2.2, by simp [hk]⟩
    · simp only [hk, if_false]
      rcases List.mem_append.1 hx with h1 | h1
      · exact ih x h1
      · rw [List.mem_singleton] at h1
        rw [h1] at hk
        exact absurd rfl hk

/-- The stored pattern of a matched node was registered under the method. -/
theorem matched_registered {H : Type} (rs : List (Str × Str × H)) (m path : Str)
    (n : node) (ps : List (Str × Str))
    (h : (addRoutes rs).getRoute m path = some (some n, ps)) :
    ∃ x ∈ rs, x.1 = m ∧ x.2.1 = n.pattern := by
  obtain ⟨root, hroot, hs, _⟩ := getRoute_match _ m path n ps h
  have hP := roots_allPatterns (fun s => s = [] ∨ ∃ x ∈ rs, x.1 = m ∧ x.2.1 = s)
    (Or.inl rfl) rs m (fun x hx hm => Or.inr ⟨x, hx, hm, rfl⟩) root hroot
  rcases search_allPatterns _ _ root n hP hs with h0 | h0
  · exact absurd h0 (search_pattern_ne_nil _ root n hs)
  · exact h0

/-- On a built router `getRoute` returns: it does not panic. -/
theorem getRoute_total {H : Type} (rs : List (Str × Str × H)) (m path : Str) :
    ∃ res, (addRoutes rs).getRoute m path = some res := by
  cases hl : lookup (addRoutes rs).roots m with
  | none => exact ⟨(none, []), by simp [router.getRoute, hl]⟩
  | some root =>
    cases hs : root.search (parsePattern path) with
    | none => exact ⟨(none, []), by simp [router.getRoute, hl, hs]⟩
    | some n =>
      obtain ⟨ps, hg, _⟩ := getRoute_of_search rs m path root n hl hs
      exact ⟨(some n, ps), hg⟩

/-! ## The depth of a matched node -/

theorem search_atDepth (rest : List Str) :
    ∀ (n M : node), n.search rest = some M → ∃ e, AtDepth n e M ∧ e ≤ rest.length := by
  induction rest with
  | nil =>
    intro n M hs
    unfold node.search at hs
    by_cases hp : n.pattern = []
    · simp [hp] at hs
    · simp only [hp, if_false, Option.some.injEq] at hs
      subst hs
      exact ⟨0, AtDepth.here n, Nat.le_refl _⟩
  | cons part rest ih =>
    intro n M hs
    unfold node.search at hs
    by_cases hstar : n.part.head? = some '*'
    · simp only [hstar, if_true] at hs
      by_cases hp : n.pattern = []
      · simp [hp] at hs
      · simp only [hp, if_false, Option.some.injEq] at hs
        subst hs
        exact ⟨0, AtDepth.here n, Nat.zero_le _⟩
    · simp only [hstar, if_false] at hs
      obtain ⟨c, hc, hcs⟩ := List.exists_of_findSome?_eq_some hs
      obtain ⟨e, he, hle⟩ := ih c M hcs
      refine ⟨e + 1, AtDepth.step n c M e (mem_matchChildren n part c hc) he, ?_⟩
      rw [List.length_cons]
      omega

theorem depthOK_atDepth {n M : node} {e : Nat} (h : AtDepth n e M) :
    ∀ d : Nat, DepthOK d n → DepthOK (d + e) M := by
  induction h with
  | here n =>
    intro d hd
    exact hd
  | step root c n e hc _ ih =>
    intro d hd
    have := ih (d + 1) (hd.child c hc)
    have he : d + 1 + e = d + (e + 1) := by omega
    rw [he] at this
    exact this

theorem inTrie_of_atDepth {n M : node} {e : Nat} (h : AtDepth n e M) : InTrie n M := by
  induction h with
  | here n => exact InTrie.here n
  | step root c n e hc _ ih => exact InTrie.step root c n hc ih

/-! ## The registry holds the stored patterns -/

theorem allPatterns_inTrie {P : Str → Prop} {root n : node} (h : InTrie root n) :
    AllPatterns P root → P n.pattern := by
  induction h with
  | here n => exact fun hr => hr.here
  | step root c n hc _ ih => exact fun hr => ih (hr.at_child c hc)

/-- An entry of the registry of a built router was stored by an `addRoute`
call with that key. -/
theorem handlers_from_call {H : Type} (rs : List (Str × Str × H)) (k : Str) (h : H) :
    lookup (addRoutes rs).handlers k = some h →
      ∃ x ∈ rs, x.1 ++ ['-'] ++ x.2.1 = k ∧ x.2.2 = h := by
  induction rs using List.reverseRecOn with
  | nil =>
    intro hl
    simp [addRoutes, newRouter, lookup] at hl
  | append_singleton rs y ih =>
    intro hl
    rw [addRoutes_append, handlers_addRoute, lookup_assign] at hl
    by_cases hk : y.1 ++ ['-'] ++ y.2.1 = k
    · simp only [hk, if_true, Option.some.injEq] at hl
      exact ⟨y, by simp, hk, hl⟩
    · simp only [hk, if_false] at hl
      obtain ⟨x, hx, h1, h2⟩ := ih hl
      exact ⟨x, by simp [hx], h1, h2⟩

/-- Every non-empty pattern stored in the trie of `m` has its key in the
registry. -/
theorem stored_pattern_registered {H : Type} (rs : List (Str × Str × H)) (m : Str)
    (root n : node) (hroot : lookup (addRoutes rs).roots m = some root)
    (hn : InTrie root n) (hp : n.pattern ≠ []) :
    ∃ h, lookup (addRoutes rs).handlers (m ++ ['-'] ++ n.pattern) = some h := by
  have hP := roots_allPatterns (fun s => s = [] ∨ ∃ x ∈ rs, x.1 = m ∧ x.2.1 = s)
    (Or.inl rfl) rs m (fun x hx hm => Or.inr ⟨x, hx, hm, rfl⟩) root hroot
  rcases allPatterns_inTrie hn hP with h0 | ⟨x, hx, hxm, hxp⟩
  · exact absurd h0 hp
  · obtain ⟨h, hh⟩ := handlers_registered rs x hx
    rw [hxm, hxp] at hh
    exact ⟨h, hh⟩

/-! ## A route is reachable right after its registration -/

theorem just_registered_reaches {H : Type} (rs : List (Str × Str × H)) (m p : Str) (h : H)
    (hp : p ≠ []) :
    ∃ root, lookup (addRoutes (rs ++ [(m, p, h)])).roots m = some root ∧
      Reaches (parsePattern p) root := by
  rw [addRoutes_append, roots_addRoute, lookup_assign_self]
  refine ⟨_, rfl, ?_⟩
  apply reaches_insert_self p hp _ _ _ (starLast_parsePattern p)
  · cases hl : lookup (addRoutes rs).roots m with
    | none => simp [emptyNode]
    | some root0 => simp [(roots_trieOK rs m root0 hl).2]
  · cases hl : lookup (addRoutes rs).roots m with
    | none => simpa using trieOK_emptyNode
    | some root0 => simpa using (roots_trieOK rs m root0 hl).1

/-! ## Registration keeps requests routable -/

theorem filter_wild_of_firstWild_none (l : List node) (h : firstWild l = none) :
    l.filter (fun c => c.isWild) = [] := by
  induction l with
  | nil => rfl
  | cons a l ih =>
    unfold firstWild at h
    by_cases ha : a.isWild = true
    · simp [ha] at h
    · simp only [ha, Bool.false_eq_true, if_false, Option.map_eq_none'] at h
      rw [List.filter_cons_of_neg ha]
      exact ih h

theorem getElem?_modify_some (f : node → node) (l : List node) (j i : Nat) (c : node)
    (hc : l[i]? = some c) :
    ∃ c1, (l.modify f j)[i]? = some c1 ∧ (c1 = c ∨ c1 = f c) := by
  rw [List.getElem?_modify, hc]
  by_cases hji : j = i
  · exact ⟨f c, by simp [hji], Or.inr rfl⟩
  · exact ⟨c, by simp [hji], Or.inl rfl⟩

/-- A candidate of `search` before an `insert` is still a candidate after it,
as it was or with the rest of the pattern inserted below it. -/
theorem mem_matchChildren_insert (p q : Str) (qs : List Str) (n c : node) (s : Str)
    (hc : c ∈ n.matchChildren s) :
    ∃ c1, c1 ∈ (n.insert p (q :: qs)).matchChildren s ∧
      (c1 = c ∨ c1 = node.insert p qs c) := by
  unfold node.matchChildren at hc
  cases hm : n.matchChild q with
  | some j =>
    rw [insert_cons_some _ _ _ _ _ hm]
    unfold node.matchChildren
    simp only
    rcases List.mem_append.1 hc with h | h
    · cases hl : lookup n.childrenMap s with
      | none => simp [hl] at h
      | some js =>
        rw [hl] at h
        have h1 : n.children[js]? = some c := by simpa using h
        obtain ⟨c1, hc1, hor⟩ := getElem?_modify_some (node.insert p qs) _ j js c h1
        exact ⟨c1, List.mem_append_left _ (by simp [hc1]), hor⟩
    · have hcm := (List.mem_filter.1 h).1
      have hcw := (List.mem_filter.1 h).2
      obtain ⟨i, hi⟩ := List.getElem?_of_mem hcm
      obtain ⟨c1, hc1, hor⟩ := getElem?_modify_some (node.insert p qs) _ j i c hi
      refine ⟨c1, List.mem_append_right _ ?_, hor⟩
      rw [List.mem_filter]
      refine ⟨List.getElem?_mem hc1, ?_⟩
      rcases hor with h2 | h2
      · rw [h2]
        exact hcw
      · rw [h2, insert_isWild]
        exact hcw
  | none =>
    obtain ⟨hlq, hfw⟩ := matchChild_none hm
    rw [filter_wild_of_firstWild_none _ hfw, List.append_nil] at hc
    cases hl : lookup n.childrenMap s with
    | none => simp [hl] at hc
    | some js =>
      rw [hl] at hc
      have h1 : n.children[js]? = some c := by simpa using hc
      have hne : q ≠ s := by
        intro he
        rw [he, hl] at hlq
        exact absurd hlq (by simp)
      have hlt : js < n.children.length := (List.getElem?_eq_some_iff.1 h1).1
      refine ⟨c, ?_, Or.inl rfl⟩
      rw [insert_cons_none _ _ _ _ hm]
      unfold node.matchChildren
      apply List.mem_append_left
      by_cases hw : (decide (q.head? = some ':') || decide (q.head? = some '*')) = true
      · simp [hw, hl, List.getElem?_append_left hlt, h1]
      · simp [hw, lookup_assign_ne _ _ _ _ hne, hl, List.getElem?_append_left hlt, h1]

/-- Inserting a non-empty pattern keeps every successful `search` successful. -/
theorem search_insert (p : Str) (hp : p ≠ []) (ss : List Str) :
    ∀ (n M : node) (parts : List Str), n.search ss = some M →
      ∃ M1, (n.insert p parts).search ss = some M1 := by
  induction ss with
  | nil =>
    intro n M parts hs
    have hpat : n.pattern ≠ [] := by
      intro h0
      simp [node.search, h0] at hs
    exact ⟨n.insert p parts, by simp [node.search, insert_pattern_ne_nil p parts n hp hpat]⟩
  | cons s ss ih =>
    intro n M parts hs
    by_cases hstar : n.part.head? = some '*'
    · have hpat : n.pattern ≠ [] := by
        intro h0
        simp [node.search, hstar, h0] at hs
      exact ⟨n.insert p parts, by simp [node.search, insert_part, hstar,
        insert_pattern_ne_nil p parts n hp hpat]⟩
    · simp only [node.search, hstar, if_false] at hs
      obtain ⟨c, hc, hcs⟩ := List.exists_of_findSome?_eq_some hs
      cases parts with
      | nil =>
        refine ⟨M, ?_⟩
        rw [insert_nil]
        simp only [node.search, hstar, if_false]
        exact hs
      | cons q qs =>
        obtain ⟨c1, hc1, hor⟩ := mem_matchChildren_insert p q qs n c s hc
        have hsub : ∃ M0, c1.search ss = some M0 := by
          rcases hor with h1 | h1
          · rw [h1]
            exact ⟨M, hcs⟩
          · rw [h1]
            exact ih c M qs hcs
        obtain ⟨M0, hM0⟩ := hsub
        obtain ⟨M1, hM1⟩ := findSome?_of_mem (node.search ss) _ c1 M0 hc1 hM0
        exact ⟨M1, by simp [node.search, insert_part, hstar, hM1]⟩

/-! ## Wild children -/

theorem OneWild.here_le {n : node} (h : OneWild n) :
    (n.children.filter (fun c => c.isWild)).length ≤ 1 := by
  cases h with
  | mk _ hone _ => exact hone

theorem OneWild.down {n : node} (h : OneWild n) : ∀ c ∈ n.children, OneWild c := by
  cases h with
  | mk _ _ hch => exact hch

theorem oneWild_leaf (pattern part : Str) (w : Bool) : OneWild ⟨pattern, part, [], w, []⟩ :=
  OneWild.mk _ (by simp) (fun c hc => by simp at hc)

theorem filter_wild_modify (f : node → node) (hf : ∀ c, (f c).isWild = c.isWild)
    (l : List node) (j : Nat) :
    ((l.modify f j).filter (fun c => c.isWild)).length =
      (l.filter (fun c => c.isWild)).length := by
  induction l generalizing j with
  | nil => simp
  | cons a l ih =>
    cases j with
    | zero =>
      rw [List.modify_zero_cons]
      by_cases ha : a.isWild = true
      · rw [List.filter_cons_of_pos (by rw [hf]; exact ha), List.filter_cons_of_pos ha]
        simp
      · rw [List.filter_cons_of_neg (by rw [hf]; exact ha), List.filter_cons_of_neg ha]
    | succ j =>
      rw [List.modify_succ_cons]
      by_cases ha : a.isWild = true
      · rw [List.filter_cons_of_pos ha, List.filter_cons_of_pos ha, List.length_cons,
          List.length_cons, ih]
      · rw [List.filter_cons_of_neg ha, List.filter_cons_of_neg ha, ih]

theorem map_part_modify (f : node → node) (hf : ∀ c, (f c).part = c.part)
    (l : List node) (j : Nat) :
    (l.modify f j).map (fun c => c.part) = l.map (fun c => c.part) := by
  induction l generalizing j with
  | nil => simp
  | cons a l ih =>
    cases j with
    | zero => simp [hf]
    | succ j =>
      rw [List.modify_succ_cons, List.map_cons, List.map_cons, ih]

theorem insert_oneWild (pattern : Str) (parts : List Str) :
    ∀ n : node, OneWild n → OneWild (n.insert pattern parts) := by
  induction parts with
  | nil =>
    intro n hn
    rw [insert_nil]
    exact OneWild.mk _ hn.here_le hn.down
  | cons part rest ih =>
    intro n hn
    cases hm : n.matchChild part with
    | some j =>
      rw [insert_cons_some _ _ _ _ _ hm]
      refine OneWild.mk _ ?_ ?_
      · simp only
        rw [filter_wild_modify _ (insert_isWild pattern rest)]
        exact hn.here_le
      · intro c hc
        rcases mem_modify _ _ _ _ hc with h | ⟨c0, h0, rfl⟩
        · exact hn.down c h
        · exact ih c0 (hn.down c0 h0)
    | none =>
      obtain ⟨_, hfw⟩ := matchChild_none hm
      rw [insert_cons_none _ _ _ _ hm]
      refine OneWild.mk _ ?_ ?_
      · simp only
        rw [List.filter_append, filter_wild_of_firstWild_none _ hfw, List.nil_append]
        exact List.length_filter_le _ _
      · intro c hc
        rcases List.mem_append.1 hc with h | h
        · exact hn.down c h
        · rw [List.mem_singleton] at h
          subst h
          exact ih _ (oneWild_leaf _ _ _)

theorem buildTrie_oneWild (patterns : List Str) : OneWild (buildTrie patterns) := by
  induction patterns using List.reverseRecOn with
  | nil => exact oneWild_leaf [] [] false
  | append_singleton ps p ih =>
    rw [buildTrie_append]
    exact insert_oneWild _ _ _ ih

theorem oneWild_inTrie {root n : node} (h : InTrie root n) : OneWild root → OneWild n := by
  induction h with
  | here n => exact id
  | step root c n hc _ ih => exact fun hr => ih (hr.down c hc)

theorem firstWild_ne_none (l : List node) (c : node) (hc : c ∈ l) (hw : c.isWild = true) :
    ∃ j, firstWild l = some j := by
  cases hf : firstWild l with
  | some j => exact ⟨j, rfl⟩
  | none =>
    have := filter_wild_of_firstWild_none l hf
    have hmem : c ∈ l.filter (fun c => c.isWild) := List.mem_filter.2 ⟨hc, hw⟩
    rw [this] at hmem
    simp at hmem

/-- Once a node has a wild child, `insert` adds no child to it: the children
keep their number and their parts. -/
theorem insert_children_of_wild (pattern : Str) (parts : List Str) (n : node)
    (h : ∃ c ∈ n.children, c.isWild = true) :
    (n.insert pattern parts).children.length = n.children.length ∧
      (n.insert pattern parts).children.map (fun c => c.part) =
        n.children.map (fun c => c.part) := by
  cases parts with
  | nil => exact ⟨rfl, rfl⟩
  | cons q qs =>
    obtain ⟨c, hc, hw⟩ := h
    obtain ⟨j0, hj0⟩ := firstWild_ne_none _ c hc hw
    have hm : ∃ j, n.matchChild q = some j := by
      unfold node.matchChild
      cases lookup n.childrenMap q with
      | some j => exact ⟨j, rfl⟩
      | none => exact ⟨j0, hj0⟩
    obtain ⟨j, hj⟩ := hm
    rw [insert_cons_some _ _ _ _ _ hj]
    exact ⟨by simp, map_part_modify _ (insert_part pattern qs) _ _⟩

theorem insert_keeps_wild (pattern : Str) (parts : List Str) (n : node)
    (h : ∃ c ∈ n.children, c.isWild = true) :
    ∃ c ∈ (n.insert pattern parts).children, c.isWild = true := by
  cases parts with
  | nil => exact h
  | cons q qs =>
    obtain ⟨c, hc, hw⟩ := h
    cases hm : n.matchChild q with
    | some j =>
      rw [insert_cons_some _ _ _ _ _ hm]
      obtain ⟨i, hi⟩ := List.getElem?_of_mem hc
      obtain ⟨c1, hc1, hor⟩ := getElem?_modify_some (node.insert pattern qs) _ j i c hi
      refine ⟨c1, List.getElem?_mem hc1, ?_⟩
      rcases hor with h2 | h2
      · rw [h2]; exact hw
      · rw [h2, insert_isWild]; exact hw
    | none =>
      rw [insert_cons_none _ _ _ _ hm]
      exact ⟨c, List.mem_append_left _ hc, hw⟩

/-- The node at a position of a trie is, after an `insert` at the root, the
same node or that node with a suffix of the segments inserted at it. -/
theorem nodeAt_insert (pattern : Str) (path : List Nat) :
    ∀ (n x : node) (parts : List Str), nodeAt path n = some x →
      ∃ y, nodeAt path (n.insert pattern parts) = some y ∧
        (y = x ∨ ∃ parts1, y = x.insert pattern parts1) := by
  induction path with
  | nil =>
    intro n x parts h
    simp only [nodeAt, Option.some.injEq] at h
    subst h
    exact ⟨_, rfl, Or.inr ⟨parts, rfl⟩⟩
  | cons i path ih =>
    intro n x parts h
    simp only [nodeAt] at h
    cases hc : n.children[i]? with
    | none => simp [hc] at h
    | some c =>
      simp only [hc, Option.some_bind] at h
      cases parts with
      | nil => exact ⟨x, by simp [nodeAt, insert_nil, hc, h], Or.inl rfl⟩
      | cons q qs =>
        cases hm : n.matchChild q with
        | some j =>
          rw [insert_cons_some _ _ _ _ _ hm]
          by_cases hji : j = i
          · subst hji
            obtain ⟨y, hy, hor⟩ := ih c x qs h
            exact ⟨y, by simp [nodeAt, hc, hy], hor⟩
          · exact ⟨x, by simp [nodeAt, List.getElem?_modify_ne _ _ hji, hc, h], Or.inl rfl⟩
        | none =>
          rw [insert_cons_none _ _ _ _ hm]
          have hlt : i < n.children.length := (List.getElem?_eq_some_iff.1 hc).1
          exact ⟨x, by simp [nodeAt, List.getElem?_append_left hlt, hc, h], Or.inl rfl⟩

/-! ## The parse of a request path and its segments -/

/-- The parser keeps every non-empty piece exactly when no piece other than the
last begins with `'*'`. -/
theorem takeThroughStar_eq_iff (l : List Str) : takeThroughStar l = l ↔ StarLast l := by
  induction l with
  | nil => simp [takeThroughStar, StarLast]
  | cons q qs ih =>
    by_cases hq : q.head? = some '*'
    · simp only [takeThroughStar, hq, if_true]
      constructor
      · intro h
        have : qs = [] := by simpa using h.symm
        subst this
        intro t r ht _
        cases t with
        | zero => rfl
        | succ t => simp at ht
      · intro h
        have := h 0 q (by simp) hq
        simp at this
        rw [this]
    · simp only [takeThroughStar, hq, if_false, List.cons.injEq, true_and, ih]
      constructor
      · intro h t r ht hr
        cases t with
        | zero =>
          simp at ht
          subst ht
          exact absurd hr hq
        | succ t =>
          have := h t r (by simpa using ht) hr
          simp [this]
      · intro h t r ht hr
        have := h (t + 1) r (by simpa using ht) hr
        simpa using this

/-! ## Literal routes on a walk without wild nodes -/

theorem noWildAlong_leaf (pattern part : Str) (w : Bool) (parts : List Str) :
    NoWildAlong parts ⟨pattern, part, [], w, []⟩ := by
  cases parts with
  | nil => trivial
  | cons s rest =>
    exact ⟨fun c hc => by simp at hc, fun j c hl _ => by simp [lookup] at hl⟩

theorem firstWild_none_of_static (l : List node) (h : ∀ c ∈ l, c.isWild = false) :
    firstWild l = none := by
  induction l with
  | nil => rfl
  | cons a l ih =>
    have ha := h a (List.mem_cons_self _ _)
    simp [firstWild, ha, ih (fun c hc => h c (List.mem_cons_of_mem _ hc))]

theorem literal_not_wild {q : Str} (h : Literal q) :
    (decide (q.head? = some ':') || decide (q.head? = some '*')) = false := by
  simp [h.1, h.2]

/-- At a node without wild child, `matchChild` is the lookup in the static
index. -/
theorem matchChild_of_static {n : node} (h : ∀ c ∈ n.children, c.isWild = false)
    (part : Str) : n.matchChild part = lookup n.childrenMap part := by
  unfold node.matchChild
  cases hl : lookup n.childrenMap part with
  | some j => rfl
  | none => exact firstWild_none_of_static _ h

/-- The child that the static index gives for a segment is the child that
`matchChild` gives for no other segment. -/
theorem matchChild_static_eq {n : node} (hi : IndexOK n) (part part1 : Str) (j : Nat)
    (hl : lookup n.childrenMap part = some j) (hm : n.matchChild part1 = some j) :
    part1 = part := by
  obtain ⟨c, hc, hcw, hcp⟩ := (hi.map_iff part j).1 hl
  unfold node.matchChild at hm
  cases hl1 : lookup n.childrenMap part1 with
  | some j0 =>
    simp only [hl1, Option.some.injEq] at hm
    subst hm
    obtain ⟨c1, hc1, _, hp1⟩ := (hi.map_iff part1 j0).1 hl1
    rw [hc] at hc1
    have := Option.some.inj hc1
    subst this
    rw [← hp1, hcp]
  | none =>
    simp only [hl1] at hm
    obtain ⟨c1, hc1, hw1⟩ := firstWild_some _ _ hm
    rw [hc] at hc1
    have := Option.some.inj hc1
    subst this
    rw [hcw] at hw1
    exact absurd hw1 (by simp)

/-- Inserting a route that has no wildcard segment right after segments shared
with `parts` keeps the walk along `parts` free of wild nodes. -/
theorem insert_noWildAlong (pattern : Str) (parts : List Str) :
    ∀ (n : node) (parts1 : List Str), IndexOK n → NoWildAlong parts n →
      wildAfterShared parts parts1 = false →
      NoWildAlong parts (n.insert pattern parts1) := by
  induction parts with
  | nil =>
    intro n parts1 _ _ _
    trivial
  | cons s rest ih =>
    intro n parts1 hi hn hw
    cases parts1 with
    | nil => exact hn
    | cons t rest1 =>
      obtain ⟨hnw, hnc⟩ := hn
      simp only [wildAfterShared, Bool.or_eq_false_iff, Bool.and_eq_false_imp,
        decide_eq_true_eq] at hw
      obtain ⟨htw, hts⟩ := hw
      cases hm : n.matchChild t with
      | some j1 =>
        rw [insert_cons_some _ _ _ _ _ hm]
        refine ⟨?_, ?_⟩
        · intro c hc
          rcases mem_modify _ _ _ _ hc with h | ⟨c0, h0, rfl⟩
          · exact hnw c h
          · rw [insert_isWild]
            exact hnw c0 h0
        · intro j c hl hc
          by_cases hj : j1 = j
          · subst hj
            have hts1 : t = s := matchChild_static_eq hi s t j1 hl hm
            obtain ⟨c0, hc0, _, _⟩ := (hi.map_iff s j1).1 hl
            have hmem : c0 ∈ n.children := List.getElem?_mem hc0
            have hcc : c = node.insert pattern rest1 c0 := by
              simp only [List.getElem?_modify_eq, hc0, Option.map_some'] at hc
              exact (Option.some.inj hc).symm
            rw [hcc]
            exact ih c0 rest1 (hi.sub c0 hmem) (hnc j1 c0 hl hc0) (hts hts1)
          · simp only [List.getElem?_modify_ne _ _ hj] at hc
            exact hnc j c hl hc
      | none =>
        obtain ⟨hl1, _⟩ := matchChild_none hm
        rw [insert_cons_none _ _ _ _ hm]
        have htw1 : (decide (t.head? = some ':') || decide (t.head? = some '*')) = false := htw
        refine ⟨?_, ?_⟩
        · intro c hc
          rcases List.mem_append.1 hc with h | h
          · exact hnw c h
          · rw [List.mem_singleton] at h
            subst h
            rw [insert_isWild]
            exact htw1
        · intro j c hl hc
          simp only [htw1, Bool.not_false, if_true, lookup_assign] at hl
          by_cases hts1 : t = s
          · simp only [hts1, if_true, Option.some.injEq] at hl
            subst hl
            simp only [List.getElem?_concat_length, Option.some.injEq] at hc
            subst hc
            exact ih _ rest1 (indexOK_leaf _ _ _) (noWildAlong_leaf _ _ _ _) (hts hts1)
          · simp only [hts1, if_false] at hl
            obtain ⟨c0, hc0, _, _⟩ := (hi.map_iff s j).1 hl
            have hjlt : j < n.children.length := (List.getElem?_eq_some_iff.1 hc0).1
            rw [List.getElem?_append_left hjlt, hc0] at hc
            have := Option.some.inj hc
            subst this
            exact hnc j c0 hl hc0

/-- On a walk without wild nodes, `insert` stores a literal route at the end of
the walk through the static index. -/
theorem staticReach_insert_self (pattern : Str) (hp : pattern ≠ []) (parts : List Str) :
    ∀ n : node, NoWildAlong parts n → IndexOK n → (∀ q ∈ parts, Literal q) →
      StaticReach (parsePattern pattern) parts (n.insert pattern parts) := by
  induction parts with
  | nil =>
    intro n _ _ _
    exact ⟨hp, rfl⟩
  | cons part rest ih =>
    intro n hn hi hlit
    obtain ⟨hnw, hnc⟩ := hn
    have hrest : ∀ q ∈ rest, Literal q := fun q hq => hlit q (List.mem_cons_of_mem _ hq)
    cases hm : n.matchChild part with
    | some j =>
      have hl : lookup n.childrenMap part = some j := by
        rw [← matchChild_of_static hnw]
        exact hm
      obtain ⟨c, hc, _, _⟩ := (hi.map_iff part j).1 hl
      have hmem : c ∈ n.children := List.getElem?_mem hc
      rw [insert_cons_some _ _ _ _ _ hm]
      exact ⟨j, node.insert pattern rest c, hl, by simp [hc],
        ih c (hnc j c hl hc) (hi.sub c hmem) hrest⟩
    | none =>
      rw [insert_cons_none _ _ _ _ hm]
      have hw := literal_not_wild (hlit part (List.mem_cons_self _ _))
      refine ⟨n.children.length, node.insert pattern rest
        ⟨[], part, [], (part.head? = some ':' || part.head? = some '*'), []⟩, ?_, ?_, ?_⟩
      · simp [hw, lookup_assign_self]
      · simp
      · exact ih _ (noWildAlong_leaf _ _ _ _) (indexOK_leaf _ _ _) hrest

/-- A later `insert` keeps the walk through the static index, provided that a
pattern with the same segments is not empty. -/
theorem staticReach_insert_other (target : List Str) (pattern : Str) (parts : List Str) :
    ∀ (n : node) (parts1 : List Str), IndexOK n →
      (parts1 = parts → pattern ≠ [] ∧ parsePattern pattern = target) →
      StaticReach target parts n →
      StaticReach target parts (n.insert pattern parts1) := by
  induction parts with
  | nil =>
    intro n parts1 _ hE h
    cases parts1 with
    | nil => exact hE rfl
    | cons part1 rest1 =>
      simp only [StaticReach] at h ⊢
      rw [insert_pattern_cons]
      exact h
  | cons part rest ih =>
    intro n parts1 hi hE h
    obtain ⟨j, c, hl, hc, hr⟩ := h
    cases parts1 with
    | nil => exact ⟨j, c, hl, hc, hr⟩
    | cons part1 rest1 =>
      have hmem : c ∈ n.children := List.getElem?_mem hc
      obtain ⟨c0, hc0, hcw, hcp⟩ := (hi.map_iff part j).1 hl
      rw [hc] at hc0
      have hcc := Option.some.inj hc0
      subst hcc
      cases hm1 : n.matchChild part1 with
      | some j1 =>
        rw [insert_cons_some _ _ _ _ _ hm1]
        by_cases hj : j1 = j
        · subst hj
          have hpart : part1 = part := matchChild_static_eq hi part part1 j1 hl hm1
          refine ⟨j1, node.insert pattern rest1 c, hl, by simp [hc], ?_⟩
          refine ih c rest1 (hi.sub c hmem) ?_ hr
          intro he
          exact hE (by rw [hpart, he])
        · exact ⟨j, c, hl, by simp [List.getElem?_modify_ne _ _ hj, hc], hr⟩
      | none =>
        obtain ⟨hl1, _⟩ := matchChild_none hm1
        rw [insert_cons_none _ _ _ _ hm1]
        have hne : part1 ≠ part := by
          intro he
          rw [he, hl] at hl1
          exact absurd hl1 (by simp)
        have hjlt : j < n.children.length := (List.getElem?_eq_some_iff.1 hc).1
        refine ⟨j, c, ?_, ?_, hr⟩
        · by_cases hw : (decide (part1.head? = some ':') ||
              decide (part1.head? = some '*')) = true
          · simp [hw, hl]
          · simp [hw, lookup_assign_ne _ _ _ _ hne, hl]
        · simp [List.getElem?_append_left hjlt, hc]

/-- The request whose segments are the literal segments of the walk through the
static index is matched to the node at the end of that walk. -/
theorem search_of_staticReach (target : List Str) (parts : List Str) :
    ∀ n : node, IndexOK n → (∀ q ∈ parts, Literal q) → n.part.head? ≠ some '*' →
      StaticReach target parts n →
      ∃ M, n.search parts = some M ∧ M.pattern ≠ [] ∧ parsePattern M.pattern = target := by
  induction parts with
  | nil =>
    intro n _ _ _ h
    exact ⟨n, by simp [node.search, h.1], h.1, h.2⟩
  | cons part rest ih =>
    intro n hi hlit hstar h
    obtain ⟨j, c, hl, hc, hr⟩ := h
    have hmem : c ∈ n.children := List.getElem?_mem hc
    obtain ⟨c0, hc0, _, hcp⟩ := (hi.map_iff part j).1 hl
    rw [hc] at hc0
    have hcc := Option.some.inj hc0
    subst hcc
    have hcstar : c.part.head? ≠ some '*' := by
      rw [hcp]
      exact (hlit part (List.mem_cons_self _ _)).2
    obtain ⟨M, hM, hMp, hMt⟩ := ih c (hi.sub c hmem)
      (fun q hq => hlit q (List.mem_cons_of_mem _ hq)) hcstar hr
    refine ⟨M, ?_, hMp, hMt⟩
    simp [node.search, hstar, node.matchChildren, hl, hc, hM]

/-! ## Literal routes on a router built by `addRoute` -/

theorem rootPattern_append {H : Type} (rs : List (Str × Str × H)) (x : Str × Str × H)
    (m : Str) :
    rootPattern (rs ++ [x]) m =
      if x.1 = m ∧ parsePattern x.2.1 = [] then x.2.1 else rootPattern rs m := by
  simp [rootPattern, List.foldl_append]

/-- The root of the trie of `m` stores the last pattern without segments that
was registered under `m`. -/
theorem root_pattern_eq {H : Type} (rs : List (Str × Str × H)) (m : Str) :
    ((lookup (addRoutes rs).roots m).getD emptyNode).pattern = rootPattern rs m := by
  induction rs using List.reverseRecOn with
  | nil => simp [addRoutes, newRouter, lookup, emptyNode, rootPattern]
  | append_singleton rs x ih =>
    rw [addRoutes_append, roots_addRoute, lookup_assign, rootPattern_append]
    by_cases hm : x.1 = m
    · simp only [hm, if_true, Option.getD_some, true_and]
      cases hparts : parsePattern x.2.1 with
      | nil => simp [insert_nil]
      | cons part rest =>
        rw [insert_pattern_cons]
        simpa using ih
    · simp only [hm, if_false, false_and]
      exact ih

theorem getD_indexOK {H : Type} (rs : List (Str × Str × H)) (m : Str) :
    IndexOK ((lookup (addRoutes rs).roots m).getD emptyNode) := by
  cases hl : lookup (addRoutes rs).roots m with
  | none => exact indexOK_emptyNode
  | some root => exact roots_indexOK rs m root hl

/-- When no route registered under `m` has a wildcard segment right after
segments shared with `parts`, the walk along `parts` in the trie of `m` is free
of wild nodes. -/
theorem roots_noWildAlong {H : Type} (rs : List (Str × Str × H)) (m : Str)
    (parts : List Str)
    (hrs : ∀ x ∈ rs, x.1 = m → wildAfterShared parts (parsePattern x.2.1) = false) :
    NoWildAlong parts ((lookup (addRoutes rs).roots m).getD emptyNode) := by
  induction rs using List.reverseRecOn with
  | nil =>
    simp only [addRoutes, newRouter, lookup, List.foldl_nil, Option.getD_none]
    exact noWildAlong_leaf _ _ _ _
  | append_singleton rs x ih =>
    have ih1 := ih (fun y hy => hrs y (by simp [hy]))
    rw [addRoutes_append, roots_addRoute, lookup_assign]
    by_cases hm : x.1 = m
    · simp only [hm, if_true, Option.getD_some]
      exact insert_noWildAlong _ _ _ _ (getD_indexOK rs m) ih1 (hrs x (by simp) hm)
    · simp only [hm, if_false]
      exact ih1

/-- A literal route registered when its walk in the trie of its method had no
wild node stays at the end of the walk through the static index, whatever is registered
after it. -/
theorem root_staticReach {H : Type} (before after : List (Str × Str × H)) (m p : Str)
    (h : H) (hlit : ∀ q ∈ parsePattern p, Literal q) (hseg : parsePattern p ≠ [])
    (hbefore : ∀ x ∈ before, x.1 = m →
      wildAfterShared (parsePattern p) (parsePattern x.2.1) = false) :
    ∃ root, lookup (addRoutes (before ++ (m, p, h) :: after)).roots m = some root ∧
      StaticReach (parsePattern p) (parsePattern p) root := by
  induction after using List.reverseRecOn with
  | nil =>
    rw [addRoutes_append, roots_addRoute, lookup_assign]
    simp only [if_true]
    exact ⟨_, rfl, staticReach_insert_self p (ne_nil_of_parsePattern_ne_nil hseg) _ _
      (roots_noWildAlong before m _ hbefore) (getD_indexOK before m) hlit⟩
  | append_singleton after x ih =>
    obtain ⟨root0, hl, hr⟩ := ih
    have happ : before ++ (m, p, h) :: (after ++ [x]) =
        (before ++ (m, p, h) :: after) ++ [x] := by simp
    rw [happ, addRoutes_append, roots_addRoute, lookup_assign]
    by_cases hm : x.1 = m
    · simp only [hm, if_true, hl, Option.getD_some]
      refine ⟨_, rfl, staticReach_insert_other _ _ _ _ _
        (roots_indexOK _ m root0 hl) ?_ hr⟩
      intro he
      exact ⟨ne_nil_of_parsePattern_ne_nil (by rw [he]; exact hseg), he⟩
    · simp only [hm, if_false]
      exact ⟨root0, hl, hr⟩

/-! ## `getRoute` in memory: what it reads and what it writes -/

/-- The loop of `matchChildren` leaves the memory as it is, and its result
depends on the node objects only. -/
theorem wildLoop_reads {H : Type} (l : List Nat) :
    ∀ (acc : List Nat) (μ : memory H),
      Mem.wildLoop l acc μ = ((Mem.wildLoop l acc (Mem.core μ)).1, μ) := by
  induction l with
  | nil =>
    intro acc μ
    rfl
  | cons child rest ih =>
    intro acc μ
    simp only [Mem.wildLoop, Mem.load, Mem.core]
    cases μ.nodes[child]? with
    | none => rfl
    | some c =>
      simp only []
      rw [ih]
      rfl

/-- The method `matchChildren` leaves the memory as it is. -/
theorem matchChildren_reads {H : Type} (n : Nat) (part : Str) (μ : memory H) :
    Mem.matchChildren n part μ = ((Mem.matchChildren n part (Mem.core μ)).1, μ) := by
  simp only [Mem.matchChildren, Mem.load, Mem.core]
  cases μ.nodes[n]? with
  | none => rfl
  | some c =>
    simp only []
    rw [wildLoop_reads]
    rfl

/-- The loop of `search` leaves the memory as it is when the recursive call
does. -/
theorem searchLoop_reads {H : Type} (f : Nat → Run H (Option Nat))
    (hf : ∀ (a : Nat) (μ : memory H), f a μ = ((f a (Mem.core μ)).1, μ)) (l : List Nat) :
    ∀ μ : memory H, Mem.searchLoop f l μ = ((Mem.searchLoop f l (Mem.core μ)).1, μ) := by
  induction l with
  | nil =>
    intro μ
    rfl
  | cons child rest ih =>
    intro μ
    have hcc : Mem.core (Mem.core μ) = Mem.core μ := rfl
    simp only [Mem.searchLoop]
    rw [hf child μ, hf child (Mem.core μ), hcc]
    cases (f child (Mem.core μ)).1 with
    | none => rfl
    | some r =>
      cases r with
      | none =>
        simp only []
        rw [ih μ, ih (Mem.core μ), hcc]
      | some b => rfl

/-- The method `search` leaves the memory as it is, and its result depends on
the node objects only. -/
theorem search_reads {H : Type} (parts : List Str) :
    ∀ (n : Nat) (μ : memory H),
      Mem.search parts n μ = ((Mem.search parts n (Mem.core μ)).1, μ) := by
  induction parts with
  | nil =>
    intro n μ
    simp only [Mem.search, Mem.load, Mem.core]
    cases μ.nodes[n]? with
    | none => rfl
    | some c => rfl
  | cons part rest ih =>
    intro n μ
    have hcc : Mem.core (Mem.core μ) = Mem.core μ := rfl
    simp only [Mem.search, Mem.load]
    have hn : (Mem.core μ).nodes[n]? = μ.nodes[n]? := rfl
    rw [hn]
    cases μ.nodes[n]? with
    | none => rfl
    | some c =>
      simp only []
      by_cases hstar : c.part.head? = some '*'
      · simp only [hstar, if_true]
      · simp only [hstar, if_false]
        rw [matchChildren_reads n part μ, matchChildren_reads n part (Mem.core μ), hcc]
        cases (Mem.matchChildren n part (Mem.core μ)).1 with
        | none => rfl
        | some children =>
          simp only []
          rw [searchLoop_reads _ ih children μ,
            searchLoop_reads _ ih children (Mem.core μ), hcc]

theorem set_of_getElem? {α : Type} (l : List α) (a : Nat) (x : α) (h : l[a]? = some x) :
    l.set a x = l := by
  induction l generalizing a with
  | nil => rfl
  | cons y l ih =>
    cases a with
    | zero =>
      simp only [List.getElem?_cons_zero, Option.some.injEq] at h
      simp [h]
    | succ a =>
      simp only [List.getElem?_cons_succ] at h
      simp [ih a h]

theorem storeMap_at {H : Type} (a : Nat) (k v : Str) (μ : memory H)
    (mp : List (Str × Str)) (h : μ.maps[a]? = some mp) :
    Mem.storeMap a k v μ = (some (), { μ with maps := μ.maps.set a (assign mp k v) }) := by
  simp [Mem.storeMap, h]

theorem memBind_colon {H : Type} (sp : List Str) (a : Nat) (q : Str) (rest : List Str)
    (index : Nat) (μ : memory H) (h : q.head? = some ':') :
    Mem.bindParams sp a (q :: rest) index μ =
      match sp[index]? with
      | none => (none, μ)
      | some v =>
        match Mem.storeMap a q.tail v μ with
        | (some _, μ1) => Mem.bindParams sp a rest (index + 1) μ1
        | (none, μ1) => (none, μ1) := by
  cases hv : sp[index]? <;> simp [Mem.bindParams, h, hv]

theorem memBind_star {H : Type} (sp : List Str) (a : Nat) (q : Str) (rest : List Str)
    (index : Nat) (μ : memory H) (h : q.head? = some '*') (hl : q.length > 1) :
    Mem.bindParams sp a (q :: rest) index μ =
      if index ≤ sp.length then Mem.storeMap a q.tail (join (sp.drop index)) μ
      else (none, μ) := by
  simp [Mem.bindParams, h, hl]

theorem memBind_skip {H : Type} (sp : List Str) (a : Nat) (q : Str) (rest : List Str)
    (index : Nat) (μ : memory H) (h : ¬ q.head? = some ':')
    (hs : ¬ (q.head? = some '*' ∧ q.length > 1)) :
    Mem.bindParams sp a (q :: rest) index μ = Mem.bindParams sp a rest (index + 1) μ := by
  simp only [Mem.bindParams, h, if_false]
  rw [if_neg hs]

/-- The parameter loop in memory writes only the map behind `params`, and it
computes in that map what the loop `bindParams` computes. -/
theorem memBind_writes {H : Type} (sp : List Str) (a : Nat) (parts : List Str) :
    ∀ (index : Nat) (μ : memory H) (mp : List (Str × Str)), μ.maps[a]? = some mp →
      ∃ mp1 : List (Str × Str),
        (Mem.bindParams sp a parts index μ).2 = { μ with maps := μ.maps.set a mp1 } ∧
        (Mem.bindParams sp a parts index μ).1 =
          (bindParams sp parts index mp).map (fun _ => ()) ∧
        (∀ ps, bindParams sp parts index mp = some ps → mp1 = ps) := by
  induction parts with
  | nil =>
    intro index μ mp h
    refine ⟨mp, ?_, rfl, ?_⟩
    · rw [set_of_getElem? _ _ _ h]
      rfl
    · intro ps hps
      simp only [bindParams, Option.some.injEq] at hps
      exact hps
  | cons part rest ih =>
    intro index μ mp h
    have hlt : a < μ.maps.length := (List.getElem?_eq_some_iff.1 h).1
    by_cases hc : part.head? = some ':'
    · rw [memBind_colon sp a part rest index μ hc, bindParams_colon sp part rest index mp hc]
      cases hv : sp[index]? with
      | none =>
        refine ⟨mp, ?_, rfl, ?_⟩
        · simp only []
          rw [set_of_getElem? _ _ _ h]
        · intro ps hps
          simp at hps
      | some v =>
        have h1 : ({ μ with maps := μ.maps.set a (assign mp part.tail v) } : memory H).maps[a]? =
            some (assign mp part.tail v) := by
          simp [List.getElem?_set_self hlt]
        obtain ⟨mp1, hm, hr, hp⟩ := ih (index + 1) _ _ h1
        simp only [storeMap_at a _ _ μ mp h]
        refine ⟨mp1, ?_, hr, hp⟩
        rw [hm]
        simp [List.set_set]
    · by_cases hs : part.head? = some '*' ∧ part.length > 1
      · rw [memBind_star sp a part rest index μ hs.1 hs.2,
          bindParams_star sp part rest index mp hs.1 hs.2]
        by_cases hi : index ≤ sp.length
        · simp only [hi, if_true, storeMap_at a _ _ μ mp h]
          exact ⟨_, rfl, rfl, fun ps hps => Option.some.inj hps⟩
        · simp only [hi, if_false]
          refine ⟨mp, ?_, rfl, ?_⟩
          · rw [set_of_getElem? _ _ _ h]
          · intro ps hps
            simp at hps
      · rw [memBind_skip sp a part rest index μ hc hs, bindParams_skip sp part rest index mp hc hs]
        exact ih (index + 1) μ mp h

theorem set_concat_length {α : Type} (l : List α) (x y : α) :
    (l ++ [x]).set l.length y = l ++ [y] := by
  induction l with
  | nil => rfl
  | cons a l ih => simp [ih]

/-- A call of `getRoute` in memory adds the parameter map it made and changes
nothing else; what the caller reads of the result is determined by the node
objects and by `r.roots`. -/
theorem getRoute_reads {H : Type} (μ : memory H) (method path : Str) :
    (∃ mp, (Mem.getRoute method path μ).2 = { μ with maps := μ.maps ++ [mp] }) ∧
    Mem.outcome (Mem.getRoute method path μ) =
      match lookup μ.roots method with
      | none => some (none, none)
      | some root =>
        match (Mem.search (parsePattern path) root (Mem.core μ)).1 with
        | none => none
        | some none => some (none, none)
        | some (some n) =>
          match μ.nodes[n]? with
          | none => none
          | some c =>
            (bindParams (parsePattern path) (parsePattern c.pattern) 0 []).map
              (fun ps => (some (n, c), some ps)) := by
  have hcore : Mem.core ({ μ with maps := μ.maps ++ [[]] } : memory H) = Mem.core μ := rfl
  simp only [Mem.getRoute, Mem.makeMap]
  cases hl : lookup μ.roots method with
  | none => exact ⟨⟨[], rfl⟩, rfl⟩
  | some root =>
    simp only []
    rw [search_reads, hcore]
    cases hs : (Mem.search (parsePattern path) root (Mem.core μ)).1 with
    | none => exact ⟨⟨[], rfl⟩, rfl⟩
    | some r =>
      cases r with
      | none => exact ⟨⟨[], rfl⟩, rfl⟩
      | some n =>
        simp only [Mem.load]
        cases hn : μ.nodes[n]? with
        | none => exact ⟨⟨[], rfl⟩, rfl⟩
        | some c =>
          simp only []
          have h1 : ({ μ with maps := μ.maps ++ [[]] } : memory H).maps[μ.maps.length]? =
              some [] := by simp
          obtain ⟨mp1, hm, hr, hp⟩ := memBind_writes (parsePattern path) μ.maps.length
            (parsePattern c.pattern) 0 _ _ h1
          have hm1 : (Mem.bindParams (parsePattern path) μ.maps.length
              (parsePattern c.pattern) 0 { μ with maps := μ.maps ++ [[]] }).2 =
              { μ with maps := μ.maps ++ [mp1] } := by
            rw [hm]
            simp [set_concat_length]
          cases hb : bindParams (parsePattern path) (parsePattern c.pattern) 0 [] with
          | none =>
            rw [hb] at hr
            have hx : Mem.bindParams (parsePattern path) μ.maps.length
                (parsePattern c.pattern) 0 { μ with maps := μ.maps ++ [[]] } =
                (none, { μ with maps := μ.maps ++ [mp1] }) := Prod.ext hr hm1
            rw [hx]
            exact ⟨⟨mp1, rfl⟩, rfl⟩
          | some ps =>
            rw [hb] at hr
            have hps := hp ps hb
            subst hps
            have hx : Mem.bindParams (parsePattern path) μ.maps.length
                (parsePattern c.pattern) 0 { μ with maps := μ.maps ++ [[]] } =
                (some (), { μ with maps := μ.maps ++ [mp1] }) := Prod.ext hr hm1
            rw [hx]
            refine ⟨⟨mp1, rfl⟩, ?_⟩
            simp [Mem.outcome, hn]

/-! ## The claims -/

/-- C1. Named-parameter binding: when `getRoute` returns a match and the stored
pattern of the matched node has the segment `:k` at position `i`, and no other
segment of that pattern carries the name `k`, the returned map binds `k` to the
`i`-th segment of the parsed request path (which exists). -/
theorem C1_named_parameter_binding {H : Type} (rs : List (Str × Str × H))
    (m path : Str) (n : node) (ps : List (Str × Str)) (i : Nat) (k : Str)
    (hmatch : (addRoutes rs).getRoute m path = some (some n, ps))
    (hseg : (parsePattern n.pattern)[i]? = some (':' :: k))
    (honce : ∀ (j : Nat) (q : Str), j ≠ i → (parsePattern n.pattern)[j]? = some q →
        q ≠ ':' :: k ∧ q ≠ '*' :: k) :
    i < (parsePattern path).length ∧ lookup ps k = (parsePattern path)[i]? := by
  obtain ⟨root, _, _, hb⟩ := getRoute_match _ m path n ps hmatch
  obtain ⟨v, hv, hk⟩ :=
    bindParams_colon_at (parsePattern path) k (parsePattern n.pattern) 0 i [] ps hb
      (starLast_parsePattern _) hseg (fun u q hu hq => honce u q (by omega) hq)
  rw [Nat.zero_add] at hv
  exact ⟨(List.getElem?_eq_some_iff.1 hv).1, by rw [hk, hv]⟩

/-- C1 on the router of `newTestRouter`: `getRoute("GET", "/hello/geektutu")`
returns the node of `/hello/:name` and binds `name` to `geektutu`. -/
theorem C1_named_parameter_binding_witness :
    newTestRouter.getRoute "GET".toList "/hello/geektutu".toList =
        some (some helloNameNode, [("name".toList, "geektutu".toList)]) ∧
    helloNameNode.pattern = "/hello/:name".toList ∧
    lookup [("name".toList, "geektutu".toList)] "name".toList = some "geektutu".toList ∧
    (1 < (parsePattern "/hello/geektutu".toList).length ∧
      lookup [("name".toList, "geektutu".toList)] "name".toList =
        (parsePattern "/hello/geektutu".toList)[1]?) :=
  ⟨rfl, rfl, by decide,
   C1_named_parameter_binding
     [("GET".toList, "/".toList, ()),
      ("GET".toList, "/hello/:name".toList, ()),
      ("GET".toList, "/hello/b/c".toList, ()),
      ("GET".toList, "/hi/:name".toList, ()),
      ("GET".toList, "/assets/*filepath".toList, ())]
     "GET".toList "/hello/geektutu".toList helloNameNode
     [("name".toList, "geektutu".toList)] 1 "name".toList rfl (by decide)
     (by
       have hp : parsePattern helloNameNode.pattern = ["hello".toList, ":name".toList] := by
         decide
       intro j q hj hq
       rw [hp] at hq
       match j, hj, hq with
       | 0, _, hq =>
         simp only [List.getElem?_cons_zero, Option.some.injEq] at hq
         subst hq
         decide
       | 1, hj, _ => exact absurd rfl hj
       | j + 2, _, hq => simp at hq)⟩

/-- C2 (amended). Catch-all binding: when `getRoute` returns a match and the
stored pattern of the matched node has the segment `*k` (`k` non-empty) at
position `i`, the returned map binds `k` to the `'/'`-join of the segments of
the parsed request path `parsePattern path` from position `i` on.  The parsed
request path is the list of all non-empty `'/'`-delimited pieces of the request
path exactly when no such piece other than the last begins with `'*'`, and then
the value is the join of all non-empty pieces of the request path from position
`i` to its end. -/
theorem C2_catch_all_binding {H : Type} (rs : List (Str × Str × H))
    (m path : Str) (n : node) (ps : List (Str × Str)) (i : Nat) (k : Str)
    (hmatch : (addRoutes rs).getRoute m path = some (some n, ps))
    (hseg : (parsePattern n.pattern)[i]? = some ('*' :: k)) (hk : k ≠ []) :
    lookup ps k = some (join ((parsePattern path).drop i)) ∧
    (parsePattern path = (split '/' path).filter (fun p => p ≠ []) ↔
      StarLast ((split '/' path).filter (fun p => p ≠ []))) ∧
    (StarLast ((split '/' path).filter (fun p => p ≠ [])) →
      lookup ps k =
        some (join (((split '/' path).filter (fun p => p ≠ [])).drop i))) := by
  obtain ⟨root, _, _, hb⟩ := getRoute_match _ m path n ps hmatch
  have h1 := bindParams_star_at (parsePattern path) k hk (parsePattern n.pattern)
    0 i [] ps hb (starLast_parsePattern _) hseg
  rw [Nat.zero_add] at h1
  have h2 : parsePattern path = (split '/' path).filter (fun p => p ≠ []) ↔
      StarLast ((split '/' path).filter (fun p => p ≠ [])) := by
    rw [parsePattern_eq_spec, parsePatternSpec]
    exact takeThroughStar_eq_iff _
  refine ⟨h1, h2, fun hsl => ?_⟩
  rw [h1, h2.2 hsl]

/-- C2 with `/assets/*filepath` registered (in `newTestRouter`): the request
`/assets/css/a.css` yields `filepath = css/a.css`, the join of all its segments
from position 1 on. -/
theorem C2_catch_all_binding_witness :
    newTestRouter.getRoute "GET".toList "/assets/css/a.css".toList =
        some (some assetsNode, [("filepath".toList, "css/a.css".toList)]) ∧
    lookup [("filepath".toList, "css/a.css".toList)] "filepath".toList =
        some (join ((parsePattern "/assets/css/a.css".toList).drop 1)) ∧
    lookup [("filepath".toList, "css/a.css".toList)] "filepath".toList =
        some (join (((split '/' "/assets/css/a.css".toList).filter
          (fun p => p ≠ [])).drop 1)) :=
  have h := C2_catch_all_binding
     [("GET".toList, "/".toList, ()),
      ("GET".toList, "/hello/:name".toList, ()),
      ("GET".toList, "/hello/b/c".toList, ()),
      ("GET".toList, "/hi/:name".toList, ()),
      ("GET".toList, "/assets/*filepath".toList, ())]
     "GET".toList "/assets/css/a.css".toList assetsNode
     [("filepath".toList, "css/a.css".toList)] 1 "filepath".toList rfl (by decide)
     (by decide)
  ⟨rfl, h.1, h.2.2 (h.2.1.1 (by decide))⟩

/-- C2 as stated fails: with only `/assets/*filepath` registered, the request
`/assets/*x/y` matches and binds `filepath` to `*x`, while the non-empty pieces
of the request path from position 1 on join to `*x/y`. -/
theorem C2_catch_all_binding_counterexample :
    (addRoutes [("GET".toList, "/assets/*filepath".toList, ())]).getRoute
        "GET".toList "/assets/*x/y".toList =
      some (some assetsNode, [("filepath".toList, "*x".toList)]) ∧
    (parsePattern assetsNode.pattern)[1]? = some "*filepath".toList ∧
    join (((split '/' "/assets/*x/y".toList).filter (fun p => p ≠ [])).drop 1) =
      "*x/y".toList ∧
    lookup [("filepath".toList, "*x".toList)] "filepath".toList ≠
      some (join (((split '/' "/assets/*x/y".toList).filter (fun p => p ≠ [])).drop 1)) :=
  ⟨rfl, by decide, by decide, by decide⟩

/-- C3 (amended). For every pattern `p` none of whose segments begins with
`':'` or `'*'`, registered under method `m` on a router built by `addRoute`,
where no route registered under `m` before `p` has a segment beginning with
`':'` or `'*'` at a position of `p` up to which it has the same segments as `p`
(the routes registered after `p` and the routes under other methods are
arbitrary) and where, when `p` has no segment at all (as `/` or the empty
pattern), the last pattern without segments registered under `m` is not the
empty pattern: `getRoute(m, p)` returns a match together with an empty
parameter map, and the matched node stores a non-empty pattern with the
segments of `p`. -/
theorem C3_literal_pattern_matches {H : Type} (before after : List (Str × Str × H))
    (m p : Str) (h : H)
    (hlit : ∀ q ∈ parsePattern p, Literal q)
    (hbefore : ∀ x ∈ before, x.1 = m →
      wildAfterShared (parsePattern p) (parsePattern x.2.1) = false)
    (hroot : parsePattern p = [] → rootPattern (before ++ (m, p, h) :: after) m ≠ []) :
    ∃ n : node,
      (addRoutes (before ++ (m, p, h) :: after)).getRoute m p = some (some n, []) ∧
      n.pattern ≠ [] ∧ parsePattern n.pattern = parsePattern p := by
  by_cases hseg : parsePattern p = []
  · have hrp := hroot hseg
    rw [← root_pattern_eq] at hrp
    cases hl : lookup (addRoutes (before ++ (m, p, h) :: after)).roots m with
    | none =>
      rw [hl] at hrp
      exact absurd rfl hrp
    | some root =>
      rw [hl, Option.getD_some] at hrp
      have hs : root.search (parsePattern p) = some root := by
        rw [hseg]
        simp [node.search, hrp]
      obtain ⟨ps, hg, hb⟩ := getRoute_of_search _ m p root root hl hs
      have hlen := (roots_depthOK _ m root hl).pattern_length hrp
      have hnil : parsePattern root.pattern = [] := List.length_eq_zero.1 hlen
      rw [hnil] at hb
      simp only [bindParams, Option.some.injEq] at hb
      subst hb
      exact ⟨root, hg, hrp, by rw [hnil, hseg]⟩
  · obtain ⟨root, hl, hr⟩ := root_staticReach before after m p h hlit hseg hbefore
    obtain ⟨n, hn, hnp, hnt⟩ := search_of_staticReach _ _ root
      (roots_indexOK _ m root hl) hlit
      (by rw [(roots_trieOK _ m root hl).2]; simp) hr
    obtain ⟨ps, hg, hb⟩ := getRoute_of_search _ m p root n hl hn
    rw [hnt, bindParams_literal _ _ 0 [] hlit] at hb
    have := Option.some.inj hb
    subst this
    exact ⟨n, hg, hnp, hnt⟩

/-- C3 on the routes of `newTestRouter` with `/hello/b/c` registered after `/`
and `/hi/:name` and before `/hello/:name` and `/assets/*filepath`: the request
`/hello/b/c` is matched to the stored pattern `/hello/b/c` with the empty map;
and for the pattern `/` registered after the empty pattern: the request `/` is
matched with the empty map. -/
theorem C3_literal_pattern_matches_witness :
    (∃ n : node,
      (addRoutes
        ([("GET".toList, "/".toList, ()), ("GET".toList, "/hi/:name".toList, ())] ++
          ("GET".toList, "/hello/b/c".toList, ()) ::
          [("GET".toList, "/hello/:name".toList, ()),
           ("GET".toList, "/assets/*filepath".toList, ())])).getRoute
        "GET".toList "/hello/b/c".toList = some (some n, []) ∧
      n.pattern ≠ [] ∧ parsePattern n.pattern = parsePattern "/hello/b/c".toList) ∧
    observe ((addRoutes
        [("GET".toList, "/".toList, ()),
         ("GET".toList, "/hi/:name".toList, ()),
         ("GET".toList, "/hello/b/c".toList, ()),
         ("GET".toList, "/hello/:name".toList, ()),
         ("GET".toList, "/assets/*filepath".toList, ())]).getRoute
        "GET".toList "/hello/b/c".toList) = some (some "/hello/b/c", []) ∧
    (∃ n : node,
      (addRoutes
        ([("GET".toList, [], ())] ++ ("GET".toList, "/".toList, ()) ::
          [("GET".toList, "/hello/:name".toList, ())])).getRoute
        "GET".toList "/".toList = some (some n, []) ∧
      n.pattern ≠ [] ∧ parsePattern n.pattern = parsePattern "/".toList) :=
  ⟨C3_literal_pattern_matches
    [("GET".toList, "/".toList, ()), ("GET".toList, "/hi/:name".toList, ())]
    [("GET".toList, "/hello/:name".toList, ()),
     ("GET".toList, "/assets/*filepath".toList, ())]
    "GET".toList "/hello/b/c".toList () (by decide) (by decide)
    (fun hnil => absurd hnil (by decide)), by decide,
   C3_literal_pattern_matches [("GET".toList, [], ())]
    [("GET".toList, "/hello/:name".toList, ())]
    "GET".toList "/".toList () (by decide) (by decide) (fun _ => by decide)⟩

/-- C3 as stated fails: the empty pattern has no segment beginning with `':'`
or `'*'`, and with only it registered `getRoute` for the empty path finds
nothing, because a node whose stored pattern is empty is never reported. -/
theorem C3_literal_pattern_matches_counterexample :
    (∀ q ∈ parsePattern [], Literal q) ∧
    (addRoutes [("GET".toList, [], ())]).getRoute "GET".toList [] = some (none, []) :=
  ⟨by decide, rfl⟩

/-- C4 fails on the code: after `/hello/*x`, `/hello/b/c` and `/hello/:name`
are registered under `GET` in this order, `getRoute` for `/hello/b/c` returns
the node whose stored pattern is `/hello/:name`, with `name = b`, not the node
of `/hello/b/c`: `insert` took the existing wild child `*x` for the segments `b`
and `:name`, so the node of `*x` stores `/hello/:name` and `search` stops at it.
With the literal route registered first the same request resolves to
`/hello/b/c` with the empty map. -/
theorem C4_literal_loses_to_wildcard :
    observe ((addRoutes
        [("GET".toList, "/hello/*x".toList, ()),
         ("GET".toList, "/hello/b/c".toList, ()),
         ("GET".toList, "/hello/:name".toList, ())]).getRoute
        "GET".toList "/hello/b/c".toList) =
      some (some "/hello/:name", [("name", "b")]) ∧
    nodeAt [0, 0]
        (buildTrie ["/hello/*x".toList, "/hello/b/c".toList, "/hello/:name".toList]) =
      some ⟨"/hello/:name".toList, "*x".toList,
        [⟨"/hello/b/c".toList, "c".toList, [], false, []⟩], true, [("c".toList, 0)]⟩ ∧
    observe ((addRoutes
        [("GET".toList, "/hello/b/c".toList, ()),
         ("GET".toList, "/hello/*x".toList, ()),
         ("GET".toList, "/hello/:name".toList, ())]).getRoute
        "GET".toList "/hello/b/c".toList) =
      some (some "/hello/b/c", []) :=
  ⟨by decide, rfl, by decide⟩

/-- C5. Not found: for a method under which no route has been registered (a
method without a trie) `getRoute` returns no node and the empty map; and on
every router, whenever `getRoute` returns no node the returned parameter map is
empty. -/
theorem C5_not_found {H : Type} (rs : List (Str × Str × H)) (r : router H)
    (m path : Str) :
    ((∀ x ∈ rs, x.1 ≠ m) → (addRoutes rs).getRoute m path = some (none, [])) ∧
    (lookup r.roots m = none → r.getRoute m path = some (none, [])) ∧
    (∀ ps, r.getRoute m path = some (none, ps) → ps = []) := by
  refine ⟨fun hm => ?_, fun hm => ?_, fun ps h => getRoute_nomatch r m path ps h⟩
  · simp [router.getRoute, roots_none_of_unregistered rs m hm]
  · simp [router.getRoute, hm]

/-- C5 on the router of `newTestRouter`: a `POST` request (no route under
`POST`) and the unregistered path `/nothing` under `GET` both give no node and
the empty map. -/
theorem C5_not_found_witness :
    newTestRouter.getRoute "POST".toList "/hello/geektutu".toList = some (none, []) ∧
    newTestRouter.getRoute "GET".toList "/nothing".toList = some (none, []) :=
  ⟨(C5_not_found
      [("GET".toList, "/".toList, ()),
       ("GET".toList, "/hello/:name".toList, ()),
       ("GET".toList, "/hello/b/c".toList, ()),
       ("GET".toList, "/hi/:name".toList, ()),
       ("GET".toList, "/assets/*filepath".toList, ())]
      newTestRouter "POST".toList "/hello/geektutu".toList).1 (by decide),
   rfl⟩

/-- C6. For every string `s`, `parsePattern s` is the list obtained by splitting
`s` on `'/'`, removing the empty pieces and keeping the pieces up to and
including the first whose first character is `'*'`; with the three examples of
`TestParsePattern`. -/
theorem C6_parsePattern_refines_spec :
    (∀ s : Str, parsePattern s = parsePatternSpec s) ∧
    parsePattern "/p/:name".toList = ["p".toList, ":name".toList] ∧
    parsePattern "/p/*".toList = ["p".toList, "*".toList] ∧
    parsePattern "/p/*name/*".toList = ["p".toList, "*name".toList] :=
  ⟨fun s => parsePattern_eq_spec s, by decide, by decide, by decide⟩

/-- C7. Every segment of `parsePattern s` is non-empty and contains no `'/'`,
and a segment that begins with `'*'` is the last one. -/
theorem C7_parsePattern_segments (s : Str) :
    (∀ p ∈ parsePattern s, p ≠ [] ∧ '/' ∉ p) ∧
    (∀ (i : Nat) (p : Str), (parsePattern s)[i]? = some p →
        p.head? = some '*' → i + 1 = (parsePattern s).length) :=
  ⟨fun p hp => mem_parsePattern s p hp,
   fun i p hp hs => parsePattern_star_last s i p hp hs⟩

/-- C7 on the pattern `/p/*name/*`, whose parse is `p`, `*name`. -/
theorem C7_parsePattern_segments_witness :
    (∀ p ∈ parsePattern "/p/*name/*".toList, p ≠ [] ∧ '/' ∉ p) ∧
    (∀ (i : Nat) (p : Str), (parsePattern "/p/*name/*".toList)[i]? = some p →
        p.head? = some '*' → i + 1 = (parsePattern "/p/*name/*".toList).length) :=
  C7_parsePattern_segments "/p/*name/*".toList

/-- C8 fails on the code: on the router of `newTestRouter` the request
`/hello/x/c` is matched to the stored pattern `/hello/b/c`, whose literal
segment `b` at position 1 differs from the request segment `x`. -/
theorem C8_literal_segment_violated :
    observe (newTestRouter.getRoute "GET".toList "/hello/x/c".toList) =
      some (some "/hello/b/c", []) ∧
    (parsePattern "/hello/b/c".toList)[1]? = some "b".toList ∧
    (parsePattern "/hello/x/c".toList)[1]? = some "x".toList ∧
    "b".toList ≠ "x".toList := by
  decide

/-- C9 fails on the code: after registering `/static/*filepath` and then
`/static/:id`, the request `/static/css/a.css` (three segments) is matched to
the stored pattern `/static/:id` (two segments, none beginning with `'*'`). -/
theorem C9_segment_count_violated :
    observe ((addRoutes
        [("GET".toList, "/static/*filepath".toList, ()),
         ("GET".toList, "/static/:id".toList, ())]).getRoute
        "GET".toList "/static/css/a.css".toList) =
      some (some "/static/:id", [("id", "css")]) ∧
    (parsePattern "/static/:id".toList).length = 2 ∧
    (∀ q ∈ parsePattern "/static/:id".toList, q.head? ≠ some '*') ∧
    (parsePattern "/static/css/a.css".toList).length = 3 := by
  decide

/-- C10. A catch-all needs at least one remaining segment: when `getRoute`
returns a match whose stored pattern has the segment `*name` at position `i`,
the parsed request path has more than `i` segments, and for a non-empty `name`
the value bound to it is a non-empty string.  With only `/assets/*filepath`
registered, the requests `/assets` and `/assets/` are not found. -/
theorem C10_catch_all_needs_a_segment :
    (∀ (H : Type) (rs : List (Str × Str × H)) (m path : Str) (n : node)
        (ps : List (Str × Str)) (i : Nat) (name : Str),
      (addRoutes rs).getRoute m path = some (some n, ps) →
      (parsePattern n.pattern)[i]? = some ('*' :: name) →
      i < (parsePattern path).length ∧
        (name ≠ [] → ∃ v, lookup ps name = some v ∧ v ≠ [])) ∧
    (addRoutes [("GET".toList, "/assets/*filepath".toList, ())]).getRoute
        "GET".toList "/assets".toList = some (none, []) ∧
    (addRoutes [("GET".toList, "/assets/*filepath".toList, ())]).getRoute
        "GET".toList "/assets/".toList = some (none, []) := by
  refine ⟨?_, rfl, rfl⟩
  intro H rs m path n ps i name hmatch hseg
  obtain ⟨root, hroot, hsearch, hb⟩ := getRoute_match _ m path n ps hmatch
  have hd := search_depth (parsePattern path) root n 0 (roots_depthOK rs m root hroot) hsearch
  have hi : i < (parsePattern n.pattern).length := (List.getElem?_eq_some_iff.1 hseg).1
  have hlt : i < (parsePattern path).length := by omega
  refine ⟨hlt, fun hname => ?_⟩
  have h1 := bindParams_star_at (parsePattern path) name hname (parsePattern n.pattern)
    0 i [] ps hb (starLast_parsePattern _) hseg
  rw [Nat.zero_add] at h1
  refine ⟨_, h1, join_ne_nil _ ?_ ?_⟩
  · intro h0
    have := congrArg List.length h0
    simp at this
    omega
  · intro x hx
    exact (mem_parsePattern path x (List.mem_of_mem_drop hx)).1

/-- C10 on the router of `newTestRouter`: `/assets/css/a.css` matches
`/assets/*filepath`, the catch-all is at position 1 of 3 request segments and
the bound value `css/a.css` is non-empty. -/
theorem C10_catch_all_needs_a_segment_witness :
    1 < (parsePattern "/assets/css/a.css".toList).length ∧
    ("filepath".toList ≠ [] →
      ∃ v, lookup [("filepath".toList, "css/a.css".toList)] "filepath".toList = some v ∧
        v ≠ []) :=
  C10_catch_all_needs_a_segment.1 Unit
    [("GET".toList, "/".toList, ()),
     ("GET".toList, "/hello/:name".toList, ()),
     ("GET".toList, "/hello/b/c".toList, ()),
     ("GET".toList, "/hi/:name".toList, ()),
     ("GET".toList, "/assets/*filepath".toList, ())]
    "GET".toList "/assets/css/a.css".toList assetsNode
    [("filepath".toList, "css/a.css".toList)] 1 "filepath".toList rfl (by decide)

/-- C11 fails on the code: after `/files/:id` and then `/files/*path` are
registered under `GET`, the request `/files/a/b`, whose segments agree with the
registered pattern `/files/*path` (equal text at `files`, two remaining
segments at the final `*path`), is not found: `insert` took the existing wild
child `:id` for the segment `*path`, so the catch-all pattern is stored on the
node of `:id`, which matches one segment.  Registered alone, the same route
matches the request with `path = a/b`. -/
theorem C11_catch_all_route_not_found :
    agrees (parsePattern "/files/*path".toList) (parsePattern "/files/a/b".toList) = true ∧
    (addRoutes
        [("GET".toList, "/files/:id".toList, ()),
         ("GET".toList, "/files/*path".toList, ())]).getRoute
        "GET".toList "/files/a/b".toList = some (none, []) ∧
    nodeAt [0, 0] (buildTrie ["/files/:id".toList, "/files/*path".toList]) =
      some ⟨"/files/*path".toList, ":id".toList, [], true, []⟩ ∧
    observe ((addRoutes
        [("GET".toList, "/files/*path".toList, ())]).getRoute
        "GET".toList "/files/a/b".toList) = some (some "/files/*path", [("path", "a/b")]) :=
  ⟨by decide, rfl, rfl, by decide⟩

/-- C12. Duplicate registration overwrites and is otherwise idempotent:
`addRoute(m, p, h2)` after `addRoute(m, p, h1)` gives exactly the router that
`addRoute(m, p, h2)` alone gives (same tries, same registry), and the registry
entry for `m + "-" + p` holds `h2`. -/
theorem C12_duplicate_registration {H : Type} (r : router H) (m p : Str) (h1 h2 : H) :
    (r.addRoute m p h1).addRoute m p h2 = r.addRoute m p h2 ∧
    ((r.addRoute m p h1).addRoute m p h2).roots = (r.addRoute m p h1).roots ∧
    lookup ((r.addRoute m p h1).addRoute m p h2).handlers (m ++ ['-'] ++ p) = some h2 := by
  have hroots : ((r.addRoute m p h1).addRoute m p h2).roots = (r.addRoute m p h1).roots := by
    simp only [roots_addRoute, lookup_assign_self, Option.getD_some, insert_idem,
      assign_assign]
  refine ⟨?_, hroots, ?_⟩
  · have hh : ((r.addRoute m p h1).addRoute m p h2).handlers = (r.addRoute m p h2).handlers := by
      simp only [router.addRoute, assign_assign]
    have hr : ((r.addRoute m p h1).addRoute m p h2).roots = (r.addRoute m p h2).roots := by
      rw [hroots]
      rfl
    cases hx : (r.addRoute m p h1).addRoute m p h2 with
    | mk roots1 handlers1 =>
      cases hy : r.addRoute m p h2 with
      | mk roots2 handlers2 =>
        rw [hx, hy] at hh hr
        simp only at hh hr
        rw [hh, hr]
  · simp only [router.addRoute, lookup_assign_self]

/-- C13. The method `handle` appends exactly one handler to the end of the
handler list of the context and leaves the handlers already in the list
unchanged and in order, and then calls `Next` exactly once, on the context so
changed: on a hit `Params` is the map returned by `getRoute` and the appended
handler is the one registered under `Method + "-" +` the matched pattern; on a
miss the appended handler is the fixed not-found handler and `Params` is
unchanged; `handle` does not fail. -/
theorem C13_handle_appends_one {H : Type} (rs : List (Str × Str × H)) (c : Context H) :
    ∃ (c1 : Context H) (x : HandlerRef H),
      (∀ (σ : Type) (Next : Context H → σ),
        (addRoutes rs).handle Next c = some (Next c1)) ∧
      c1.Method = c.Method ∧ c1.Path = c.Path ∧
      c1.handlers = c.handlers ++ [x] ∧
      (∀ (n : node) (ps : List (Str × Str)),
        (addRoutes rs).getRoute c.Method c.Path = some (some n, ps) →
        c1.Params = ps ∧
          ∃ h, lookup (addRoutes rs).handlers (c.Method ++ ['-'] ++ n.pattern) = some h ∧
            x = HandlerRef.route (some h)) ∧
      (∀ ps : List (Str × Str),
        (addRoutes rs).getRoute c.Method c.Path = some (none, ps) →
        c1.Params = c.Params ∧ x = HandlerRef.notFound) := by
  obtain ⟨res, hres⟩ := getRoute_total rs c.Method c.Path
  obtain ⟨node?, ps⟩ := res
  cases node? with
  | none =>
    refine ⟨{ c with handlers := c.handlers ++ [HandlerRef.notFound] }, HandlerRef.notFound,
      ?_, rfl, rfl, rfl, ?_, ?_⟩
    · intro σ Next
      simp only [router.handle, hres]
    · intro n ps1 h
      rw [hres] at h
      simp at h
    · intro ps1 _
      exact ⟨rfl, rfl⟩
  | some n =>
    obtain ⟨x, hx, hxm, hxp⟩ := matched_registered rs c.Method c.Path n ps hres
    obtain ⟨h, hh⟩ := handlers_registered rs x hx
    rw [hxm, hxp] at hh
    refine ⟨{ c with
        Params := ps
        handlers := c.handlers ++ [HandlerRef.route (some h)] },
      HandlerRef.route (some h), ?_, rfl, rfl, rfl, ?_, ?_⟩
    · intro σ Next
      simp only [router.handle, hres, hh]
    · intro n1 ps1 h1
      rw [hres] at h1
      simp only [Option.some.injEq, Prod.mk.injEq] at h1
      obtain ⟨h2, h3⟩ := h1
      subst h2 h3
      exact ⟨rfl, h, hh, rfl⟩
    · intro ps1 h1
      rw [hres] at h1
      simp at h1

/-- C13 on the router of `newTestRouter`: for a `GET` of `/hello/geektutu` on a
context without handlers, `Next` is called once, on the context with
`name = geektutu` and the single handler registered for `/hello/:name`; for
`/nothing`, on the context with unchanged parameters and the not-found
handler. -/
theorem C13_handle_appends_one_witness :
    (∃ (c1 : Context Unit) (x : HandlerRef Unit),
      (∀ (σ : Type) (Next : Context Unit → σ),
        newTestRouter.handle Next ⟨"GET".toList, "/hello/geektutu".toList, [], []⟩ =
          some (Next c1)) ∧
      c1.Method = "GET".toList ∧ c1.Path = "/hello/geektutu".toList ∧
      c1.handlers = [] ++ [x] ∧
      (∀ (n : node) (ps : List (Str × Str)),
        newTestRouter.getRoute "GET".toList "/hello/geektutu".toList = some (some n, ps) →
        c1.Params = ps ∧
          ∃ h, lookup newTestRouter.handlers ("GET".toList ++ ['-'] ++ n.pattern) = some h ∧
            x = HandlerRef.route (some h)) ∧
      (∀ ps : List (Str × Str),
        newTestRouter.getRoute "GET".toList "/hello/geektutu".toList = some (none, ps) →
        c1.Params = [] ∧ x = HandlerRef.notFound)) ∧
    newTestRouter.handle (fun c => c) ⟨"GET".toList, "/hello/geektutu".toList, [], []⟩ =
      some ⟨"GET".toList, "/hello/geektutu".toList,
        [("name".toList, "geektutu".toList)], [HandlerRef.route (some ())]⟩ ∧
    newTestRouter.handle (fun c => c) ⟨"GET".toList, "/nothing".toList, [], []⟩ =
      some ⟨"GET".toList, "/nothing".toList, [], [HandlerRef.notFound]⟩ :=
  ⟨C13_handle_appends_one
     [("GET".toList, "/".toList, ()),
      ("GET".toList, "/hello/:name".toList, ()),
      ("GET".toList, "/hello/b/c".toList, ()),
      ("GET".toList, "/hi/:name".toList, ()),
      ("GET".toList, "/assets/*filepath".toList, ())]
     ⟨"GET".toList, "/hello/geektutu".toList, [], []⟩,
   rfl, rfl⟩

/-- C14. An intermediate node is never reported as a match: on every trie, a
node returned by `search` stores a non-empty pattern, and so does the node of
every match returned by `getRoute`.  With only `/hello/b/c` registered, the
requests `/hello` and `/hello/b` are not found. -/
theorem C14_no_intermediate_match :
    (∀ (n M : node) (parts : List Str), n.search parts = some M → M.pattern ≠ []) ∧
    (∀ (H : Type) (r : router H) (m path : Str) (n : node) (ps : List (Str × Str)),
      r.getRoute m path = some (some n, ps) → n.pattern ≠ []) ∧
    (addRoutes [("GET".toList, "/hello/b/c".toList, ())]).getRoute
        "GET".toList "/hello".toList = some (none, []) ∧
    (addRoutes [("GET".toList, "/hello/b/c".toList, ())]).getRoute
        "GET".toList "/hello/b".toList = some (none, []) := by
  refine ⟨fun n M parts h => search_pattern_ne_nil parts n M h, ?_, rfl, rfl⟩
  intro H r m path n ps h
  obtain ⟨root, _, hs, _⟩ := getRoute_match r m path n ps h
  exact search_pattern_ne_nil _ root n hs

/-- C14 on the router of `newTestRouter`: the node matched for
`/hello/geektutu` stores the pattern `/hello/:name`. -/
theorem C14_no_intermediate_match_witness : helloNameNode.pattern ≠ [] :=
  C14_no_intermediate_match.2.1 Unit newTestRouter "GET".toList "/hello/geektutu".toList
    helloNameNode [("name".toList, "geektutu".toList)] rfl

/-- C15. Duplicate parameter names: when `getRoute` returns a match and `k` is
bound by a segment of the stored pattern (`:k`, or `*k` with `k` non-empty), the
returned map has exactly one entry for `k`, and its value is the one bound by
the last such segment: the request segment at its position for `:k`, the join
of the request segments from its position on for `*k`. -/
theorem C15_duplicate_names_last_wins {H : Type} (rs : List (Str × Str × H))
    (m path : Str) (n : node) (ps : List (Str × Str)) (i : Nat) (k q : Str)
    (hmatch : (addRoutes rs).getRoute m path = some (some n, ps))
    (hseg : (parsePattern n.pattern)[i]? = some q)
    (hbinds : Binds k q)
    (hlast : ∀ (u : Nat) (q1 : Str), i < u → (parsePattern n.pattern)[u]? = some q1 →
        ¬ Binds k q1) :
    ∃ v, ps.filter (fun e => decide (e.1 = k)) = [(k, v)] ∧
      (q = ':' :: k → (parsePattern path)[i]? = some v) ∧
      (q = '*' :: k → v = join ((parsePattern path).drop i)) := by
  obtain ⟨root, _, _, hb⟩ := getRoute_match _ m path n ps hmatch
  have hnd := bindParams_nodup _ _ 0 [] ps hb (by simp)
  rcases hbinds with hq | ⟨hq, hk⟩
  · subst hq
    obtain ⟨v, hv, hl⟩ := bindParams_colon_last (parsePattern path) k
      (parsePattern n.pattern) 0 i [] ps hb (starLast_parsePattern _) hseg hlast
    rw [Nat.zero_add] at hv
    refine ⟨v, filter_of_lookup ps k v hnd hl, fun _ => hv, fun h => ?_⟩
    simp at h
  · subst hq
    have hl := bindParams_star_at (parsePattern path) k hk (parsePattern n.pattern)
      0 i [] ps hb (starLast_parsePattern _) hseg
    rw [Nat.zero_add] at hl
    refine ⟨_, filter_of_lookup ps k _ hnd hl, fun h => ?_, fun _ => rfl⟩
    simp at h

/-- C15 with only `/:a/:a` registered: the request `/1/2` yields the map with
the single entry `a = 2`, the segment at position 1. -/
theorem C15_duplicate_names_last_wins_witness :
    (addRoutes [("GET".toList, "/:a/:a".toList, ())]).getRoute "GET".toList "/1/2".toList =
      some (some dupNameNode, [("a".toList, "2".toList)]) ∧
    parsePattern dupNameNode.pattern = [":a".toList, ":a".toList] ∧
    ∃ v, [("a".toList, "2".toList)].filter (fun e => decide (e.1 = "a".toList)) =
        [("a".toList, v)] ∧
      (":a".toList = ':' :: "a".toList → (parsePattern "/1/2".toList)[1]? = some v) ∧
      (":a".toList = '*' :: "a".toList → v = join ((parsePattern "/1/2".toList).drop 1)) :=
  ⟨rfl, by decide,
   C15_duplicate_names_last_wins [("GET".toList, "/:a/:a".toList, ())]
     "GET".toList "/1/2".toList dupNameNode [("a".toList, "2".toList)] 1
     "a".toList ":a".toList rfl (by decide) (by decide)
     (by
       have hp : parsePattern dupNameNode.pattern = [":a".toList, ":a".toList] := by decide
       intro u q1 hu hq1
       rw [hp] at hq1
       match u, hu, hq1 with
       | u + 2, _, hq1 => simp at hq1)⟩

/-- C16. `getRoute` is a pure query.  In the embedding of the router in memory,
for every memory (every router), method and path, a call of `getRoute` leaves
every node object, `r.roots` and `r.handlers` as they were, and every string
map that existed before the call too (its only writes go to the parameter map
that it makes); and a second call with the same method and path, made in the
memory that the first call left, returns the same node pointer with the same
node object behind it and a parameter map of the same content (or panics as the
first call did).  On the memory built by the `addRoute` calls of
`newTestRouter`, `getRoute("GET", "/hello/geektutu")` returns the node of
`/hello/:name` and the map `name = geektutu`; a call of `addRoute`, in
contrast, changes the node objects. -/
theorem C16_getRoute_pure {H : Type} (μ : memory H) (method path : Str) :
    (Mem.getRoute method path μ).2.nodes = μ.nodes ∧
    (Mem.getRoute method path μ).2.roots = μ.roots ∧
    (Mem.getRoute method path μ).2.handlers = μ.handlers ∧
    (∀ a, a < μ.maps.length → (Mem.getRoute method path μ).2.maps[a]? = μ.maps[a]?) ∧
    Mem.outcome (Mem.getRoute method path (Mem.getRoute method path μ).2) =
      Mem.outcome (Mem.getRoute method path μ) ∧
    Mem.outcome (Mem.getRoute "GET".toList "/hello/geektutu".toList
        (Mem.addRoutes
          [("GET".toList, "/".toList, ()),
           ("GET".toList, "/hello/:name".toList, ()),
           ("GET".toList, "/hello/b/c".toList, ()),
           ("GET".toList, "/hi/:name".toList, ()),
           ("GET".toList, "/assets/*filepath".toList, ())])) =
      some (some (2, ⟨"/hello/:name".toList, ":name".toList, [3], true, [("c".toList, 3)]⟩),
        some [("name".toList, "geektutu".toList)]) ∧
    (Mem.addRoute "GET".toList "/hello".toList () Mem.newRouter).2.nodes ≠
      (Mem.newRouter : memory Unit).nodes := by
  obtain ⟨⟨mp, hmem⟩, hout⟩ := getRoute_reads μ method path
  have hout2 := (getRoute_reads (Mem.getRoute method path μ).2 method path).2
  refine ⟨by rw [hmem], by rw [hmem], by rw [hmem], ?_, ?_, by decide, by decide⟩
  · intro a ha
    rw [hmem]
    exact List.getElem?_append_left ha
  · rw [hout2, hout, hmem]
    rfl

/-- C18. Candidate order: for every node `n` of a trie built by `insert` and
every segment text `s`, `matchChildren(s)` is the static child of `n` whose part
is `s` (there is at most one) followed by every wild child of `n` in child
order, and nothing else; and when `search` descends from `n`, a match found
below the static child for `s` is the result, whatever the wild siblings hold. -/
theorem C18_candidate_order (patterns : List Str) (n : node) (s : Str)
    (hn : InTrie (buildTrie patterns) n) :
    n.matchChildren s =
      n.children.filter (fun c => !c.isWild && decide (c.part = s)) ++
        n.children.filter (fun c => c.isWild) ∧
    (n.children.filter (fun c => !c.isWild && decide (c.part = s))).length ≤ 1 ∧
    (∀ (c M : node) (rest : List Str), n.part.head? ≠ some '*' → c ∈ n.children →
      c.isWild = false → c.part = s → c.search rest = some M →
      n.search (s :: rest) = some M) := by
  have hi : IndexOK n := indexOK_inTrie hn (buildTrie_indexOK patterns)
  have h1 := matchChildren_eq_spec hi s
  have h2 := static_candidates_le_one hi s
  refine ⟨h1, h2, ?_⟩
  intro c M rest hstar hc hw hp hs
  have hmem : c ∈ n.children.filter (fun c => !c.isWild && decide (c.part = s)) := by
    rw [List.mem_filter]
    exact ⟨hc, by simp [hw, hp]⟩
  have hsingle : n.children.filter (fun c => !c.isWild && decide (c.part = s)) = [c] := by
    cases hf : n.children.filter (fun c => !c.isWild && decide (c.part = s)) with
    | nil => rw [hf] at hmem; simp at hmem
    | cons a l =>
      rw [hf] at hmem h2
      cases l with
      | nil =>
        simp only [List.mem_singleton] at hmem
        rw [hmem]
      | cons b l => simp at h2
  simp only [node.search, hstar, if_false, h1, candidatesSpec, hsingle, List.singleton_append,
    List.findSome?_cons, hs]

/-- C18 at the node `a` of the trie built from `/a/b/c` and `/a/:x/c`, for the
segment `b`: the candidates are the static child `b` and then the wild child
`:x`; the rest `c` is matched below both of them, and `search` returns the node
of `/a/b/c` found below the static child. -/
theorem C18_candidate_order_witness :
    InTrie (buildTrie ["/a/b/c".toList, "/a/:x/c".toList]) forkNode ∧
    forkNode.matchChildren "b".toList = [staticBranch, wildBranch] ∧
    wildBranch.search ["c".toList] = some ⟨"/a/:x/c".toList, "c".toList, [], false, []⟩ ∧
    forkNode.search ["b".toList, "c".toList] =
      some ⟨"/a/b/c".toList, "c".toList, [], false, []⟩ :=
  have hin : InTrie (buildTrie ["/a/b/c".toList, "/a/:x/c".toList]) forkNode :=
    InTrie.step _ forkNode _
      ((show (buildTrie ["/a/b/c".toList, "/a/:x/c".toList]).children = [forkNode]
        from rfl) ▸ List.mem_singleton_self _) (InTrie.here _)
  have h := C18_candidate_order ["/a/b/c".toList, "/a/:x/c".toList] forkNode
    "b".toList hin
  ⟨hin, h.1.trans rfl, rfl,
    h.2.2 staticBranch ⟨"/a/b/c".toList, "c".toList, [], false, []⟩ ["c".toList] (by decide)
      (List.mem_cons_self _ _) rfl rfl rfl⟩

/-- C19. `search` backtracks and is complete: for every node `n` of a trie built
by `insert` and every list of request segments, `search` returns a node exactly
when there is a chain of children from `n`, each a wild child or a static child
whose part is the request segment of its depth, that ends at a node storing a
pattern which lies at the end of the segments or has a part beginning with
`'*'`; in such a trie every node whose part begins with `'*'` stores a pattern.
After registering `/a/b/c` and then `/a/:x/d`, the request `/a/b/d`
matches `/a/:x/d` with `x = b`. -/
theorem C19_search_complete :
    (∀ (patterns : List Str) (n : node) (parts : List Str),
      InTrie (buildTrie patterns) n →
      ((∃ M, n.search parts = some M) ↔ Chain parts n)) ∧
    (∀ (patterns : List Str) (n : node), InTrie (buildTrie patterns) n →
      n.part.head? = some '*' → n.pattern ≠ []) ∧
    observe ((addRoutes
        [("GET".toList, "/a/b/c".toList, ()),
         ("GET".toList, "/a/:x/d".toList, ())]).getRoute "GET".toList "/a/b/d".toList) =
      some (some "/a/:x/d", [("x", "b")]) := by
  refine ⟨?_, ?_, by decide⟩
  · intro patterns n parts hn
    have hi : IndexOK n := indexOK_inTrie hn (buildTrie_indexOK patterns)
    have ht := trieOK_inTrie hn (buildTrie_trieOK patterns)
      (by rw [buildTrie_part]; simp)
    constructor
    · rintro ⟨M, hM⟩
      exact chain_of_search parts n M hi hM
    · exact search_of_chain parts n hi ht.1 ht.2
  · intro patterns n hn
    exact (trieOK_inTrie hn (buildTrie_trieOK patterns)
      (by rw [buildTrie_part]; simp)).2

/-- C19 at the root of the trie built from `/a/b/c` and `/a/:x/d`, for the
segments `a`, `b`, `d`. -/
theorem C19_search_complete_witness :
    (∃ M, (buildTrie ["/a/b/c".toList, "/a/:x/d".toList]).search
        ["a".toList, "b".toList, "d".toList] = some M) ↔
      Chain ["a".toList, "b".toList, "d".toList]
        (buildTrie ["/a/b/c".toList, "/a/:x/d".toList]) :=
  C19_search_complete.1 ["/a/b/c".toList, "/a/:x/d".toList] _
    ["a".toList, "b".toList, "d".toList] (InTrie.here _)

/-- C20. Static-index invariant: in every trie built from the empty root by the
`insert` calls of `addRoute`, for every node, `childrenMap` maps a text `k` to
the child at position `j` if and only if that child is non-wild and its part is
`k`; no two non-wild children of the node have the same part; and the `isWild`
flag of a child is true exactly when its part begins with `':'` or `'*'`. -/
theorem C20_static_index (patterns : List Str) (n : node)
    (hn : InTrie (buildTrie patterns) n) :
    (∀ (k : Str) (j : Nat), lookup n.childrenMap k = some j ↔
      ∃ c, n.children[j]? = some c ∧ c.isWild = false ∧ c.part = k) ∧
    (∀ (i j : Nat) (ci cj : node), n.children[i]? = some ci → n.children[j]? = some cj →
      ci.isWild = false → cj.isWild = false → ci.part = cj.part → i = j) ∧
    (∀ c ∈ n.children,
      c.isWild = true ↔ (c.part.head? = some ':' ∨ c.part.head? = some '*')) := by
  have hi : IndexOK n := indexOK_inTrie hn (buildTrie_indexOK patterns)
  exact ⟨hi.map_iff, fun i j ci cj h1 h2 h3 h4 h5 => static_unique hi i j ci cj h1 h2 h3 h4 h5,
    hi.wild_iff⟩

/-- C20 at the root of the trie built from the patterns of `newTestRouter`. -/
theorem C20_static_index_witness :
    (∀ (k : Str) (j : Nat),
      lookup (buildTrie ["/".toList, "/hello/:name".toList, "/hello/b/c".toList,
          "/hi/:name".toList, "/assets/*filepath".toList]).childrenMap k = some j ↔
      ∃ c, (buildTrie ["/".toList, "/hello/:name".toList, "/hello/b/c".toList,
          "/hi/:name".toList, "/assets/*filepath".toList]).children[j]? = some c ∧
        c.isWild = false ∧ c.part = k) ∧
    (∀ (i j : Nat) (ci cj : node),
      (buildTrie ["/".toList, "/hello/:name".toList, "/hello/b/c".toList,
          "/hi/:name".toList, "/assets/*filepath".toList]).children[i]? = some ci →
      (buildTrie ["/".toList, "/hello/:name".toList, "/hello/b/c".toList,
          "/hi/:name".toList, "/assets/*filepath".toList]).children[j]? = some cj →
      ci.isWild = false → cj.isWild = false → ci.part = cj.part → i = j) ∧
    (∀ c ∈ (buildTrie ["/".toList, "/hello/:name".toList, "/hello/b/c".toList,
          "/hi/:name".toList, "/assets/*filepath".toList]).children,
      c.isWild = true ↔ (c.part.head? = some ':' ∨ c.part.head? = some '*')) :=
  C20_static_index ["/".toList, "/hello/:name".toList, "/hello/b/c".toList,
    "/hi/:name".toList, "/assets/*filepath".toList] _ (InTrie.here _)

/-- C21. `getRoute` is index-safe: on every router built by `addRoute`, a node
returned by `search` lies at a depth `d` of the trie that is at most the number
of segments of the parsed request path, its stored pattern parses into exactly
`d` segments (whatever depth it is found at), so every index of the parameter
loop is in range for `searchParts[index]` and `searchParts[index:]`; and
`getRoute` returns, it does not panic. -/
theorem C21_getRoute_index_safe {H : Type} (rs : List (Str × Str × H)) (m path : Str) :
    (∀ (root M : node), lookup (addRoutes rs).roots m = some root →
      root.search (parsePattern path) = some M →
      (∃ d, AtDepth root d M ∧ (parsePattern M.pattern).length = d ∧
        d ≤ (parsePattern path).length) ∧
      (∀ d1, AtDepth root d1 M → (parsePattern M.pattern).length = d1) ∧
      (∀ index, index < (parsePattern M.pattern).length →
        (∃ v, (parsePattern path)[index]? = some v) ∧
          index ≤ (parsePattern path).length)) ∧
    (∃ res, (addRoutes rs).getRoute m path = some res) := by
  refine ⟨?_, getRoute_total rs m path⟩
  intro root M hroot hs
  have hpat := search_pattern_ne_nil _ root M hs
  have hd0 := roots_depthOK rs m root hroot
  obtain ⟨e, he, hle⟩ := search_atDepth _ root M hs
  have hlen : ∀ d1, AtDepth root d1 M → (parsePattern M.pattern).length = d1 := by
    intro d1 h1
    have := (depthOK_atDepth h1 0 hd0).pattern_length hpat
    simpa using this
  have hee := hlen e he
  refine ⟨⟨e, he, hee, hle⟩, hlen, ?_⟩
  intro index hi
  have hlt : index < (parsePattern path).length := by omega
  exact ⟨⟨_, List.getElem?_eq_getElem hlt⟩, by omega⟩

/-- C21 on the router of `newTestRouter`: `getRoute` returns for the request
`/assets/css/a.css`. -/
theorem C21_getRoute_index_safe_witness :
    ∃ res, newTestRouter.getRoute "GET".toList "/assets/css/a.css".toList = some res :=
  (C21_getRoute_index_safe
    [("GET".toList, "/".toList, ()),
     ("GET".toList, "/hello/:name".toList, ()),
     ("GET".toList, "/hello/b/c".toList, ()),
     ("GET".toList, "/hi/:name".toList, ()),
     ("GET".toList, "/assets/*filepath".toList, ())]
    "GET".toList "/assets/css/a.css".toList).2

/-- C22. A route just registered is reachable through its own text: on every
router built by `addRoute`, for every method `m` and non-empty pattern `p`,
right after `addRoute(m, p, h)` the call `getRoute(m, p)` returns a match. -/
theorem C22_just_registered_matches {H : Type} (rs : List (Str × Str × H))
    (m p : Str) (h : H) (hp : p ≠ []) :
    ∃ (n : node) (ps : List (Str × Str)),
      ((addRoutes rs).addRoute m p h).getRoute m p = some (some n, ps) := by
  obtain ⟨root, hl, hr⟩ := just_registered_reaches rs m p h hp
  obtain ⟨n, hn⟩ := search_of_reaches _ root hr
  obtain ⟨ps, hg, _⟩ := getRoute_of_search (rs ++ [(m, p, h)]) m p root n hl hn
  rw [addRoutes_append] at hg
  exact ⟨n, ps, hg⟩

/-- C22 for `/assets/*filepath`, registered after the other four routes of
`newTestRouter`: the request with the text of the pattern is matched. -/
theorem C22_just_registered_matches_witness :
    ∃ (n : node) (ps : List (Str × Str)),
      ((addRoutes
        [("GET".toList, "/".toList, ()),
         ("GET".toList, "/hello/:name".toList, ()),
         ("GET".toList, "/hello/b/c".toList, ()),
         ("GET".toList, "/hi/:name".toList, ())]).addRoute
        "GET".toList "/assets/*filepath".toList ()).getRoute
        "GET".toList "/assets/*filepath".toList = some (some n, ps) :=
  C22_just_registered_matches
    [("GET".toList, "/".toList, ()),
     ("GET".toList, "/hello/:name".toList, ()),
     ("GET".toList, "/hello/b/c".toList, ()),
     ("GET".toList, "/hi/:name".toList, ())]
    "GET".toList "/assets/*filepath".toList () (by decide)

/-- C23. Registry invariant: on every router built by `addRoute`, for every
method `m` and every node of the trie of `m` that stores a non-empty pattern
`p`, the handler registry has an entry for the key `m + "-" + p`, stored by an
`addRoute` call with that key; so the lookup that `handle` makes on a hit finds
such an entry. -/
theorem C23_registry_invariant {H : Type} (rs : List (Str × Str × H)) (m : Str) :
    (∀ (root n : node), lookup (addRoutes rs).roots m = some root → InTrie root n →
      n.pattern ≠ [] →
      ∃ h, lookup (addRoutes rs).handlers (m ++ ['-'] ++ n.pattern) = some h ∧
        ∃ x ∈ rs, x.1 ++ ['-'] ++ x.2.1 = m ++ ['-'] ++ n.pattern ∧ x.2.2 = h) ∧
    (∀ (path : Str) (n : node) (ps : List (Str × Str)),
      (addRoutes rs).getRoute m path = some (some n, ps) →
      ∃ h, lookup (addRoutes rs).handlers (m ++ ['-'] ++ n.pattern) = some h ∧
        ∃ x ∈ rs, x.1 ++ ['-'] ++ x.2.1 = m ++ ['-'] ++ n.pattern ∧ x.2.2 = h) := by
  have hnode : ∀ (root n : node), lookup (addRoutes rs).roots m = some root →
      InTrie root n → n.pattern ≠ [] →
      ∃ h, lookup (addRoutes rs).handlers (m ++ ['-'] ++ n.pattern) = some h ∧
        ∃ x ∈ rs, x.1 ++ ['-'] ++ x.2.1 = m ++ ['-'] ++ n.pattern ∧ x.2.2 = h := by
    intro root n hroot hn hp
    obtain ⟨h, hh⟩ := stored_pattern_registered rs m root n hroot hn hp
    exact ⟨h, hh, handlers_from_call rs _ h hh⟩
  refine ⟨hnode, ?_⟩
  intro path n ps hg
  obtain ⟨root, hroot, hs, _⟩ := getRoute_match _ m path n ps hg
  obtain ⟨e, he, _⟩ := search_atDepth _ root n hs
  exact hnode root n hroot (inTrie_of_atDepth he) (search_pattern_ne_nil _ root n hs)

/-- C23 on the router of `newTestRouter`: the hit for `/hello/geektutu` finds
the registry entry for the method `GET` and the pattern `/hello/:name`. -/
theorem C23_registry_invariant_witness :
    ∃ h, lookup newTestRouter.handlers ("GET".toList ++ ['-'] ++ helloNameNode.pattern) =
        some h ∧
      ∃ x ∈ [("GET".toList, "/".toList, ()),
          ("GET".toList, "/hello/:name".toList, ()),
          ("GET".toList, "/hello/b/c".toList, ()),
          ("GET".toList, "/hi/:name".toList, ()),
          ("GET".toList, "/assets/*filepath".toList, ())],
        x.1 ++ ['-'] ++ x.2.1 = "GET".toList ++ ['-'] ++ helloNameNode.pattern ∧ x.2.2 = h :=
  (C23_registry_invariant
    [("GET".toList, "/".toList, ()),
     ("GET".toList, "/hello/:name".toList, ()),
     ("GET".toList, "/hello/b/c".toList, ()),
     ("GET".toList, "/hi/:name".toList, ()),
     ("GET".toList, "/assets/*filepath".toList, ())]
    "GET".toList).2 "/hello/geektutu".toList helloNameNode
    [("name".toList, "geektutu".toList)] rfl

/-- C24. Registration is monotone for matching: on every router built by
`addRoute`, if `getRoute(m1, path)` returns a match, then after
`addRoute(m, p, h)` with a non-empty pattern `p` it still returns a match. -/
theorem C24_registration_monotone {H : Type} (rs : List (Str × Str × H))
    (m p : Str) (h : H) (m1 path : Str) (n : node) (ps : List (Str × Str))
    (hp : p ≠ [])
    (hbefore : (addRoutes rs).getRoute m1 path = some (some n, ps)) :
    ∃ (n1 : node) (ps1 : List (Str × Str)),
      ((addRoutes rs).addRoute m p h).getRoute m1 path = some (some n1, ps1) := by
  obtain ⟨root, hroot, hs, _⟩ := getRoute_match _ m1 path n ps hbefore
  have hadd : (addRoutes rs).addRoute m p h = addRoutes (rs ++ [(m, p, h)]) :=
    (addRoutes_append rs (m, p, h)).symm
  rw [hadd]
  by_cases hm : m = m1
  · subst hm
    obtain ⟨M1, hM1⟩ := search_insert p hp _ root n (parsePattern p) hs
    have hroot1 : lookup (addRoutes (rs ++ [(m, p, h)])).roots m =
        some (root.insert p (parsePattern p)) := by
      rw [addRoutes_append, roots_addRoute, lookup_assign_self, hroot]
      rfl
    obtain ⟨ps1, hg, _⟩ := getRoute_of_search (rs ++ [(m, p, h)]) m path _ M1 hroot1 hM1
    exact ⟨M1, ps1, hg⟩
  · have hroot1 : lookup (addRoutes (rs ++ [(m, p, h)])).roots m1 = some root := by
      rw [addRoutes_append, roots_addRoute, lookup_assign_ne _ _ _ _ hm]
      exact hroot
    obtain ⟨ps1, hg, _⟩ := getRoute_of_search (rs ++ [(m, p, h)]) m1 path root n hroot1 hs
    exact ⟨n, ps1, hg⟩

/-- C24 on the router of `newTestRouter`: `/hello/geektutu` is matched, and is
still matched after `/hello/:x/y` is registered. -/
theorem C24_registration_monotone_witness :
    newTestRouter.getRoute "GET".toList "/hello/geektutu".toList =
      some (some helloNameNode, [("name".toList, "geektutu".toList)]) ∧
    ∃ (n1 : node) (ps1 : List (Str × Str)),
      (newTestRouter.addRoute "GET".toList "/hello/:x/y".toList ()).getRoute
        "GET".toList "/hello/geektutu".toList = some (some n1, ps1) :=
  ⟨rfl,
   C24_registration_monotone
     [("GET".toList, "/".toList, ()),
      ("GET".toList, "/hello/:name".toList, ()),
      ("GET".toList, "/hello/b/c".toList, ()),
      ("GET".toList, "/hi/:name".toList, ()),
      ("GET".toList, "/assets/*filepath".toList, ())]
     "GET".toList "/hello/:x/y".toList () "GET".toList "/hello/geektutu".toList
     helloNameNode [("name".toList, "geektutu".toList)] (by decide) rfl⟩

/-- C25. In every trie built from the empty root by the `insert` calls of
`addRoute`, every node has at most one wild child; and once a node has a wild
child, an `insert` adds no child to it: at the node itself, and at every
position of a trie the `insert` is made into, the number of children and their
parts stay the same. -/
theorem C25_one_wild_child :
    (∀ (patterns : List Str) (n : node), InTrie (buildTrie patterns) n →
      (n.children.filter (fun c => c.isWild)).length ≤ 1) ∧
    (∀ (n : node) (pattern : Str) (parts : List Str),
      (∃ c ∈ n.children, c.isWild = true) →
      (n.insert pattern parts).children.length = n.children.length ∧
        (n.insert pattern parts).children.map (fun c => c.part) =
          n.children.map (fun c => c.part)) ∧
    (∀ (root n : node) (position : List Nat) (pattern : Str) (parts : List Str),
      nodeAt position root = some n → (∃ c ∈ n.children, c.isWild = true) →
      ∃ n1, nodeAt position (root.insert pattern parts) = some n1 ∧
        n1.children.length = n.children.length ∧
        n1.children.map (fun c => c.part) = n.children.map (fun c => c.part) ∧
        ∃ c ∈ n1.children, c.isWild = true) := by
  refine ⟨?_, ?_, ?_⟩
  · intro patterns n hn
    exact (oneWild_inTrie hn (buildTrie_oneWild patterns)).here_le
  · intro n pattern parts hw
    exact insert_children_of_wild pattern parts n hw
  · intro root n position pattern parts hpos hw
    obtain ⟨y, hy, hor⟩ := nodeAt_insert pattern position root n parts hpos
    rcases hor with h1 | ⟨parts1, h1⟩
    · subst h1
      exact ⟨y, hy, rfl, rfl, hw⟩
    · subst h1
      have h2 := insert_children_of_wild pattern parts1 n hw
      exact ⟨_, hy, h2.1, h2.2, insert_keeps_wild pattern parts1 n hw⟩

/-- C25 at the root of the trie built from `/:x/a` and `/b/c`: the root has the
single child `:x`, which is wild, and the second `insert` added no child. -/
theorem C25_one_wild_child_witness :
    ((buildTrie ["/:x/a".toList, "/b/c".toList]).children.filter
        (fun c => c.isWild)).length ≤ 1 ∧
    (buildTrie ["/:x/a".toList, "/b/c".toList]).children.map (fun c => c.part) =
      [":x".toList] :=
  ⟨C25_one_wild_child.1 ["/:x/a".toList, "/b/c".toList] _ (InTrie.here _), by decide⟩

end Lee
